import Mathlib

/-!
# hotplug2 `uevent.c`: a shallow embedding and its properties

The C unit parses a kernel hotplug event (`ACTION@DEVPATH\0KEY=VALUE\0...`)
into a record.  The embedding keeps the source's control flow:

* a byte is a `Nat`; the memory readable from a pointer is the `List Nat` of
  the bytes at and after it, and a pointer into it is an offset;
* a C string value (what `strdup` returns) is the list of its bytes before the
  terminating NUL;
* a read that runs off the end of the memory has no defined result in C: the
  embedding reports it as `Outcome.fault`;
* the `int` variables `size` and `skip` are `Int`; the arithmetic on them does
  not wrap for memories shorter than `2^31` bytes, which is assumed;
* the `while` loop is iterated under an explicit budget, `Outcome.timeout`
  being the result of an exhausted budget;
* `xmalloc` and `xrealloc` of the absent `xmemutils` return the block asked
  for; a request for a negative number of bytes cannot be met and is a fault;
* `strchr`, `strlen`, `strcmp`, `strdup`, `strtoull` and `basename` are the C
  library's, `basename` the POSIX one of `libgen.h`, and `event_seqnum_t` is
  a 64-bit unsigned integer;
* the record functions are given twice: over records as values, and, for what
  depends on which blocks two records share, over a heap of blocks reached
  through addresses, where `malloc` returns an address not used so far.
-/

namespace Uevent

/-! ## Bytes and strings -/

/-- The bytes of a string literal whose characters are all below 128. -/
def str (s : String) : List Nat := s.toList.map Char.toNat

/-- The three ways a modelled call can end. -/
inductive Outcome (α : Type) where
  /-- The iteration budget of a loop ran out. -/
  | timeout : Outcome α
  /-- The call left defined behaviour: a read outside the memory, or an
  allocation whose size is negative. -/
  | fault : Outcome α
  /-- The call returned. -/
  | done : α → Outcome α
  deriving DecidableEq

/-- Result of scanning a C string for a byte. -/
inductive Scan where
  /-- The end of the memory came before the byte or a NUL. -/
  | oob : Scan
  /-- A NUL came first: `strchr` returns `NULL`. -/
  | null : Scan
  /-- The byte was found at this offset from the start of the scan. -/
  | found : Nat → Scan
  deriving DecidableEq

/-- C library `strchr(s, c)` for a byte `c`, with `s` pointing at the first
element of the list. -/
def strchr (c : Nat) : List Nat → Scan
  | [] => Scan.oob
  | b :: rest =>
    if b = c then Scan.found 0
    else if b = 0 then Scan.null
    else
      match strchr c rest with
      | Scan.found i => Scan.found (i + 1)
      | r => r

/-- The C string at the start of the list: its bytes before the first NUL, or
`none` when the memory ends before a NUL is met.  This is what `strdup`
copies. -/
def cstr : List Nat → Option (List Nat)
  | [] => none
  | b :: rest => if b = 0 then some [] else (cstr rest).map (fun s => b :: s)

/-- C library `strlen`. -/
def strlen (m : List Nat) : Option Nat := (cstr m).map List.length

/-- C library `strcmp` on two string values.  The C standard fixes only the
sign of the result; the model returns `-1`, `0` or `1`. -/
def strcmp : List Nat → List Nat → Int
  | [], [] => 0
  | [], _ :: _ => -1
  | _ :: _, [] => 1
  | a :: s, b :: t => if a = b then strcmp s t else if a < b then -1 else 1

/-- Removes the trailing `/` bytes of a reversed path. -/
def dropSlashes : List Nat → List Nat
  | [] => []
  | b :: rest => if b = 47 then dropSlashes rest else b :: rest

/-- C library `basename` of `libgen.h` (POSIX) on a string value: `.` for the
empty string, `/` for a string of slashes only, and otherwise the last
component once trailing slashes are removed. -/
def basename (path : List Nat) : List Nat :=
  if path = [] then [46]
  else
    match dropSlashes path.reverse with
    | [] => [47]
    | b :: rest => ((b :: rest).takeWhile (fun x => x ≠ 47)).reverse

/-! ## `strtoull(s, NULL, 0)` -/

/-- C library `isspace` in the C locale. -/
def isspace (b : Nat) : Bool := b = 32 || (9 ≤ b && b ≤ 13)

/-- Value of a byte as a digit, for every base up to 36. -/
def digitVal (b : Nat) : Option Nat :=
  if 48 ≤ b ∧ b ≤ 57 then some (b - 48)
  else if 97 ≤ b ∧ b ≤ 122 then some (b - 97 + 10)
  else if 65 ≤ b ∧ b ≤ 90 then some (b - 65 + 10)
  else none

/-- Accumulates the longest prefix of digits of the base, from the left. -/
def accDigits (base : Nat) : Nat → List Nat → Nat
  | acc, [] => acc
  | acc, b :: rest =>
    match digitVal b with
    | some d => if d < base then accDigits base (acc * base + d) rest else acc
    | none => acc

/-- The unsigned value after an optional sign has been read: `0x`/`0X` selects
base 16, a leading `0` base 8, anything else base 10. -/
def magnitude : List Nat → Nat
  | 48 :: 120 :: rest => accDigits 16 0 rest
  | 48 :: 88 :: rest => accDigits 16 0 rest
  | 48 :: rest => accDigits 8 0 rest
  | s => accDigits 10 0 s

/-- C `ULLONG_MAX` for a 64-bit `unsigned long long`. -/
def ULLONG_MAX : Nat := 2 ^ 64 - 1

/-- The value once the sign is known: `ULLONG_MAX` on overflow, the negation
modulo `2^64` after a minus sign. -/
def signed (neg : Bool) (v : Nat) : Nat :=
  if v > ULLONG_MAX then ULLONG_MAX
  else if neg then (2 ^ 64 - v) % 2 ^ 64 else v

/-- C library `strtoull(s, NULL, 0)` on a string value: white space is
skipped, a sign is optional, and a string without digits gives 0. -/
def strtoull (s : List Nat) : Nat :=
  match s.dropWhile isspace with
  | 45 :: rest => signed true (magnitude rest)
  | 43 :: rest => signed false (magnitude rest)
  | t => signed false (magnitude t)

/-! ## The record -/

/-- Modelled from the spec: the `ACTION_*` macros of the absent header
`uevent.h`, as the closed enumeration Add, Remove, Unknown. -/
inductive action_t where
  | ACTION_ADD : action_t
  | ACTION_REMOVE : action_t
  | ACTION_UNKNOWN : action_t
  deriving DecidableEq

/-- Modelled from the spec: `struct env_var_t` of the absent header
`uevent.h`, a pair of owned strings. -/
structure env_var_t where
  key : List Nat
  value : List Nat
  deriving DecidableEq

/-- Modelled from the spec: `struct uevent_t` of the absent header
`uevent.h`.  The array `env_vars` with its count `env_vars_c` is a list; a
field the code has not assigned since allocation is `none`. -/
structure uevent_t where
  action : action_t
  action_str : Option (List Nat)
  seqnum : Option Nat
  env_vars : List env_var_t
  plain : List Nat
  plain_s : Int
  deriving DecidableEq

/-- The count field `env_vars_c`. -/
def uevent_t.env_vars_c (u : uevent_t) : Nat := u.env_vars.length

/-! ## The functions of `uevent.c` -/

/-- `set_seqnum`: `none` is the return value -1 (the string pointer is
`NULL`), `some n` is return value 0 with `n` stored through the second
argument. -/
def set_seqnum (seqnum_str : Option (List Nat)) : Option Nat :=
  match seqnum_str with
  | none => none
  | some s => some (strtoull s)

/-- `get_uevent_action`. -/
def get_uevent_action (action : List Nat) : action_t :=
  if strcmp action (str "add") = 0 then action_t.ACTION_ADD
  else if strcmp action (str "remove") = 0 then action_t.ACTION_REMOVE
  else action_t.ACTION_UNKNOWN

/-- The loop of `uevent_getvalue` over the entries from index `i` on. -/
def getvalue_from (key : List Nat) : List env_var_t → Option (List Nat)
  | [] => none
  | e :: rest => if strcmp e.key key = 0 then some e.value else getvalue_from key rest

/-- `uevent_getvalue`: `none` is `NULL`. -/
def uevent_getvalue (uevent : uevent_t) (key : List Nat) : Option (List Nat) :=
  getvalue_from key uevent.env_vars

/-- `uevent_add_env(uevent, item)` with `item` the offset of the item in
`mem`.  Returns the C return value, the record and the memory after the
call. -/
def uevent_add_env (uevent : uevent_t) (mem : List Nat) (item : Nat) :
    Outcome (Int × uevent_t × List Nat) :=
  match strchr 61 (mem.drop item) with
  | Scan.oob => Outcome.fault
  | Scan.null => Outcome.done (-1, uevent, mem)
  | Scan.found k =>
    let ptr := item + k
    let m1 := mem.set ptr 0
    match cstr (m1.drop item), cstr (m1.drop (ptr + 1)) with
    | some key, some value =>
      let u1 := { uevent with env_vars := uevent.env_vars ++ [⟨key, value⟩] }
      let u2 :=
        if strcmp key (str "DEVPATH") = 0 then
          { u1 with env_vars := u1.env_vars ++ [⟨str "DEVICENAME", basename value⟩] }
        else u1
      Outcome.done (0, u2, m1.set ptr 61)
    | _, _ => Outcome.fault

/-- `uevent_dup`: `action_str` and `seqnum` of the copy are left unassigned.
The `memcpy` reads `plain_s` bytes of the source's `plain`, which is a fault
when the block is shorter or the size negative. -/
def uevent_dup (src : uevent_t) : Outcome uevent_t :=
  if src.plain_s < 0 ∨ (src.plain.length : Int) < src.plain_s then Outcome.fault
  else
    Outcome.done
      { action := src.action
        action_str := none
        seqnum := none
        env_vars := src.env_vars.map (fun e => ⟨e.key, e.value⟩)
        plain := src.plain.take src.plain_s.toNat
        plain_s := src.plain_s }

/-- The `while (size > 0)` loop of `uevent_deserialize`, run for at most
`budget` iterations; `ptr` is an offset into `mem`. -/
def scan_tokens : Nat → uevent_t → List Nat → Nat → Int → Outcome (uevent_t × List Nat)
  | 0, uevent, mem, _, size =>
    if size > 0 then Outcome.timeout else Outcome.done (uevent, mem)
  | budget + 1, uevent, mem, ptr, size =>
    if size > 0 then
      match uevent_add_env uevent mem ptr with
      | Outcome.done (_, u1, m1) =>
        match strlen (m1.drop ptr) with
        | some skip => scan_tokens budget u1 m1 (ptr + skip + 1) (size - (skip + 1))
        | none => Outcome.fault
      | Outcome.fault => Outcome.fault
      | Outcome.timeout => Outcome.timeout
    else Outcome.done (uevent, mem)

/-- `uevent_deserialize(uevent_str, size)`.  Returns the record (`none` is
`NULL`) and the memory after the call.  Every iteration of the loop lowers
`size` by at least one, so `size.toNat` iterations are the budget. -/
def uevent_deserialize (uevent_str : List Nat) (size : Int) :
    Outcome (Option uevent_t × List Nat) :=
  match strchr 64 uevent_str with
  | Scan.oob => Outcome.fault
  | Scan.null => Outcome.done (none, uevent_str)
  | Scan.found p =>
    let m1 := uevent_str.set p 0
    match cstr m1 with
    | none => Outcome.fault
    | some action_str =>
      if size < 0 then Outcome.fault
      else
        let m2 := m1.set p 64
        if (m2.length : Int) < size then Outcome.fault
        else
          let uevent : uevent_t :=
            { action := get_uevent_action action_str
              action_str := some action_str
              seqnum := none
              env_vars := []
              plain := m2.take size.toNat
              plain_s := size }
          let m3 := m2.set p 0
          let skip : Int := p + 1
          match scan_tokens (size - skip).toNat uevent m3 (p + 1) (size - skip) with
          | Outcome.timeout => Outcome.timeout
          | Outcome.fault => Outcome.fault
          | Outcome.done (u, m) =>
            match set_seqnum (uevent_getvalue u (str "SEQNUM")) with
            | none => Outcome.done (none, m)
            | some n => Outcome.done (some { u with seqnum := some n }, m)

/-! ## Tokens of the payload -/

/-- Splits a token at its first `=` (byte 61): the key before it and the value
after it; `none` when the token has no `=`. -/
def split_eq : List Nat → Option (List Nat × List Nat)
  | [] => none
  | b :: rest =>
    if b = 61 then some ([], rest)
    else (split_eq rest).map (fun kv => (b :: kv.1, kv.2))

/-- The entries one `KEY=VALUE` pair adds to the store: the pair itself, and
after a `DEVPATH` pair the derived `DEVICENAME` pair. -/
def pair_entries (key value : List Nat) : List env_var_t :=
  if key = str "DEVPATH" then [⟨key, value⟩, ⟨str "DEVICENAME", basename value⟩]
  else [⟨key, value⟩]

/-- The entries a token adds to the store: none for a token without `=`. -/
def entries_of (tok : List Nat) : List env_var_t :=
  match split_eq tok with
  | none => []
  | some (key, value) => pair_entries key value

/-- The NUL-separated pieces of a byte sequence; the last piece is the one
no NUL terminates. -/
def tokens : List Nat → List (List Nat)
  | [] => [[]]
  | b :: rest =>
    if b = 0 then [] :: tokens rest
    else
      match tokens rest with
      | [] => [[b]]
      | t :: ts => (b :: t) :: ts

/-- The bytes after the first `@` (byte 64). -/
def payload (mem : List Nat) : List Nat := (mem.dropWhile (fun b => b ≠ 64)).drop 1

/-- The tokens the scan of `uevent_deserialize` reads while `size` bytes
remain, given the NUL-separated pieces ahead of it: a token is read whenever
`size` is positive, and lowers it by its length plus one.  `none` when the
scan has to read the last piece, which no NUL terminates. -/
def scanned : List (List Nat) → Int → Option (List (List Nat))
  | [], size => if size > 0 then none else some []
  | [_], size => if size > 0 then none else some []
  | t :: t2 :: ts, size =>
    if size > 0 then (scanned (t2 :: ts) (size - (t.length + 1))).map (fun l => t :: l)
    else some []

/-- The record `uevent_deserialize` builds when the scan ends and the store
has the tokens' entries. -/
def built (s rest : List Nat) (size : Int) (toks : List (List Nat)) : Option uevent_t :=
  match getvalue_from (str "SEQNUM") (toks.flatMap entries_of) with
  | none => none
  | some v =>
    some { action := get_uevent_action s
           action_str := some s
           seqnum := some (strtoull v)
           env_vars := toks.flatMap entries_of
           plain := (s ++ 64 :: rest).take size.toNat
           plain_s := size }

/-- The event of the specification's example: `add@/devices/x` with a
`DEVPATH` and `SEQNUM=42`, 44 bytes. -/
def example_buffer : List Nat :=
  str "add@/devices/x\x00DEVPATH=/devices/x\x00SEQNUM=42\x00"

/-- The record the example event parses to. -/
def example_record : uevent_t :=
  { action := action_t.ACTION_ADD
    action_str := some (str "add")
    seqnum := some 42
    env_vars :=
      [⟨str "DEVPATH", str "/devices/x"⟩, ⟨str "DEVICENAME", str "x"⟩,
        ⟨str "SEQNUM", str "42"⟩]
    plain := example_buffer
    plain_s := 44 }

/-- The number a string of decimal digits denotes. -/
def decimal_value (n : List Nat) : Nat := n.foldl (fun acc b => acc * 10 + (b - 48)) 0

/-- The buffer `add@P\0DEVPATH=P\0SEQNUM=n\0` for a path `P` and a numeral
`n`. -/
def add_event (P n : List Nat) : List Nat :=
  str "add@" ++ P ++ [0] ++ str "DEVPATH=" ++ P ++ [0] ++ str "SEQNUM=" ++ n ++ [0]

/-- The record a call returned, if it returned one. -/
def Outcome.record (o : Outcome (Option uevent_t × List Nat)) : Option uevent_t :=
  match o with
  | Outcome.done (r, _) => r
  | _ => none

/-- Whether a byte is a digit of the base. -/
def is_digit (base b : Nat) : Bool :=
  match digitVal b with
  | some d => decide (d < base)
  | none => false

/-- The number a string of digits denotes in the base. -/
def digits_value (base : Nat) (ds : List Nat) : Nat :=
  ds.foldl (fun acc b => acc * base + (digitVal b).getD 0) 0

/-- In a store, every `DEVPATH` entry is followed at once by the
`DEVICENAME` entry made from its value. -/
def devpath_followed (l : List env_var_t) : Prop :=
  ∀ (i : Nat) (e : env_var_t), l[i]? = some e → e.key = str "DEVPATH" →
    l[i + 1]? = some ⟨str "DEVICENAME", basename e.value⟩

/-! ## Records in a heap

The functions above take and return records as values.  To tell a copy from
an alias, the record functions are given a second time over a heap: a block
is reached through its address, `malloc` returns an address not used so far,
and a freed address is never handed out again.  `none` is the result of a
call that leaves defined behaviour, by reading or writing a block that is
not there. -/

/-- `struct uevent_t` as it lies in the heap: a pointer is the address of a
block, `none` a pointer that is `NULL` or was never assigned. -/
structure uevent_cell where
  action : action_t
  action_str : Option Nat
  seqnum : Option Nat
  env_vars : Option Nat
  env_vars_c : Nat
  plain : Option Nat
  plain_s : Int
  deriving DecidableEq

/-- A block of the heap: the bytes of a string or of `plain`, an array of
`struct env_var_t` with its key and value pointers, or a `struct uevent_t`. -/
inductive Block where
  | bytes : List Nat → Block
  | vars : List (Option Nat × Option Nat) → Block
  | event : uevent_cell → Block
  deriving DecidableEq

/-- The heap: the block at each address, `none` once it is freed. -/
abbrev Heap := List (Option Block)

/-- The block at an address. -/
def load (h : Heap) (a : Nat) : Option Block :=
  match h[a]? with
  | some (some b) => some b
  | _ => none

/-- C library `malloc` followed by the initialisation of the block. -/
def malloc (h : Heap) (b : Block) : Nat × Heap := (h.length, h ++ [some b])

/-- The string or byte block a pointer leads to. -/
def load_bytes (h : Heap) (p : Option Nat) : Option (List Nat) :=
  match p with
  | none => none
  | some a =>
    match load h a with
    | some (Block.bytes s) => some s
    | _ => none

/-- The `env_var_t` array a pointer leads to. -/
def load_vars (h : Heap) (p : Option Nat) : Option (List (Option Nat × Option Nat)) :=
  match p with
  | none => none
  | some a =>
    match load h a with
    | some (Block.vars l) => some l
    | _ => none

/-- The `struct uevent_t` at an address. -/
def load_event (h : Heap) (a : Nat) : Option uevent_cell :=
  match load h a with
  | some (Block.event c) => some c
  | _ => none

/-- Reads `arr[i]`. -/
def load_var (h : Heap) (arr : Option Nat) (i : Nat) : Option (Option Nat × Option Nat) :=
  match load_vars h arr with
  | none => none
  | some l => l[i]?

/-- The assignment `arr[i] = e`. -/
def store_var (h : Heap) (arr : Option Nat) (i : Nat) (e : Option Nat × Option Nat) :
    Option Heap :=
  match arr with
  | none => none
  | some a =>
    match load h a with
    | some (Block.vars l) =>
      if i < l.length then some (h.set a (some (Block.vars (l.set i e)))) else none
    | _ => none

/-- The assignment `arr[i].key = k`. -/
def store_key (h : Heap) (arr : Option Nat) (i : Nat) (k : Nat) : Option Heap :=
  match load_var h arr i with
  | none => none
  | some e => store_var h arr i (some k, e.2)

/-- The assignment `arr[i].value = v`. -/
def store_value (h : Heap) (arr : Option Nat) (i : Nat) (v : Nat) : Option Heap :=
  match load_var h arr i with
  | none => none
  | some e => store_var h arr i (e.1, some v)

/-- C library `strdup` of a string in the heap. -/
def heap_strdup (h : Heap) (p : Option Nat) : Option (Nat × Heap) :=
  match load_bytes h p with
  | none => none
  | some s => some (malloc h (Block.bytes s))

/-- The loop of `uevent_getvalue` from index `i`, with `n` entries left. -/
def heap_getvalue_loop (h : Heap) (arr : Option Nat) (key : List Nat) :
    Nat → Nat → Option (Option (List Nat))
  | 0, _ => some none
  | n + 1, i =>
    match load_var h arr i with
    | none => none
    | some e =>
      match load_bytes h e.1 with
      | none => none
      | some k =>
        if strcmp k key = 0 then
          match load_bytes h e.2 with
          | none => none
          | some v => some (some v)
        else heap_getvalue_loop h arr key n (i + 1)

/-- `uevent_getvalue` on the record at address `uevent`: the string the
returned pointer leads to, `some none` for `NULL`. -/
def heap_getvalue (h : Heap) (uevent : Nat) (key : List Nat) : Option (Option (List Nat)) :=
  match load_event h uevent with
  | none => none
  | some c => heap_getvalue_loop h c.env_vars key c.env_vars_c 0

/-- The loop of `uevent_dup` from index `i`, with `n` entries left: the key
and then the value of `src->env_vars[i]` are duplicated into
`dest->env_vars[i]`. -/
def heap_dup_loop (sa da : Option Nat) : Nat → Nat → Heap → Option Heap
  | 0, _, h => some h
  | n + 1, i, h =>
    match load_var h sa i with
    | none => none
    | some e =>
      match heap_strdup h e.1 with
      | none => none
      | some (ka, h1) =>
        match store_key h1 da i ka with
        | none => none
        | some h2 =>
          match load_var h2 sa i with
          | none => none
          | some e2 =>
            match heap_strdup h2 e2.2 with
            | none => none
            | some (va, h3) =>
              match store_value h3 da i va with
              | none => none
              | some h4 => heap_dup_loop sa da n (i + 1) h4

/-- `uevent_dup` on the record at address `src`: the new `struct uevent_t`,
its array and its `plain` are three fresh blocks, in the order of the three
`xmalloc` calls; `action_str` and `seqnum` of the copy stay unassigned.
Returns the address of the copy and the heap. -/
def heap_dup (h : Heap) (src : Nat) : Option (Nat × Heap) :=
  match load_event h src with
  | none => none
  | some c =>
    match load_bytes h c.plain with
    | none => none
    | some p =>
      if c.plain_s < 0 ∨ (p.length : Int) < c.plain_s then none
      else
        let dest := h.length
        let h1 := h ++
          [some (Block.event
              { action := c.action
                action_str := none
                seqnum := none
                env_vars := some (dest + 1)
                env_vars_c := c.env_vars_c
                plain := some (dest + 2)
                plain_s := c.plain_s }),
            some (Block.vars (List.replicate c.env_vars_c (none, none))),
            some (Block.bytes (p.take c.plain_s.toNat))]
        match heap_dup_loop c.env_vars (some (dest + 1)) c.env_vars_c 0 h1 with
        | none => none
        | some h2 => some (dest, h2)

/-- `xrealloc` of an `env_var_t` array to `n` entries.  The entries kept are
copied; the block either stays where it is or moves to a fresh address, the
old one being freed, as `moves` says for its address. -/
def xrealloc (moves : Nat → Bool) (h : Heap) (p : Option Nat) (n : Nat) :
    Option (Nat × Heap) :=
  match p with
  | none => some (malloc h (Block.vars (List.replicate n (none, none))))
  | some a =>
    match load h a with
    | some (Block.vars l) =>
      let l2 := l.take n ++ List.replicate (n - l.length) (none, none)
      if moves a then some (h.length, (h ++ [some (Block.vars l2)]).set a none)
      else some (a, h.set a (some (Block.vars l2)))
    | _ => none

/-- One entry appended by `uevent_add_env` to the record at `uevent`: the
count is raised, the array reallocated, and the key and the value are fresh
strings.  `tmp` is the scratch string of the `DEVICENAME` branch, allocated
before the value and freed after it. -/
def heap_push (moves : Nat → Bool) (h : Heap) (uevent : Nat) (key value : List Nat)
    (tmp : Option (List Nat)) : Option Heap :=
  match load_event h uevent with
  | none => none
  | some c =>
    match xrealloc moves h c.env_vars (c.env_vars_c + 1) with
    | none => none
    | some (a, h1) =>
      match load h1 uevent with
      | none => none
      | some _ =>
        let h2 := h1.set uevent
          (some (Block.event { c with env_vars_c := c.env_vars_c + 1, env_vars := some a }))
        let (ka, h3) := malloc h2 (Block.bytes key)
        match store_key h3 (some a) c.env_vars_c ka with
        | none => none
        | some h4 =>
          match tmp with
          | none =>
            let (va, h5) := malloc h4 (Block.bytes value)
            store_value h5 (some a) c.env_vars_c va
          | some t =>
            let (ta, h5) := malloc h4 (Block.bytes t)
            let (va, h6) := malloc h5 (Block.bytes value)
            match store_value h6 (some a) c.env_vars_c va with
            | none => none
            | some h7 => some (h7.set ta none)

/-- `uevent_add_env` on the record at address `uevent`, the item lying at
offset `item` of the caller's memory `mem`.  Returns the C return value, the
heap and the memory. -/
def heap_add_env (moves : Nat → Bool) (h : Heap) (uevent : Nat) (mem : List Nat)
    (item : Nat) : Option (Int × Heap × List Nat) :=
  match strchr 61 (mem.drop item) with
  | Scan.oob => none
  | Scan.null => some (-1, h, mem)
  | Scan.found k =>
    let ptr := item + k
    let m1 := mem.set ptr 0
    match cstr (m1.drop item), cstr (m1.drop (ptr + 1)) with
    | some key, some value =>
      match heap_push moves h uevent key value none with
      | none => none
      | some h1 =>
        if strcmp key (str "DEVPATH") = 0 then
          match heap_push moves h1 uevent (str "DEVICENAME") (basename value) (some value) with
          | none => none
          | some h2 => some (0, h2, m1.set ptr 61)
        else some (0, h1, m1.set ptr 61)
    | _, _ => none

/-- The entries an array of key and value pointers stands for. -/
def read_entries (h : Heap) : List (Option Nat × Option Nat) → Option (List env_var_t)
  | [] => some []
  | e :: rest =>
    match load_bytes h e.1, load_bytes h e.2, read_entries h rest with
    | some k, some v, some l => some (⟨k, v⟩ :: l)
    | _, _, _ => none

/-- The entries of the record with the given cell. -/
def read_store (h : Heap) (c : uevent_cell) : Option (List env_var_t) :=
  if c.env_vars_c = 0 then some []
  else
    match load_vars h c.env_vars with
    | none => none
    | some l => if c.env_vars_c ≤ l.length then read_entries h (l.take c.env_vars_c) else none

/-- The string an optional pointer stands for. -/
def read_optional (h : Heap) (p : Option Nat) : Option (Option (List Nat)) :=
  match p with
  | none => some none
  | some a =>
    match load_bytes h (some a) with
    | none => none
    | some s => some (some s)

/-- The record, as a value, that the heap holds at an address: `none` when a
pointer of it leads nowhere. -/
def heap_record (h : Heap) (u : Nat) : Option uevent_t :=
  match load_event h u with
  | none => none
  | some c =>
    match read_store h c, load_bytes h c.plain, read_optional h c.action_str with
    | some es, some p, some a =>
      some { action := c.action
             action_str := a
             seqnum := c.seqnum
             env_vars := es
             plain := p
             plain_s := c.plain_s }
    | _, _, _ => none

/-- A heap that holds the record of the example event at address 0. -/
def example_heap : Heap :=
  [some (Block.event
      { action := action_t.ACTION_ADD
        action_str := some 1
        seqnum := some 42
        env_vars := some 3
        env_vars_c := 3
        plain := some 2
        plain_s := 44 }),
    some (Block.bytes (str "add")),
    some (Block.bytes example_buffer),
    some (Block.vars [(some 4, some 5), (some 6, some 7), (some 8, some 9)]),
    some (Block.bytes (str "DEVPATH")), some (Block.bytes (str "/devices/x")),
    some (Block.bytes (str "DEVICENAME")), some (Block.bytes (str "x")),
    some (Block.bytes (str "SEQNUM")), some (Block.bytes (str "42"))]

/-- The heap `h2` has every block of `h`, unchanged, and is at least as
long. -/
def keeps (h h2 : Heap) : Prop :=
  h.length ≤ h2.length ∧ ∀ a b, load h a = some b → load h2 a = some b

/-- The heap `h2` has every block of `h` that is not at address `x`. -/
def keeps_but (x : Nat) (h h2 : Heap) : Prop :=
  h.length ≤ h2.length ∧ ∀ a b, a ≠ x → load h a = some b → load h2 a = some b

/-- The record at `u` and its array lie at or above address `base`. -/
def owned (base u : Nat) (h : Heap) : Prop :=
  base ≤ u ∧ ∀ c, load_event h u = some c → ∀ a, c.env_vars = some a → base ≤ a

/-- The array pointer of the record at `u`, when it is not `NULL`, leads to
an array. -/
def arrayed (h : Heap) (u : Nat) : Prop :=
  ∀ c, load_event h u = some c → ∀ a, c.env_vars = some a →
    ∃ l, load h a = some (Block.vars l)

/-! ## Scanning strings -/

theorem cstr_append (s rest : List Nat) (h : 0 ∉ s) : cstr (s ++ 0 :: rest) = some s := by
  induction s with
  | nil => simp [cstr]
  | cons b s ih =>
    have hb : b ≠ 0 := fun e => h (by simp [e])
    have hs : 0 ∉ s := fun e => h (by simp [e])
    simp [cstr, hb, ih hs]

theorem cstr_eq_some {m s : List Nat} (h : cstr m = some s) :
    0 ∉ s ∧ ∃ rest, m = s ++ 0 :: rest := by
  induction m generalizing s with
  | nil => simp [cstr] at h
  | cons b m ih =>
    unfold cstr at h
    by_cases hb : b = 0
    · simp [hb] at h
      subst h
      exact ⟨by simp, m, by simp [hb]⟩
    · simp only [hb, if_false, Option.map_eq_some'] at h
      obtain ⟨t, ht, rfl⟩ := h
      obtain ⟨h0, rest, hr⟩ := ih ht
      refine ⟨?_, rest, by simp [hr]⟩
      simp only [List.mem_cons, not_or]
      exact ⟨fun e => hb e.symm, h0⟩

theorem cstr_eq_none {m : List Nat} : cstr m = none ↔ 0 ∉ m := by
  induction m with
  | nil => simp [cstr]
  | cons b m ih =>
    unfold cstr
    by_cases hb : b = 0
    · simp [hb]
    · have : ¬ (0 = b) := fun e => hb e.symm
      simp [hb, ih, this]

theorem strchr_found {c : Nat} {m : List Nat} {k : Nat} (h : strchr c m = Scan.found k) :
    ∃ s rest, m = s ++ c :: rest ∧ s.length = k ∧ c ∉ s ∧ 0 ∉ s := by
  induction m generalizing k with
  | nil => simp [strchr] at h
  | cons b m ih =>
    unfold strchr at h
    by_cases hb : b = c
    · simp [hb] at h
      exact ⟨[], m, by simp [hb], by simp [h], by simp, by simp⟩
    · by_cases h0 : b = 0
      · simp [hb, h0] at h
        simp [h0] at hb
        simp [hb] at h
      · simp only [hb, h0, if_false] at h
        cases hm : strchr c m with
        | oob => simp [hm] at h
        | null => simp [hm] at h
        | found i =>
          simp [hm] at h
          obtain ⟨s, rest, e, hl, hc, hz⟩ := ih hm
          refine ⟨b :: s, rest, by simp [e], by simp [hl, h], ?_, ?_⟩
          · simp only [List.mem_cons, not_or]; exact ⟨fun e => hb e.symm, hc⟩
          · simp only [List.mem_cons, not_or]; exact ⟨fun e => h0 e.symm, hz⟩

theorem strchr_null {c : Nat} {m : List Nat} (h : strchr c m = Scan.null) :
    ∃ s rest, m = s ++ 0 :: rest ∧ c ∉ s ∧ 0 ∉ s ∧ c ≠ 0 := by
  induction m with
  | nil => simp [strchr] at h
  | cons b m ih =>
    unfold strchr at h
    by_cases hb : b = c
    · simp [hb] at h
    · by_cases h0 : b = 0
      · exact ⟨[], m, by simp [h0], by simp, by simp, fun e => hb (by rw [h0, e])⟩
      · simp only [hb, h0, if_false] at h
        cases hm : strchr c m with
        | oob => simp [hm] at h
        | found i => simp [hm] at h
        | null =>
          obtain ⟨s, rest, e, hc, hz, hne⟩ := ih hm
          refine ⟨b :: s, rest, by simp [e], ?_, ?_, hne⟩
          · simp only [List.mem_cons, not_or]; exact ⟨fun e => hb e.symm, hc⟩
          · simp only [List.mem_cons, not_or]; exact ⟨fun e => h0 e.symm, hz⟩

theorem strchr_oob {c : Nat} {m : List Nat} (h : strchr c m = Scan.oob) : c ∉ m ∧ 0 ∉ m := by
  induction m with
  | nil => simp
  | cons b m ih =>
    unfold strchr at h
    by_cases hb : b = c
    · simp [hb] at h
    · by_cases h0 : b = 0
      · simp [hb, h0] at h
        simp [h0] at hb
        simp [hb] at h
      · simp only [hb, h0, if_false] at h
        cases hm : strchr c m with
        | null => simp [hm] at h
        | found i => simp [hm] at h
        | oob =>
          obtain ⟨hc, hz⟩ := ih hm
          constructor
          · simp only [List.mem_cons, not_or]; exact ⟨fun e => hb e.symm, hc⟩
          · simp only [List.mem_cons, not_or]; exact ⟨fun e => h0 e.symm, hz⟩

theorem strchr_append_found (c : Nat) (s rest : List Nat) (hc : c ∉ s) (h0 : 0 ∉ s) :
    strchr c (s ++ c :: rest) = Scan.found s.length := by
  induction s with
  | nil => simp [strchr]
  | cons b s ih =>
    have hb : b ≠ c := fun e => hc (by simp [e])
    have hb0 : b ≠ 0 := fun e => h0 (by simp [e])
    have h1 := ih (fun e => hc (by simp [e])) (fun e => h0 (by simp [e]))
    simp [strchr, hb, hb0, h1]

theorem strchr_append_null (c : Nat) (s rest : List Nat) (hc : c ∉ s) (h0 : 0 ∉ s)
    (hne : c ≠ 0) : strchr c (s ++ 0 :: rest) = Scan.null := by
  induction s with
  | nil => simp [strchr, hne.symm]
  | cons b s ih =>
    have hb : b ≠ c := fun e => hc (by simp [e])
    have hb0 : b ≠ 0 := fun e => h0 (by simp [e])
    have h1 := ih (fun e => hc (by simp [e])) (fun e => h0 (by simp [e]))
    simp [strchr, hb, hb0, h1]

theorem strcmp_eq_zero (a b : List Nat) : strcmp a b = 0 ↔ a = b := by
  induction a generalizing b with
  | nil => cases b <;> simp [strcmp]
  | cons x a ih =>
    cases b with
    | nil => simp [strcmp]
    | cons y b =>
      unfold strcmp
      by_cases h : x = y
      · simp [h, ih]
      · by_cases h2 : x < y <;> simp [h, h2]

theorem set_at_length (s rest : List Nat) (c d : Nat) :
    (s ++ c :: rest).set s.length d = s ++ d :: rest := by
  induction s with
  | nil => simp
  | cons b s ih => simp [ih]

theorem drop_at_length (s t : List Nat) : (s ++ t).drop s.length = t := by
  induction s with
  | nil => simp
  | cons b s ih => simp

theorem split_eq_append (key value : List Nat) (h : 61 ∉ key) :
    split_eq (key ++ 61 :: value) = some (key, value) := by
  induction key with
  | nil => simp [split_eq]
  | cons b key ih =>
    have hb : b ≠ 61 := fun e => h (by simp [e])
    simp [split_eq, hb, ih (fun e => h (by simp [e]))]

theorem split_eq_none (tok : List Nat) (h : 61 ∉ tok) : split_eq tok = none := by
  induction tok with
  | nil => simp [split_eq]
  | cons b tok ih =>
    have hb : b ≠ 61 := fun e => h (by simp [e])
    simp [split_eq, hb, ih (fun e => h (by simp [e]))]

theorem split_eq_some {tok key value : List Nat} (h : split_eq tok = some (key, value)) :
    tok = key ++ 61 :: value ∧ 61 ∉ key := by
  induction tok generalizing key with
  | nil => simp [split_eq] at h
  | cons b tok ih =>
    unfold split_eq at h
    by_cases hb : b = 61
    · simp [hb] at h
      obtain ⟨rfl, rfl⟩ := h
      simp [hb]
    · simp only [hb, if_false, Option.map_eq_some'] at h
      obtain ⟨⟨k, v⟩, hkv, e⟩ := h
      simp at e
      obtain ⟨rfl, rfl⟩ := e
      obtain ⟨e1, e2⟩ := ih hkv
      refine ⟨by simp [e1], ?_⟩
      simp only [List.mem_cons, not_or]
      exact ⟨fun e => hb e.symm, e2⟩

/-! ## `uevent_add_env` on a token -/

theorem set_mid (pre s rest : List Nat) (c d : Nat) :
    (pre ++ (s ++ c :: rest)).set (pre.length + s.length) d = pre ++ (s ++ d :: rest) := by
  have h := set_at_length (pre ++ s) rest c d
  simp only [List.append_assoc, List.length_append] at h
  exact h

theorem drop_mid (pre s t : List Nat) :
    (pre ++ (s ++ t)).drop (pre.length + s.length) = t := by
  have h := drop_at_length (pre ++ s) t
  simp only [List.append_assoc, List.length_append] at h
  exact h

theorem add_env_pair (u : uevent_t) (pre key value post : List Nat)
    (hk : 61 ∉ key) (hk0 : 0 ∉ key) (hv : 0 ∉ value) :
    uevent_add_env u (pre ++ (key ++ 61 :: (value ++ 0 :: post))) pre.length =
      Outcome.done (0, { u with env_vars := u.env_vars ++ pair_entries key value },
        pre ++ (key ++ 61 :: (value ++ 0 :: post))) := by
  unfold uevent_add_env
  rw [drop_at_length, strchr_append_found 61 key _ hk hk0]
  simp only []
  rw [set_mid, drop_at_length, cstr_append key _ hk0]
  have h2 : (pre ++ (key ++ 0 :: (value ++ 0 :: post))).drop (pre.length + key.length + 1) =
      value ++ 0 :: post := by
    have := drop_mid pre (key ++ [0]) (value ++ 0 :: post)
    simp only [List.append_assoc, List.length_append, List.length_singleton,
      List.singleton_append] at this
    rw [Nat.add_assoc]
    exact this
  rw [h2, cstr_append value _ hv]
  simp only [set_mid]
  unfold pair_entries
  by_cases hd : key = str "DEVPATH"
  · simp [hd, (strcmp_eq_zero _ _).2]
  · have : strcmp key (str "DEVPATH") ≠ 0 := fun e => hd ((strcmp_eq_zero _ _).1 e)
    simp [hd, this]

theorem add_env_noeq (u : uevent_t) (pre tok post : List Nat)
    (hk : 61 ∉ tok) (hk0 : 0 ∉ tok) :
    uevent_add_env u (pre ++ (tok ++ 0 :: post)) pre.length =
      Outcome.done (-1, u, pre ++ (tok ++ 0 :: post)) := by
  unfold uevent_add_env
  rw [drop_at_length, strchr_append_null 61 tok _ hk hk0 (by decide)]

theorem add_env_fault (u : uevent_t) (mem : List Nat) (item : Nat)
    (h : cstr (mem.drop item) = none) : uevent_add_env u mem item = Outcome.fault := by
  have h0 : 0 ∉ mem.drop item := cstr_eq_none.1 h
  unfold uevent_add_env
  cases hs : strchr 61 (mem.drop item) with
  | oob => rfl
  | null =>
    obtain ⟨s, rest, e, -, -, -⟩ := strchr_null hs
    exact absurd (by simp [e]) h0
  | found k =>
    obtain ⟨s, rest, e, hl, hc, hz⟩ := strchr_found hs
    have hle : item ≤ mem.length := by
      by_contra hcon
      have : mem.drop item = [] := List.drop_eq_nil_of_le (by omega)
      simp [this] at e
    have hmem : mem = mem.take item ++ (s ++ 61 :: rest) := by
      rw [← e, List.take_append_drop]
    have hlen : (mem.take item).length = item := by simp [hle]
    have hrest : 0 ∉ rest := fun hr => h0 (by simp [e, hr])
    simp only []
    have h1 : mem.set (item + k) 0 = mem.take item ++ (s ++ 0 :: rest) := by
      conv_lhs => rw [hmem]
      have := set_mid (mem.take item) s rest 61 0
      rw [hlen, hl] at this
      exact this
    rw [h1]
    have h2 : (mem.take item ++ (s ++ 0 :: rest)).drop (item + k + 1) = rest := by
      have := drop_mid (mem.take item) (s ++ [0]) rest
      rw [hlen] at this
      simpa [List.append_assoc, Nat.add_assoc, hl] using this
    rw [h2, cstr_eq_none.2 hrest]
    split
    · rename_i h3 h4
      cases h4
    · rfl

theorem split_eq_none_iff (tok : List Nat) : split_eq tok = none ↔ 61 ∉ tok := by
  constructor
  · intro h
    induction tok with
    | nil => simp
    | cons x tok ih =>
      unfold split_eq at h
      by_cases hx : x = 61
      · simp [hx] at h
      · simp only [hx, if_false, Option.map_eq_none'] at h
        simp only [List.mem_cons, not_or]
        exact ⟨fun e => hx e.symm, ih h⟩
  · exact split_eq_none tok

/-- What `uevent_add_env` does with the token at `item`: it faults when no NUL
ends the token, and otherwise appends the entries of the token and leaves the
memory as it was. -/
theorem add_env_spec (u : uevent_t) (mem : List Nat) (item : Nat) :
    uevent_add_env u mem item =
      match cstr (mem.drop item) with
      | none => Outcome.fault
      | some tok =>
        Outcome.done (if 61 ∈ tok then 0 else -1,
          { u with env_vars := u.env_vars ++ entries_of tok }, mem) := by
  cases hc : cstr (mem.drop item) with
  | none => exact add_env_fault u mem item hc
  | some tok =>
    obtain ⟨h0, rest, e⟩ := cstr_eq_some hc
    have hle : item ≤ mem.length := by
      by_contra hcon
      have : mem.drop item = [] := List.drop_eq_nil_of_le (by omega)
      simp [this] at e
    have hmem : mem = mem.take item ++ (tok ++ 0 :: rest) := by
      rw [← e, List.take_append_drop]
    have hlen : (mem.take item).length = item := by simp [hle]
    simp only []
    cases hs : split_eq tok with
    | none =>
      have h61 : 61 ∉ tok := (split_eq_none_iff tok).1 hs
      have := add_env_noeq u (mem.take item) tok rest h61 h0
      rw [hlen, ← hmem] at this
      rw [this]
      simp [h61, entries_of, hs]
    | some kv =>
      obtain ⟨key, value⟩ := kv
      obtain ⟨e1, hk⟩ := split_eq_some hs
      have hk0 : 0 ∉ key := fun hin => h0 (by simp [e1, hin])
      have hv0 : 0 ∉ value := fun hin => h0 (by simp [e1, hin])
      have h61 : 61 ∈ tok := by simp [e1]
      have := add_env_pair u (mem.take item) key value rest hk hk0 hv0
      have hm2 : mem.take item ++ (key ++ 61 :: (value ++ 0 :: rest)) = mem := by
        conv_rhs => rw [hmem, e1]
        simp
      rw [hlen, hm2] at this
      rw [this]
      simp [h61, entries_of, hs]

/-! ## The token scan -/

theorem tokens_ne_nil (m : List Nat) : tokens m ≠ [] := by
  cases m with
  | nil => simp [tokens]
  | cons b m =>
    unfold tokens
    by_cases hb : b = 0
    · simp [hb]
    · simp only [hb, if_false]
      split <;> simp

theorem tokens_append (t rest : List Nat) (h : 0 ∉ t) :
    tokens (t ++ 0 :: rest) = t :: tokens rest := by
  induction t with
  | nil => simp [tokens]
  | cons b t ih =>
    have hb : b ≠ 0 := fun e => h (by simp [e])
    have h1 := ih (fun e => h (by simp [e]))
    simp [tokens, hb, h1]

theorem tokens_no_nul (m : List Nat) (h : 0 ∉ m) : tokens m = [m] := by
  induction m with
  | nil => simp [tokens]
  | cons b m ih =>
    have hb : b ≠ 0 := fun e => h (by simp [e])
    have h1 := ih (fun e => h (by simp [e]))
    simp [tokens, hb, h1]

theorem scanned_nonpos (l : List (List Nat)) (size : Int) (h : size ≤ 0) :
    scanned l size = some [] := by
  have hn : ¬ size > 0 := by omega
  match l with
  | [] => simp [scanned, hn]
  | [_] => simp [scanned, hn]
  | _ :: _ :: _ => simp [scanned, hn]

theorem scanned_cons (t : List Nat) (l : List (List Nat)) (size : Int) (hl : l ≠ [])
    (h : size > 0) :
    scanned (t :: l) size = (scanned l (size - (t.length + 1))).map (fun x => t :: x) := by
  cases l with
  | nil => exact absurd rfl hl
  | cons t2 ts => simp [scanned, h]

theorem drop_add_of_drop {mem a b : List Nat} {ptr : Nat} (h : mem.drop ptr = a ++ b) :
    mem.drop (ptr + a.length) = b := by
  rw [← List.drop_drop, h, drop_at_length]

/-- The loop of `uevent_deserialize` reads the tokens `scanned` lists, in
order, appends their entries, and restores the memory; it faults when it has
to read a token no NUL ends, and a budget of `size` iterations is never
exhausted. -/
theorem scan_tokens_spec (n : Nat) (u : uevent_t) (mem : List Nat) (ptr : Nat) (size : Int)
    (hn : size ≤ n) :
    scan_tokens n u mem ptr size =
      match scanned (tokens (mem.drop ptr)) size with
      | none => Outcome.fault
      | some toks =>
        Outcome.done ({ u with env_vars := u.env_vars ++ toks.flatMap entries_of }, mem) := by
  induction n generalizing u ptr size with
  | zero =>
    have h0 : size ≤ 0 := by simpa using hn
    have hn0 : ¬ size > 0 := by omega
    simp [scan_tokens, hn0, scanned_nonpos _ _ h0]
  | succ n ih =>
    unfold scan_tokens
    by_cases hpos : size > 0
    · simp only [hpos, if_true]
      rw [add_env_spec]
      cases hc : cstr (mem.drop ptr) with
      | none =>
        have h0 : 0 ∉ mem.drop ptr := cstr_eq_none.1 hc
        simp [tokens_no_nul _ h0, scanned, hpos]
      | some tok =>
        obtain ⟨h0, rest, e⟩ := cstr_eq_some hc
        have hd : mem.drop (ptr + tok.length + 1) = rest := by
          have := drop_add_of_drop (a := tok ++ [0]) (b := rest) (by simpa using e)
          simpa [Nat.add_assoc] using this
        have hsz : size - ((tok.length : Int) + 1) ≤ n := by push_cast at hn; omega
        simp only [strlen, hc, Option.map_some']
        rw [ih _ _ _ hsz, hd, e, tokens_append tok rest h0,
          scanned_cons tok _ size (tokens_ne_nil rest) hpos]
        cases scanned (tokens rest) (size - ((tok.length : Int) + 1)) with
        | none => rfl
        | some toks => simp [List.append_assoc]
    · have h0 : size ≤ 0 := by omega
      simp [hpos, scanned_nonpos _ _ h0]

theorem dropWhile_at (s rest : List Nat) (hs : 64 ∉ s) :
    (s ++ 64 :: rest).dropWhile (fun b => b ≠ 64) = 64 :: rest := by
  induction s with
  | nil => simp
  | cons b s ih =>
    have hb : b ≠ 64 := fun e => hs (by simp [e])
    have h1 := ih (fun e => hs (by simp [e]))
    rw [List.cons_append, List.dropWhile_cons_of_pos (by simpa using hb)]
    exact h1

theorem payload_append (s rest : List Nat) (hs : 64 ∉ s) : payload (s ++ 64 :: rest) = rest := by
  unfold payload
  rw [dropWhile_at s rest hs]
  rfl

/-- The whole of `uevent_deserialize` on a memory whose first `@` comes before
any NUL, for a size within the memory. -/
theorem deserialize_spec (s rest : List Nat) (size : Int) (hs : 64 ∉ s) (h0 : 0 ∉ s)
    (hsz : 0 ≤ size) (hle : size ≤ (s ++ 64 :: rest).length) :
    uevent_deserialize (s ++ 64 :: rest) size =
      match scanned (tokens rest) (size - (s.length + 1)) with
      | none => Outcome.fault
      | some toks => Outcome.done (built s rest size toks, s ++ 0 :: rest) := by
  unfold uevent_deserialize
  rw [strchr_append_found 64 s rest hs h0]
  simp only [set_at_length, cstr_append s rest h0]
  have h1 : ¬ size < 0 := by omega
  have h2 : ¬ ((s ++ 64 :: rest).length : Int) < size := by omega
  simp only [h1, h2, if_false]
  rw [scan_tokens_spec _ _ _ _ _ (by
    exact Int.self_le_toNat (size - ((s.length : Int) + 1)))]
  have hd : (s ++ 0 :: rest).drop (s.length + 1) = rest := by
    have := drop_at_length (s ++ [0]) rest
    simp only [List.append_assoc, List.length_append, List.length_singleton,
      List.singleton_append] at this
    exact this
  rw [hd]
  cases scanned (tokens rest) (size - ((s.length : Int) + 1)) with
  | none => rfl
  | some toks =>
    simp only [built, uevent_getvalue, set_seqnum, List.nil_append]
    cases getvalue_from (str "SEQNUM") (toks.flatMap entries_of) <;> rfl

theorem deserialize_bad_size (s rest : List Nat) (size : Int) (hs : 64 ∉ s) (h0 : 0 ∉ s)
    (h : size < 0 ∨ ((s ++ 64 :: rest).length : Int) < size) :
    uevent_deserialize (s ++ 64 :: rest) size = Outcome.fault := by
  unfold uevent_deserialize
  rw [strchr_append_found 64 s rest hs h0]
  simp only [set_at_length, cstr_append s rest h0]
  by_cases h1 : size < 0
  · simp only [h1, if_true]
  · have h2 : ((s ++ 64 :: rest).length : Int) < size := by
      rcases h with h | h
      · exact absurd h h1
      · exact h
    simp only [h1, if_false, h2, if_true]

theorem scanned_subset (l : List (List Nat)) (size : Int) (toks : List (List Nat))
    (h : scanned l size = some toks) : ∀ t ∈ toks, t ∈ l := by
  induction l generalizing size toks with
  | nil =>
    unfold scanned at h
    split at h <;> simp at h
    subst h; simp
  | cons a l ih =>
    cases l with
    | nil =>
      unfold scanned at h
      split at h <;> simp at h
      subst h; simp
    | cons b l =>
      unfold scanned at h
      split at h
      · simp only [Option.map_eq_some'] at h
        obtain ⟨x, hx, rfl⟩ := h
        intro t ht
        rcases List.mem_cons.1 ht with e | e
        · simp [e]
        · exact List.mem_cons_of_mem _ (ih _ _ hx t e)
      · simp at h
        subst h; simp

theorem getvalue_from_none (key : List Nat) (l : List env_var_t)
    (h : ∀ e ∈ l, e.key ≠ key) : getvalue_from key l = none := by
  induction l with
  | nil => rfl
  | cons e l ih =>
    have he : strcmp e.key key ≠ 0 := fun c => h e (by simp) ((strcmp_eq_zero _ _).1 c)
    simp [getvalue_from, he, ih (fun x hx => h x (List.mem_cons_of_mem _ hx))]

theorem entries_of_key (tok : List Nat) (e : env_var_t) (he : e ∈ entries_of tok) :
    e.key = str "DEVICENAME" ∨ (e.key ++ [61]) <+: tok := by
  unfold entries_of at he
  cases hs : split_eq tok with
  | none => simp [hs] at he
  | some kv =>
    obtain ⟨key, value⟩ := kv
    obtain ⟨e1, -⟩ := split_eq_some hs
    simp only [hs, pair_entries] at he
    have hp : (key ++ [61]) <+: tok := ⟨value, by simp [e1]⟩
    split at he
    · simp only [List.mem_cons, List.mem_singleton, List.not_mem_nil, or_false] at he
      rcases he with rfl | rfl
      · exact Or.inr hp
      · exact Or.inl rfl
    · simp only [List.mem_singleton] at he
      subst he
      exact Or.inr hp

theorem no_seqnum_entry (toks : List (List Nat))
    (h : ∀ tok ∈ toks, ¬ (str "SEQNUM=" <+: tok)) :
    getvalue_from (str "SEQNUM") (toks.flatMap entries_of) = none := by
  apply getvalue_from_none
  intro e he hk
  obtain ⟨tok, ht, hin⟩ := List.mem_flatMap.1 he
  rcases entries_of_key tok e hin with h1 | h1
  · rw [hk] at h1
    exact absurd h1 (by decide)
  · rw [hk] at h1
    exact h tok ht h1

theorem split_at_nul (m : List Nat) (h : 0 ∈ m) : ∃ t m2, m = t ++ 0 :: m2 ∧ 0 ∉ t := by
  cases hc : cstr m with
  | none => exact absurd h (cstr_eq_none.1 hc)
  | some t =>
    obtain ⟨h0, rest, e⟩ := cstr_eq_some hc
    exact ⟨t, rest, e, h0⟩

theorem scanned_exact (k : Nat) (body beyond : List Nat) (hk : body.length = k) :
    scanned (tokens (body ++ 0 :: beyond)) (body.length + 1) = some (tokens body) := by
  induction k using Nat.strong_induction_on generalizing body with
  | _ k ih =>
    by_cases h0 : 0 ∈ body
    · obtain ⟨t, m2, e, ht⟩ := split_at_nul body h0
      subst e
      have hlen : m2.length < k := by rw [← hk]; simp; omega
      have := ih m2.length hlen m2 rfl
      rw [List.append_assoc, List.cons_append, tokens_append t _ ht, tokens_append t _ ht,
        scanned_cons _ _ _ (tokens_ne_nil _) (by omega)]
      have hsz : (((t ++ 0 :: m2).length : Nat) : Int) + 1 - ((t.length : Int) + 1) =
          (m2.length : Int) + 1 := by
        simp only [List.length_append, List.length_cons]
        push_cast
        omega
      rw [hsz, this]
      rfl
    · rw [tokens_append body _ h0, tokens_no_nul body h0,
        scanned_cons _ _ _ (tokens_ne_nil _) (by omega)]
      have hsz : (body.length : Int) + 1 - ((body.length : Int) + 1) = 0 := by omega
      rw [hsz, scanned_nonpos _ _ (le_refl 0)]
      rfl

/-- On a buffer `s ++ '@' :: body ++ [NUL]` with `s` free of `@` and NUL, parsed
with its full length whatever memory lies `beyond`, the scan reads exactly the
NUL-separated tokens of `body`. -/
theorem deserialize_whole (s body beyond : List Nat) (hs : 64 ∉ s) (h0 : 0 ∉ s) :
    uevent_deserialize (s ++ 64 :: (body ++ 0 :: beyond)) (s.length + 1 + body.length + 1) =
      Outcome.done
        (built s (body ++ 0 :: beyond) (s.length + 1 + body.length + 1) (tokens body),
          s ++ 0 :: (body ++ 0 :: beyond)) := by
  rw [deserialize_spec s _ _ hs h0 (by omega) (by simp; omega)]
  have hsz : (s.length : Int) + 1 + body.length + 1 - ((s.length : Int) + 1) =
      (body.length : Int) + 1 := by omega
  rw [hsz, scanned_exact body.length body beyond rfl]

/-! ## `strtoull` on decimal and on non-numeric strings -/

theorem digitVal_digit (b : Nat) (h : 48 ≤ b ∧ b ≤ 57) : digitVal b = some (b - 48) := by
  simp [digitVal, h]

theorem accDigits_decimal (n : List Nat) (acc : Nat) (hd : ∀ b ∈ n, 48 ≤ b ∧ b ≤ 57) :
    accDigits 10 acc n = n.foldl (fun a b => a * 10 + (b - 48)) acc := by
  induction n generalizing acc with
  | nil => rfl
  | cons b n ih =>
    have hb := hd b (by simp)
    have hlt : b - 48 < 10 := by omega
    simp only [accDigits, digitVal_digit b hb, hlt, if_true, List.foldl_cons]
    exact ih _ (fun x hx => hd x (List.mem_cons_of_mem _ hx))

theorem signed_small (v : Nat) (h : v < 2 ^ 64) : signed false v = v := by
  have : ¬ v > ULLONG_MAX := by unfold ULLONG_MAX; omega
  simp [signed, this]

theorem magnitude_of_ne_zero_digit (b : Nat) (t : List Nat) (hb : b ≠ 48) :
    magnitude (b :: t) = accDigits 10 0 (b :: t) := by
  unfold magnitude
  split
  · rename_i h; simp at h; exact absurd h.1 hb
  · rename_i h; simp at h; exact absurd h.1 hb
  · rename_i h; simp at h; exact absurd h.1 hb
  · rfl

theorem strtoull_of_plain (b : Nat) (t : List Nat) (hsp : isspace b = false) (hm : b ≠ 45)
    (hp : b ≠ 43) (hz : b ≠ 48) :
    strtoull (b :: t) = signed false (accDigits 10 0 (b :: t)) := by
  unfold strtoull
  have hdw : (b :: t).dropWhile isspace = b :: t := by
    simp [List.dropWhile, hsp]
  rw [hdw]
  split
  · rename_i h; simp at h; exact absurd h.1 hm
  · rename_i h; simp at h; exact absurd h.1 hp
  · rw [magnitude_of_ne_zero_digit b t hz]

theorem strtoull_decimal (n : List Nat) (hd : ∀ b ∈ n, 48 ≤ b ∧ b ≤ 57)
    (hlead : n.head? ≠ some 48 ∨ n = [48]) (hlt : decimal_value n < 2 ^ 64) :
    strtoull n = decimal_value n := by
  cases n with
  | nil => decide
  | cons b t =>
    by_cases hz : b = 48
    · rcases hlead with h | h
      · simp [hz] at h
      · rw [h]; decide
    · have hb := hd b (by simp)
      have hsp : isspace b = false := by
        simp only [isspace, Bool.or_eq_false_iff, Bool.and_eq_false_iff, decide_eq_false_iff_not]
        omega
      rw [strtoull_of_plain b t hsp (by omega) (by omega) hz, accDigits_decimal _ _ hd]
      exact signed_small _ hlt

theorem strtoull_non_numeric (v : List Nat)
    (h : ∀ b ∈ v.head?, ¬ (48 ≤ b ∧ b ≤ 57) ∧ isspace b = false ∧ b ≠ 43 ∧ b ≠ 45) :
    strtoull v = 0 := by
  cases v with
  | nil => decide
  | cons b t =>
    obtain ⟨hnd, hsp, hp, hm⟩ := h b (by simp)
    rw [strtoull_of_plain b t hsp hm hp (by omega)]
    have hacc : accDigits 10 0 (b :: t) = 0 := by
      unfold accDigits
      cases hdv : digitVal b with
      | none => rfl
      | some d =>
        have hd10 : ¬ d < 10 := by
          unfold digitVal at hdv
          split at hdv
          · rename_i hh; exact absurd hh hnd
          · split at hdv
            · simp at hdv; omega
            · split at hdv
              · simp at hdv; omega
              · simp at hdv
        simp [hd10]
    rw [hacc]
    decide

/-! ## `basename` -/

theorem basename_last_component (v : List Nat) (hne : v ≠ []) (hl : v.getLast? ≠ some 47) :
    ∃ dir, v = dir ++ basename v ∧ 47 ∉ basename v ∧ (dir = [] ∨ dir.getLast? = some 47) := by
  have hr : v.reverse ≠ [] := by simpa using hne
  obtain ⟨b, t, hbt⟩ := List.exists_cons_of_ne_nil hr
  have hb : b ≠ 47 := by
    intro e
    apply hl
    have : v = t.reverse ++ [b] := by
      have := congrArg List.reverse hbt
      simpa using this
    rw [this, e]
    simp
  have hbase : basename v = (v.reverse.takeWhile (fun x => x ≠ 47)).reverse := by
    unfold basename
    simp only [hne, if_false, hbt, dropSlashes, hb]
  refine ⟨(v.reverse.dropWhile (fun x => x ≠ 47)).reverse, ?_, ?_, ?_⟩
  · rw [hbase, ← List.reverse_append, List.takeWhile_append_dropWhile, List.reverse_reverse]
  · rw [hbase]
    intro hin
    have h1 := List.mem_reverse.1 hin
    have h2 := List.mem_takeWhile_imp h1
    simp at h2
  · cases hd : v.reverse.dropWhile (fun x => x ≠ 47) with
    | nil => simp
    | cons c l =>
      right
      have h1 := List.head_dropWhile_not (fun x => decide (x ≠ 47)) v.reverse
        (by rw [hd]; simp)
      simp only [hd, List.head_cons] at h1
      have hc : c = 47 := by simpa using h1
      simp [hc]

/-! ## Lookup, the example shape, and `SEQNUM` entries -/

theorem getvalue_from_first (key : List Nat) (l : List env_var_t) (i : Nat) (e : env_var_t)
    (hi : l[i]? = some e) (hk : e.key = key)
    (hmin : ∀ j f, j < i → l[j]? = some f → f.key ≠ key) :
    getvalue_from key l = some e.value := by
  induction l generalizing i with
  | nil => simp at hi
  | cons a l ih =>
    cases i with
    | zero =>
      simp at hi
      subst hi
      simp [getvalue_from, (strcmp_eq_zero _ _).2 hk]
    | succ i =>
      have ha : strcmp a.key key ≠ 0 := fun c =>
        hmin 0 a (Nat.succ_pos i) (by simp) ((strcmp_eq_zero _ _).1 c)
      simp only [getvalue_from, ha, if_false]
      apply ih i (by simpa using hi)
      intro j f hj hf
      exact hmin (j + 1) f (by omega) (by simpa using hf)

theorem getvalue_from_eq_none (key : List Nat) (l : List env_var_t) :
    getvalue_from key l = none ↔ ∀ e ∈ l, e.key ≠ key := by
  constructor
  · intro h
    induction l with
    | nil => simp
    | cons a l ih =>
      unfold getvalue_from at h
      by_cases ha : strcmp a.key key = 0
      · simp [ha] at h
      · simp only [ha, if_false] at h
        intro e he
        rcases List.mem_cons.1 he with rfl | h2
        · exact fun c => ha ((strcmp_eq_zero _ _).2 c)
        · exact ih h e h2
  · exact getvalue_from_none key l

theorem add_event_shape (P n : List Nat) :
    add_event P n =
      str "add" ++ 64 ::
        ((P ++ 0 :: (str "DEVPATH=" ++ P ++ 0 :: (str "SEQNUM=" ++ n))) ++ 0 :: []) := by
  have h1 : str "add@" = str "add" ++ [64] := by decide
  simp [add_event, h1, List.append_assoc]

theorem add_event_tokens (P n : List Nat) (hP0 : 0 ∉ P) (hn0 : 0 ∉ n) :
    tokens (P ++ 0 :: (str "DEVPATH=" ++ P ++ 0 :: (str "SEQNUM=" ++ n))) =
      [P, str "DEVPATH=" ++ P, str "SEQNUM=" ++ n] := by
  have hd : 0 ∉ str "DEVPATH=" ++ P := by
    simp only [List.mem_append, not_or]
    exact ⟨by decide, hP0⟩
  have hs : 0 ∉ str "SEQNUM=" ++ n := by
    simp only [List.mem_append, not_or]
    exact ⟨by decide, hn0⟩
  rw [tokens_append P _ hP0, tokens_append _ _ hd, tokens_no_nul _ hs]

theorem entries_of_pair (key value : List Nat) (hk : 61 ∉ key) :
    entries_of (key ++ 61 :: value) = pair_entries key value := by
  simp [entries_of, split_eq_append key value hk]

theorem entries_of_noeq (tok : List Nat) (h : 61 ∉ tok) : entries_of tok = [] := by
  simp [entries_of, split_eq_none tok h]

theorem add_event_entries (P n : List Nat) (hPeq : 61 ∉ P) :
    [P, str "DEVPATH=" ++ P, str "SEQNUM=" ++ n].flatMap entries_of =
      [⟨str "DEVPATH", P⟩, ⟨str "DEVICENAME", basename P⟩, ⟨str "SEQNUM", n⟩] := by
  have e1 : str "DEVPATH=" ++ P = str "DEVPATH" ++ 61 :: P := by
    have : str "DEVPATH=" = str "DEVPATH" ++ [61] := by decide
    simp [this]
  have e2 : str "SEQNUM=" ++ n = str "SEQNUM" ++ 61 :: n := by
    have : str "SEQNUM=" = str "SEQNUM" ++ [61] := by decide
    simp [this]
  have h1 : (str "SEQNUM" = str "DEVPATH") = False := by simp; decide
  simp only [List.flatMap_cons, List.flatMap_nil, entries_of_noeq P hPeq, e1, e2,
    entries_of_pair (str "DEVPATH") P (by decide), entries_of_pair (str "SEQNUM") n (by decide),
    pair_entries, if_true, h1, if_false, List.nil_append, List.append_nil, List.cons_append]

theorem flatMap_entries_filter (l : List (List Nat)) :
    (l.filter (fun t => decide (61 ∈ t))).flatMap entries_of = l.flatMap entries_of := by
  induction l with
  | nil => rfl
  | cons t l ih =>
    by_cases h : 61 ∈ t
    · simp [List.filter_cons, h, ih]
    · simp [List.filter_cons, h, ih, entries_of_noeq t h]

theorem seqnum_entry_iff (toks : List (List Nat)) :
    getvalue_from (str "SEQNUM") (toks.flatMap entries_of) ≠ none ↔
      ∃ tok ∈ toks, str "SEQNUM=" <+: tok := by
  constructor
  · intro h
    by_contra hcon
    apply h
    apply no_seqnum_entry
    intro tok ht hp
    exact hcon ⟨tok, ht, hp⟩
  · rintro ⟨tok, ht, v, rfl⟩ h
    have hall := (getvalue_from_eq_none _ _).1 h
    have e2 : str "SEQNUM=" ++ v = str "SEQNUM" ++ 61 :: v := by
      have : str "SEQNUM=" = str "SEQNUM" ++ [61] := by decide
      simp [this]
    have hne : (str "SEQNUM" = str "DEVPATH") = False := by simp; decide
    have hin : (⟨str "SEQNUM", v⟩ : env_var_t) ∈ entries_of (str "SEQNUM=" ++ v) := by
      rw [e2, entries_of_pair _ _ (by decide)]
      simp only [pair_entries, hne, if_false, List.mem_singleton]
    exact hall _ (List.mem_flatMap.2 ⟨_, ht, hin⟩) rfl

/-! ## The well-formed event -/

/-- C1, amended: for every buffer `add@P\0DEVPATH=P\0SEQNUM=n\0` parsed with
its full length, where `P` has no NUL and no `=` and `n` is a string of
decimal digits below `2^64` that does not start with `0` unless it is `0`,
`uevent_deserialize` returns a record: its action is Add, its store is
`DEVPATH`, `DEVICENAME`, `SEQNUM` in this order, looking up `SEQNUM` gives
`n`, the sequence number is the number `n` denotes, and looking up
`DEVICENAME` gives `basename P`, which for a non-empty `P` not ending in `/`
is the last component of `P`. -/
theorem deserialize_add_event (P n : List Nat) (hP0 : 0 ∉ P) (hPeq : 61 ∉ P)
    (hd : ∀ b ∈ n, 48 ≤ b ∧ b ≤ 57) (hlead : n.head? ≠ some 48 ∨ n = [48])
    (hlt : decimal_value n < 2 ^ 64) :
    ∃ r, (uevent_deserialize (add_event P n) (add_event P n).length).record = some r ∧
      r.action = action_t.ACTION_ADD ∧
      r.env_vars = [⟨str "DEVPATH", P⟩, ⟨str "DEVICENAME", basename P⟩, ⟨str "SEQNUM", n⟩] ∧
      uevent_getvalue r (str "SEQNUM") = some n ∧
      r.seqnum = some (decimal_value n) ∧
      uevent_getvalue r (str "DEVICENAME") = some (basename P) ∧
      (P ≠ [] → P.getLast? ≠ some 47 →
        ∃ dir, P = dir ++ basename P ∧ 47 ∉ basename P ∧
          (dir = [] ∨ dir.getLast? = some 47)) := by
  have hn0 : 0 ∉ n := fun h => by have := hd 0 h; omega
  have hlen : ((add_event P n).length : Int) =
      ((str "add").length : Int) + 1 +
        ((P ++ 0 :: (str "DEVPATH=" ++ P ++ 0 :: (str "SEQNUM=" ++ n))).length : Int) + 1 := by
    rw [add_event_shape]
    simp only [List.length_append, List.length_cons, List.length_nil]
    push_cast
    omega
  have hval : getvalue_from (str "SEQNUM")
      [⟨str "DEVPATH", P⟩, ⟨str "DEVICENAME", basename P⟩, ⟨str "SEQNUM", n⟩] = some n := by
    have a1 : strcmp (str "DEVPATH") (str "SEQNUM") ≠ 0 := by decide
    have a2 : strcmp (str "DEVICENAME") (str "SEQNUM") ≠ 0 := by decide
    have a3 : strcmp (str "SEQNUM") (str "SEQNUM") = 0 := by decide
    simp only [getvalue_from, a1, a2, a3, if_true, if_false]
  have hdev : getvalue_from (str "DEVICENAME")
      [⟨str "DEVPATH", P⟩, ⟨str "DEVICENAME", basename P⟩, ⟨str "SEQNUM", n⟩] =
        some (basename P) := by
    have a1 : strcmp (str "DEVPATH") (str "DEVICENAME") ≠ 0 := by decide
    have a2 : strcmp (str "DEVICENAME") (str "DEVICENAME") = 0 := by decide
    simp only [getvalue_from, a1, a2, if_true, if_false]
  rw [hlen, add_event_shape]
  rw [deserialize_whole (str "add") _ [] (by decide) (by decide),
    add_event_tokens P n hP0 hn0]
  simp only [Outcome.record, built, add_event_entries P n hPeq, hval]
  refine ⟨_, rfl, ?_, rfl, ?_, ?_, ?_, basename_last_component P⟩
  · show get_uevent_action (str "add") = action_t.ACTION_ADD
    decide
  · simpa [uevent_getvalue] using hval
  · simp only [strtoull_decimal n hd hlead hlt]
  · simpa [uevent_getvalue] using hdev

theorem deserialize_add_event_witness :
    add_event (str "/devices/x") (str "42") = example_buffer ∧
      decimal_value (str "42") = 42 ∧ basename (str "/devices/x") = str "x" ∧
      ∃ r,
        (uevent_deserialize (add_event (str "/devices/x") (str "42"))
            (add_event (str "/devices/x") (str "42")).length).record = some r ∧
        r.action = action_t.ACTION_ADD ∧
        r.env_vars =
          [⟨str "DEVPATH", str "/devices/x"⟩,
            ⟨str "DEVICENAME", basename (str "/devices/x")⟩, ⟨str "SEQNUM", str "42"⟩] ∧
        uevent_getvalue r (str "SEQNUM") = some (str "42") ∧
        r.seqnum = some (decimal_value (str "42")) ∧
        uevent_getvalue r (str "DEVICENAME") = some (basename (str "/devices/x")) ∧
        (str "/devices/x" ≠ [] → (str "/devices/x").getLast? ≠ some 47 →
          ∃ dir, str "/devices/x" = dir ++ basename (str "/devices/x") ∧
            47 ∉ basename (str "/devices/x") ∧ (dir = [] ∨ dir.getLast? = some 47)) :=
  ⟨by decide, by decide, by decide,
    deserialize_add_event (str "/devices/x") (str "42") (by decide) (by decide) (by decide)
      (by decide) (by decide)⟩

/-- C1, as stated, fails for a numeral with a leading zero: `010` is a string
of decimal digits denoting 10, and the record of
`add@/devices/x\0DEVPATH=/devices/x\0SEQNUM=010\0` has sequence number 8. -/
theorem add_event_leading_zero :
    (∀ b ∈ str "010", 48 ≤ b ∧ b ≤ 57) ∧ decimal_value (str "010") = 10 ∧
      ((uevent_deserialize (add_event (str "/devices/x") (str "010"))
          (add_event (str "/devices/x") (str "010")).length).record.map
        (fun r => (r.action, uevent_getvalue r (str "SEQNUM"), r.seqnum))) =
        some (action_t.ACTION_ADD, some (str "010"), some 8) := by
  decide

/-! ## Failures of the parse -/

/-- C2: a buffer in which no `@` byte occurs yields no record, whatever the
length argument; when the buffer holds a NUL, so that the search for `@` stays
inside it, the call returns `NULL` and leaves the buffer as it was. -/
theorem deserialize_without_at (mem : List Nat) (size : Int) (h : 64 ∉ mem) :
    (uevent_deserialize mem size).record = none ∧
      (0 ∈ mem → uevent_deserialize mem size = Outcome.done (none, mem)) := by
  unfold uevent_deserialize
  cases hs : strchr 64 mem with
  | oob =>
    refine ⟨rfl, fun h0 => absurd h0 (strchr_oob hs).2⟩
  | null => exact ⟨rfl, fun _ => rfl⟩
  | found p =>
    obtain ⟨s, rest, e, -, -, -⟩ := strchr_found hs
    exact absurd (by simp [e]) h

theorem deserialize_without_at_witness :
    64 ∉ str "add/devices/x\x00SEQNUM=42\x00" ∧
      (uevent_deserialize (str "add/devices/x\x00SEQNUM=42\x00") 24).record = none ∧
      (0 ∈ str "add/devices/x\x00SEQNUM=42\x00" →
        uevent_deserialize (str "add/devices/x\x00SEQNUM=42\x00") 24 =
          Outcome.done (none, str "add/devices/x\x00SEQNUM=42\x00")) :=
  ⟨by decide, deserialize_without_at _ 24 (by decide)⟩

/-- C3: when no NUL-separated token of the bytes after the first `@` begins
with `SEQNUM=`, `uevent_deserialize` yields no record, for every length
argument: nothing of the partly built record reaches the caller. -/
theorem deserialize_without_seqnum (mem : List Nat) (size : Int)
    (h : ∀ tok ∈ tokens (payload mem), ¬ (str "SEQNUM=" <+: tok)) :
    (uevent_deserialize mem size).record = none := by
  cases hs : strchr 64 mem with
  | oob => simp [uevent_deserialize, hs, Outcome.record]
  | null => simp [uevent_deserialize, hs, Outcome.record]
  | found p =>
    obtain ⟨s, rest, e, -, h64, h0⟩ := strchr_found hs
    subst e
    rw [payload_append s rest h64] at h
    by_cases hsz : 0 ≤ size ∧ size ≤ (s ++ 64 :: rest).length
    · rw [deserialize_spec s rest size h64 h0 hsz.1 hsz.2]
      cases hsc : scanned (tokens rest) (size - (s.length + 1)) with
      | none => rfl
      | some toks =>
        have hsub := scanned_subset _ _ _ hsc
        have := no_seqnum_entry toks (fun tok ht => h tok (hsub tok ht))
        simp [Outcome.record, built, this]
    · rw [deserialize_bad_size s rest size h64 h0 (by omega)]
      rfl

theorem deserialize_without_seqnum_witness :
    (∀ tok ∈ tokens (payload (str "add@/devices/x\x00DEVPATH=/devices/x\x00")),
        ¬ (str "SEQNUM=" <+: tok)) ∧
      (uevent_deserialize (str "add@/devices/x\x00DEVPATH=/devices/x\x00") 34).record = none :=
  ⟨by decide, deserialize_without_seqnum _ 34 (by decide)⟩

/-- C4, amended: on a buffer `s @ body NUL` parsed with its full length (`s`
free of `@` and NUL, any memory beyond), a token of `body` without `=` does
not abort the parse: the failure of its append is ignored and it adds no
entry.  The call returns, it returns a record exactly when some token of
`body` begins with `SEQNUM=`, and the store of that record holds the entries
of the tokens that have a `=`, in their order. -/
theorem deserialize_skips_tokens (s body beyond : List Nat) (hs : 64 ∉ s) (h0 : 0 ∉ s) :
    (∃ r m, uevent_deserialize (s ++ 64 :: (body ++ 0 :: beyond))
        (s.length + 1 + body.length + 1) = Outcome.done (r, m)) ∧
      ((uevent_deserialize (s ++ 64 :: (body ++ 0 :: beyond))
          (s.length + 1 + body.length + 1)).record ≠ none ↔
        ∃ tok ∈ tokens body, str "SEQNUM=" <+: tok) ∧
      ∀ r, (uevent_deserialize (s ++ 64 :: (body ++ 0 :: beyond))
          (s.length + 1 + body.length + 1)).record = some r →
        r.env_vars =
          ((tokens body).filter (fun t => decide (61 ∈ t))).flatMap entries_of := by
  rw [deserialize_whole s body beyond hs h0]
  refine ⟨⟨_, _, rfl⟩, ?_, ?_⟩
  · rw [← seqnum_entry_iff]
    simp only [Outcome.record, built]
    cases getvalue_from (str "SEQNUM") ((tokens body).flatMap entries_of) <;> simp
  · intro r hr
    simp only [Outcome.record, built] at hr
    cases hg : getvalue_from (str "SEQNUM") ((tokens body).flatMap entries_of) with
    | none => simp [hg] at hr
    | some v =>
      simp only [hg, Option.some.injEq] at hr
      subst hr
      exact (flatMap_entries_filter _).symm

/-- C4, as stated, fails on the example event: its header token `/devices/x`
has no `=`, a `SEQNUM` token is present, and the parse returns the record. -/
theorem example_token_without_eq :
    str "/devices/x" ∈ tokens (payload example_buffer) ∧ 61 ∉ str "/devices/x" ∧
      str "SEQNUM=42" ∈ tokens (payload example_buffer) ∧
      uevent_deserialize example_buffer 44 =
        Outcome.done (some example_record,
          str "add\x00/devices/x\x00DEVPATH=/devices/x\x00SEQNUM=42\x00") := by
  decide

theorem deserialize_skips_tokens_witness :
    64 ∉ str "add" ∧ 0 ∉ str "add" ∧
      str "add" ++ 64 :: (str "/devices/x\x00DEVPATH=/devices/x\x00SEQNUM=42" ++ 0 :: []) =
        example_buffer ∧
      tokens (str "/devices/x\x00DEVPATH=/devices/x\x00SEQNUM=42") =
        [str "/devices/x", str "DEVPATH=/devices/x", str "SEQNUM=42"] ∧
      ((uevent_deserialize
            (str "add" ++ 64 :: (str "/devices/x\x00DEVPATH=/devices/x\x00SEQNUM=42" ++ 0 :: []))
            ((str "add").length + 1 +
              (str "/devices/x\x00DEVPATH=/devices/x\x00SEQNUM=42").length + 1)).record ≠ none ↔
        ∃ tok ∈ tokens (str "/devices/x\x00DEVPATH=/devices/x\x00SEQNUM=42"),
          str "SEQNUM=" <+: tok) :=
  ⟨by decide, by decide, by decide, by decide,
    (deserialize_skips_tokens (str "add") (str "/devices/x\x00DEVPATH=/devices/x\x00SEQNUM=42") []
      (by decide) (by decide)).2.1⟩

/-- C5, amended: on a buffer `s @ body NUL` parsed with its full length (`s`
free of `@` and NUL, any memory beyond), when the first `SEQNUM` entry of the
tokens of `body` has a value that is empty or starts with a byte that is
neither a decimal digit, white space nor a sign, `uevent_deserialize` returns
a record whose first `SEQNUM` entry has that value and whose sequence number
is 0.  The missing-sequence-number outcome, the `NULL` return after the scan,
arises exactly when no entry of the tokens has the key `SEQNUM`. -/
theorem deserialize_non_numeric_seqnum (s body beyond : List Nat) (hs : 64 ∉ s)
    (h0 : 0 ∉ s) :
    (∀ v : List Nat,
        getvalue_from (str "SEQNUM") ((tokens body).flatMap entries_of) = some v →
        (∀ b ∈ v.head?, ¬ (48 ≤ b ∧ b ≤ 57) ∧ isspace b = false ∧ b ≠ 43 ∧ b ≠ 45) →
        ∃ r m, uevent_deserialize (s ++ 64 :: (body ++ 0 :: beyond))
            (s.length + 1 + body.length + 1) = Outcome.done (some r, m) ∧
          uevent_getvalue r (str "SEQNUM") = some v ∧ r.seqnum = some 0) ∧
      (uevent_deserialize (s ++ 64 :: (body ++ 0 :: beyond))
            (s.length + 1 + body.length + 1) =
          Outcome.done (none, s ++ 0 :: (body ++ 0 :: beyond)) ↔
        ∀ e ∈ (tokens body).flatMap entries_of, e.key ≠ str "SEQNUM") ∧
      ((uevent_deserialize (s ++ 64 :: (body ++ 0 :: beyond))
            (s.length + 1 + body.length + 1)).record = none ↔
        ∀ e ∈ (tokens body).flatMap entries_of, e.key ≠ str "SEQNUM") := by
  rw [deserialize_whole s body beyond hs h0]
  refine ⟨?_, ?_, ?_⟩
  · intro v hv hnon
    simp only [built, hv, strtoull_non_numeric v hnon]
    exact ⟨_, _, rfl, hv, rfl⟩
  · rw [← getvalue_from_eq_none]
    simp only [built]
    cases getvalue_from (str "SEQNUM") ((tokens body).flatMap entries_of) <;> simp
  · rw [← getvalue_from_eq_none]
    simp only [Outcome.record, built]
    cases getvalue_from (str "SEQNUM") ((tokens body).flatMap entries_of) <;> simp

theorem deserialize_non_numeric_seqnum_witness :
    64 ∉ str "add" ∧ 0 ∉ str "add" ∧
      getvalue_from (str "SEQNUM") ((tokens (str "x\x00SEQNUM=abc")).flatMap entries_of) =
        some (str "abc") ∧
      (∃ r m, uevent_deserialize (str "add" ++ 64 :: (str "x\x00SEQNUM=abc" ++ 0 :: []))
          ((str "add").length + 1 + (str "x\x00SEQNUM=abc").length + 1) =
            Outcome.done (some r, m) ∧
        uevent_getvalue r (str "SEQNUM") = some (str "abc") ∧ r.seqnum = some 0) ∧
      (∀ e ∈ (tokens (str "x\x00SEQNUMX=1\x00A=SEQNUM")).flatMap entries_of,
        e.key ≠ str "SEQNUM") ∧
      uevent_deserialize
          (str "add" ++ 64 :: (str "x\x00SEQNUMX=1\x00A=SEQNUM" ++ 0 :: []))
          ((str "add").length + 1 + (str "x\x00SEQNUMX=1\x00A=SEQNUM").length + 1) =
        Outcome.done (none,
          str "add" ++ 0 :: (str "x\x00SEQNUMX=1\x00A=SEQNUM" ++ 0 :: [])) :=
  ⟨by decide, by decide, by decide,
    (deserialize_non_numeric_seqnum (str "add") (str "x\x00SEQNUM=abc") []
      (by decide) (by decide)).1 (str "abc") (by decide) (by decide),
    by decide,
    (deserialize_non_numeric_seqnum (str "add") (str "x\x00SEQNUMX=1\x00A=SEQNUM") []
      (by decide) (by decide)).2.1.2 (by decide)⟩

/-- C5, as stated, fails: with an empty `SEQNUM` value and with the value
`abc` the parse returns a record, with sequence number 0. -/
theorem empty_seqnum_accepted :
    uevent_deserialize (str "add@x\x00SEQNUM=\x00") 14 =
        Outcome.done
          (some
            { action := action_t.ACTION_ADD
              action_str := some (str "add")
              seqnum := some 0
              env_vars := [⟨str "SEQNUM", []⟩]
              plain := str "add@x\x00SEQNUM=\x00"
              plain_s := 14 },
            str "add\x00x\x00SEQNUM=\x00") ∧
      uevent_deserialize (str "add@x\x00SEQNUM=abc\x00") 17 =
        Outcome.done
          (some
            { action := action_t.ACTION_ADD
              action_str := some (str "add")
              seqnum := some 0
              env_vars := [⟨str "SEQNUM", str "abc"⟩]
              plain := str "add@x\x00SEQNUM=abc\x00"
              plain_s := 17 },
            str "add\x00x\x00SEQNUM=abc\x00") := by
  decide

/-! ## The copy of the input -/

/-- C6: when `uevent_deserialize` returns a record for a buffer and a length
`N`, then `N` lies within the buffer, `plain_s` is `N`, and `plain` is the
first `N` bytes of the buffer as they were before the call, the `@` and
every NUL included. -/
theorem deserialize_plain (mem : List Nat) (size : Int) (r : uevent_t)
    (h : (uevent_deserialize mem size).record = some r) :
    r.plain_s = size ∧ r.plain = mem.take size.toNat ∧ r.plain.length = size.toNat ∧
      0 ≤ size ∧ size ≤ mem.length := by
  cases hs : strchr 64 mem with
  | oob => simp [uevent_deserialize, hs, Outcome.record] at h
  | null => simp [uevent_deserialize, hs, Outcome.record] at h
  | found p =>
    obtain ⟨s, rest, e, -, h64, h0⟩ := strchr_found hs
    subst e
    by_cases hsz : 0 ≤ size ∧ size ≤ (s ++ 64 :: rest).length
    · rw [deserialize_spec s rest size h64 h0 hsz.1 hsz.2] at h
      cases hsc : scanned (tokens rest) (size - (s.length + 1)) with
      | none => simp [hsc, Outcome.record] at h
      | some toks =>
        simp only [hsc, Outcome.record, built] at h
        cases hg : getvalue_from (str "SEQNUM") (toks.flatMap entries_of) with
        | none => simp [hg] at h
        | some v =>
          simp only [hg, Option.some.injEq] at h
          subst h
          refine ⟨rfl, rfl, ?_, hsz.1, hsz.2⟩
          simp only [List.length_take]
          omega
    · rw [deserialize_bad_size s rest size h64 h0 (by omega)] at h
      simp [Outcome.record] at h

theorem deserialize_plain_witness :
    (uevent_deserialize example_buffer 44).record = some example_record ∧
      example_record.plain_s = 44 ∧
      example_record.plain = example_buffer.take (44 : Int).toNat ∧
      example_record.plain.length = (44 : Int).toNat ∧
      (0 : Int) ≤ 44 ∧ (44 : Int) ≤ example_buffer.length :=
  ⟨by decide, deserialize_plain example_buffer 44 example_record (by decide)⟩

/-! ## The environment store -/

/-- C7: for an item `key=value` whose text `key` before the first `=` is not
`DEVPATH`, `uevent_add_env` returns 0 and the store becomes the old entries,
unchanged and in their order, followed by the one entry `(key, value)`; every
later `=` stays in the value.  The item is the NUL-terminated string at
`pre.length`; the rest of the record and the memory end as they were. -/
theorem add_env_appends_pair (u : uevent_t) (pre key value post : List Nat)
    (hk : 61 ∉ key) (hk0 : 0 ∉ key) (hv : 0 ∉ value) (hne : key ≠ str "DEVPATH") :
    uevent_add_env u (pre ++ (key ++ 61 :: (value ++ 0 :: post))) pre.length =
      Outcome.done (0, { u with env_vars := u.env_vars ++ [⟨key, value⟩] },
        pre ++ (key ++ 61 :: (value ++ 0 :: post))) := by
  rw [add_env_pair u pre key value post hk hk0 hv]
  simp [pair_entries, hne]

theorem add_env_appends_pair_witness :
    61 ∉ str "A" ∧ 0 ∉ str "A" ∧ 0 ∉ str "B=C" ∧ str "A" ≠ str "DEVPATH" ∧
      uevent_add_env example_record
          ([] ++ (str "A" ++ 61 :: (str "B=C" ++ 0 :: []))) ([] : List Nat).length =
        Outcome.done (0,
          { example_record with
            env_vars := example_record.env_vars ++ [⟨str "A", str "B=C"⟩] },
          [] ++ (str "A" ++ 61 :: (str "B=C" ++ 0 :: []))) :=
  ⟨by decide, by decide, by decide, by decide,
    add_env_appends_pair example_record [] (str "A") (str "B=C") []
      (by decide) (by decide) (by decide) (by decide)⟩

/-- C8: for an item without a `=` byte, the empty item included,
`uevent_add_env` returns -1 and leaves the record as it was: the same entries
in the same order, hence the same count, and the same action, plain bytes and
sequence number.  The memory is untouched as well. -/
theorem add_env_rejects_item (u : uevent_t) (pre item post : List Nat)
    (h : 61 ∉ item) (h0 : 0 ∉ item) :
    uevent_add_env u (pre ++ (item ++ 0 :: post)) pre.length =
      Outcome.done (-1, u, pre ++ (item ++ 0 :: post)) :=
  add_env_noeq u pre item post h h0

theorem add_env_rejects_item_witness :
    61 ∉ str "NOEQUALS" ∧ 0 ∉ str "NOEQUALS" ∧
      uevent_add_env example_record ([] ++ (str "NOEQUALS" ++ 0 :: [])) ([] : List Nat).length =
        Outcome.done (-1, example_record, [] ++ (str "NOEQUALS" ++ 0 :: [])) :=
  ⟨by decide, by decide,
    add_env_rejects_item example_record [] (str "NOEQUALS") [] (by decide) (by decide)⟩

/-- C9: for an item `key=value`, `uevent_add_env` returns 0; when `key` is
exactly `DEVPATH` it appends two entries, `("DEVPATH", value)` with the value
as given and right after it `("DEVICENAME", basename value)`; for any other
key it appends `(key, value)` alone.  For a non-empty value that does not end
in `/`, `basename value` is the text after the last `/`, or the whole value
when it has none. -/
theorem add_env_devpath (u : uevent_t) (pre key value post : List Nat)
    (hk : 61 ∉ key) (hk0 : 0 ∉ key) (hv : 0 ∉ value) :
    uevent_add_env u (pre ++ (key ++ 61 :: (value ++ 0 :: post))) pre.length =
        Outcome.done (0,
          { u with
            env_vars := u.env_vars ++
              (if key = str "DEVPATH" then
                [⟨str "DEVPATH", value⟩, ⟨str "DEVICENAME", basename value⟩]
              else [⟨key, value⟩]) },
          pre ++ (key ++ 61 :: (value ++ 0 :: post))) ∧
      (value ≠ [] → value.getLast? ≠ some 47 →
        ∃ dir, value = dir ++ basename value ∧ 47 ∉ basename value ∧
          (dir = [] ∨ dir.getLast? = some 47)) := by
  refine ⟨?_, basename_last_component value⟩
  rw [add_env_pair u pre key value post hk hk0 hv]
  unfold pair_entries
  by_cases hd : key = str "DEVPATH"
  · simp only [hd, if_true]
  · simp only [hd, if_false]

theorem add_env_devpath_witness :
    61 ∉ str "DEVPATH" ∧ 0 ∉ str "DEVPATH" ∧ 0 ∉ str "/devices/x" ∧
      uevent_add_env example_record
          ([] ++ (str "DEVPATH" ++ 61 :: (str "/devices/x" ++ 0 :: []))) ([] : List Nat).length =
        Outcome.done (0,
          { example_record with
            env_vars := example_record.env_vars ++
              (if str "DEVPATH" = str "DEVPATH" then
                [⟨str "DEVPATH", str "/devices/x"⟩,
                  ⟨str "DEVICENAME", basename (str "/devices/x")⟩]
              else [⟨str "DEVPATH", str "/devices/x"⟩]) },
          [] ++ (str "DEVPATH" ++ 61 :: (str "/devices/x" ++ 0 :: []))) ∧
      basename (str "/devices/x") = str "x" ∧
      uevent_add_env example_record (str "DEVPATHX=/a/b\x00") 0 =
        Outcome.done (0,
          { example_record with
            env_vars := example_record.env_vars ++ [⟨str "DEVPATHX", str "/a/b"⟩] },
          str "DEVPATHX=/a/b\x00") ∧
      uevent_add_env example_record (str "devpath=/a/b\x00") 0 =
        Outcome.done (0,
          { example_record with
            env_vars := example_record.env_vars ++ [⟨str "devpath", str "/a/b"⟩] },
          str "devpath=/a/b\x00") :=
  ⟨by decide, by decide, by decide,
    (add_env_devpath example_record [] (str "DEVPATH") (str "/devices/x") []
      (by decide) (by decide) (by decide)).1, by decide, by decide, by decide⟩

/-- C10: `uevent_getvalue` returns the value of the entry with the smallest
index whose key equals the argument byte for byte, so the earliest of several
entries with that key wins and a key that only shares a prefix does not
count; it returns `NULL` exactly when no entry has that key. -/
theorem getvalue_first_match (u : uevent_t) (key : List Nat) :
    (∀ (i : Nat) (e : env_var_t), u.env_vars[i]? = some e → e.key = key →
        (∀ (j : Nat) (f : env_var_t), j < i → u.env_vars[j]? = some f → f.key ≠ key) →
        uevent_getvalue u key = some e.value) ∧
      (uevent_getvalue u key = none ↔ ∀ e ∈ u.env_vars, e.key ≠ key) :=
  ⟨fun i e hi hk hmin => getvalue_from_first key u.env_vars i e hi hk hmin,
    getvalue_from_eq_none key u.env_vars⟩

theorem getvalue_first_match_witness :
    uevent_getvalue
        { example_record with
          env_vars := [⟨str "SEQ", str "0"⟩, ⟨str "SEQNUM", str "1"⟩, ⟨str "SEQNUM", str "2"⟩] }
        (str "SEQNUM") = some (str "1") :=
  (getvalue_first_match
      { example_record with
        env_vars := [⟨str "SEQ", str "0"⟩, ⟨str "SEQNUM", str "1"⟩, ⟨str "SEQNUM", str "2"⟩] }
      (str "SEQNUM")).1 1 ⟨str "SEQNUM", str "1"⟩ (by decide) (by decide)
    (fun j f hj hf => by
      have hj0 : j = 0 := by omega
      subst hj0
      have hf2 : f = ⟨str "SEQ", str "0"⟩ := by
        have : some (⟨str "SEQ", str "0"⟩ : env_var_t) = some f := hf
        exact (Option.some.inj this).symm
      subst hf2
      decide)

/-! ## What a returned record holds -/

theorem takeWhile_at (s rest : List Nat) (hs : 64 ∉ s) :
    (s ++ 64 :: rest).takeWhile (fun b => b ≠ 64) = s := by
  induction s with
  | nil => simp
  | cons b s ih =>
    have hb : b ≠ 64 := fun e => hs (by simp [e])
    have h1 := ih (fun e => hs (by simp [e]))
    rw [List.cons_append, List.takeWhile_cons_of_pos (by simpa using hb), h1]

/-- A returned record comes from a memory `s @ rest` with `s` free of `@` and
NUL, a size within the memory, a scan that stayed inside the memory, and a
`SEQNUM` entry among the entries of the scanned tokens. -/
theorem deserialize_record_inv (mem : List Nat) (size : Int) (r : uevent_t)
    (h : (uevent_deserialize mem size).record = some r) :
    ∃ s rest toks, mem = s ++ 64 :: rest ∧ 64 ∉ s ∧ 0 ∉ s ∧ 0 ≤ size ∧
      size ≤ mem.length ∧ scanned (tokens rest) (size - (s.length + 1)) = some toks ∧
      built s rest size toks = some r ∧
      uevent_deserialize mem size = Outcome.done (some r, s ++ 0 :: rest) := by
  cases hs : strchr 64 mem with
  | oob => simp [uevent_deserialize, hs, Outcome.record] at h
  | null => simp [uevent_deserialize, hs, Outcome.record] at h
  | found p =>
    obtain ⟨s, rest, e, -, h64, h0⟩ := strchr_found hs
    subst e
    by_cases hsz : 0 ≤ size ∧ size ≤ (s ++ 64 :: rest).length
    · have hspec := deserialize_spec s rest size h64 h0 hsz.1 hsz.2
      rw [hspec] at h
      cases hsc : scanned (tokens rest) (size - (s.length + 1)) with
      | none => simp [hsc, Outcome.record] at h
      | some toks =>
        simp only [hsc, Outcome.record] at h
        refine ⟨s, rest, toks, rfl, h64, h0, hsz.1, hsz.2, hsc, h, ?_⟩
        rw [hspec, hsc]
        simp only [h]
    · rw [deserialize_bad_size s rest size h64 h0 (by omega)] at h
      simp [Outcome.record] at h

theorem built_fields {s rest : List Nat} {size : Int} {toks : List (List Nat)} {r : uevent_t}
    (h : built s rest size toks = some r) :
    ∃ v, getvalue_from (str "SEQNUM") (toks.flatMap entries_of) = some v ∧
      r = { action := get_uevent_action s
            action_str := some s
            seqnum := some (strtoull v)
            env_vars := toks.flatMap entries_of
            plain := (s ++ 64 :: rest).take size.toNat
            plain_s := size } := by
  unfold built at h
  cases hg : getvalue_from (str "SEQNUM") (toks.flatMap entries_of) with
  | none => simp [hg] at h
  | some v =>
    simp only [hg, Option.some.injEq] at h
    exact ⟨v, rfl, h.symm⟩

theorem get_uevent_action_eq (a : List Nat) :
    get_uevent_action a =
      if a = str "add" then action_t.ACTION_ADD
      else if a = str "remove" then action_t.ACTION_REMOVE
      else action_t.ACTION_UNKNOWN := by
  unfold get_uevent_action
  simp only [strcmp_eq_zero]

/-- C11: when `uevent_deserialize` returns a record, its `action_str` is the
bytes of the buffer before the first `@`, and its action is Add when that
token is exactly `add`, Remove when it is exactly `remove`, and Unknown for
every other token: `ADD`, `add ` with a blank, and the empty token are
Unknown. -/
theorem deserialize_action (mem : List Nat) (size : Int) (r : uevent_t)
    (h : (uevent_deserialize mem size).record = some r) :
    r.action_str = some (mem.takeWhile (fun b => b ≠ 64)) ∧
      r.action =
        (if mem.takeWhile (fun b => b ≠ 64) = str "add" then action_t.ACTION_ADD
        else if mem.takeWhile (fun b => b ≠ 64) = str "remove" then action_t.ACTION_REMOVE
        else action_t.ACTION_UNKNOWN) ∧
      get_uevent_action (str "ADD") = action_t.ACTION_UNKNOWN ∧
      get_uevent_action (str "add ") = action_t.ACTION_UNKNOWN ∧
      get_uevent_action (str " add") = action_t.ACTION_UNKNOWN ∧
      get_uevent_action [] = action_t.ACTION_UNKNOWN := by
  obtain ⟨s, rest, toks, e, h64, h0, -, -, -, hb, -⟩ := deserialize_record_inv mem size r h
  obtain ⟨v, -, hr⟩ := built_fields hb
  subst e
  rw [takeWhile_at s rest h64, hr]
  exact ⟨rfl, get_uevent_action_eq s, by decide, by decide, by decide, by decide⟩

theorem deserialize_action_witness :
    (uevent_deserialize (str "remove@/devices/x\x00SEQNUM=7\x00") 27).record =
        some
          { action := action_t.ACTION_REMOVE
            action_str := some (str "remove")
            seqnum := some 7
            env_vars := [⟨str "SEQNUM", str "7"⟩]
            plain := str "remove@/devices/x\x00SEQNUM=7\x00"
            plain_s := 27 } ∧
      (str "remove@/devices/x\x00SEQNUM=7\x00").takeWhile (fun b => b ≠ 64) = str "remove" ∧
      ((uevent_deserialize (str "ADD@/devices/x\x00SEQNUM=7\x00") 24).record.map
          (fun r => (r.action_str, r.action))) =
        some (some (str "ADD"), action_t.ACTION_UNKNOWN) ∧
      ((uevent_deserialize (str "@/devices/x\x00SEQNUM=7\x00") 21).record.map
          (fun r => (r.action_str, r.action))) =
        some (some [], action_t.ACTION_UNKNOWN) ∧
      (example_record.action_str = some (example_buffer.takeWhile (fun b => b ≠ 64)) ∧
        example_record.action = action_t.ACTION_ADD) :=
  ⟨by decide, by decide, by decide, by decide,
    ⟨(deserialize_action example_buffer 44 example_record (by decide)).1,
      ((deserialize_action example_buffer 44 example_record (by decide)).2.1).trans
        (by decide)⟩⟩

/-! ## The sequence number -/

theorem accDigits_stop (base acc : Nat) (rest : List Nat)
    (hr : ∀ b ∈ rest.head?, is_digit base b = false) : accDigits base acc rest = acc := by
  cases rest with
  | nil => rfl
  | cons b t =>
    have hb := hr b (by simp)
    unfold is_digit at hb
    unfold accDigits
    cases hd : digitVal b with
    | none => rfl
    | some d =>
      simp only [hd, decide_eq_false_iff_not] at hb
      simp [hb]

theorem accDigits_prefix (base : Nat) (ds rest : List Nat) (acc : Nat)
    (hd : ∀ b ∈ ds, is_digit base b = true)
    (hr : ∀ b ∈ rest.head?, is_digit base b = false) :
    accDigits base acc (ds ++ rest) =
      ds.foldl (fun a b => a * base + (digitVal b).getD 0) acc := by
  induction ds generalizing acc with
  | nil => simpa using accDigits_stop base acc rest hr
  | cons b ds ih =>
    have hb := hd b (by simp)
    unfold is_digit at hb
    cases hv : digitVal b with
    | none => simp [hv] at hb
    | some d =>
      simp only [hv, decide_eq_true_eq] at hb
      simp only [List.cons_append, accDigits, hv, hb, if_true, List.foldl_cons, Option.getD_some]
      exact ih _ (fun x hx => hd x (List.mem_cons_of_mem _ hx))

theorem signed_lt (neg : Bool) (v : Nat) : signed neg v < 2 ^ 64 := by
  unfold signed ULLONG_MAX
  split
  · omega
  · split
    · exact Nat.mod_lt _ (by omega)
    · omega

theorem strtoull_lt (s : List Nat) : strtoull s < 2 ^ 64 := by
  unfold strtoull
  split <;> exact signed_lt _ _

theorem is_digit_imp (base b : Nat) (hbase : base ≤ 16) (h : is_digit base b = true) :
    isspace b = false ∧ b ≠ 45 ∧ b ≠ 43 ∧ b ≠ 120 ∧ b ≠ 88 := by
  unfold is_digit at h
  cases hv : digitVal b with
  | none => simp [hv] at h
  | some d =>
    simp only [hv, decide_eq_true_eq] at h
    unfold digitVal at hv
    have hsp : ∀ x : Nat, 48 ≤ x → isspace x = false := by
      intro x hx
      simp only [isspace, Bool.or_eq_false_iff, Bool.and_eq_false_iff, decide_eq_false_iff_not]
      omega
    split at hv
    · rename_i hh
      exact ⟨hsp b hh.1, by omega, by omega, by omega, by omega⟩
    · split at hv
      · rename_i hh
        simp at hv
        exact ⟨hsp b (by omega), by omega, by omega, by omega, by omega⟩
      · split at hv
        · rename_i hh
          simp at hv
          exact ⟨hsp b (by omega), by omega, by omega, by omega, by omega⟩
        · simp at hv

theorem strtoull_decimal_prefix (ds rest : List Nat) (hne : ds ≠ [])
    (hd : ∀ b ∈ ds, is_digit 10 b = true) (hlead : ds.head? ≠ some 48)
    (hr : ∀ b ∈ rest.head?, is_digit 10 b = false) (hlt : digits_value 10 ds < 2 ^ 64) :
    strtoull (ds ++ rest) = digits_value 10 ds := by
  obtain ⟨b, t, rfl⟩ := List.exists_cons_of_ne_nil hne
  have hb := is_digit_imp 10 b (by omega) (hd b (by simp))
  have hz : b ≠ 48 := fun e => hlead (by simp [e])
  rw [List.cons_append, strtoull_of_plain b _ hb.1 hb.2.1 hb.2.2.1 hz, ← List.cons_append,
    accDigits_prefix 10 _ rest 0 hd hr]
  exact signed_small _ hlt

theorem strtoull_hex_prefix (x : Nat) (hs rest : List Nat) (hx : x = 120 ∨ x = 88)
    (hd : ∀ b ∈ hs, is_digit 16 b = true)
    (hr : ∀ b ∈ rest.head?, is_digit 16 b = false) (hlt : digits_value 16 hs < 2 ^ 64) :
    strtoull (48 :: x :: (hs ++ rest)) = digits_value 16 hs := by
  have hmag : magnitude (48 :: x :: (hs ++ rest)) = accDigits 16 0 (hs ++ rest) := by
    rcases hx with rfl | rfl <;> rfl
  have hst : strtoull (48 :: x :: (hs ++ rest)) =
      signed false (magnitude (48 :: x :: (hs ++ rest))) := by
    unfold strtoull
    have hdw : (48 :: x :: (hs ++ rest)).dropWhile isspace = 48 :: x :: (hs ++ rest) := by
      rw [List.dropWhile_cons_of_neg (by decide)]
    rw [hdw]
  rw [hst, hmag, accDigits_prefix 16 hs rest 0 hd hr]
  exact signed_small _ hlt

theorem strtoull_octal_prefix (os rest : List Nat)
    (hd : ∀ b ∈ os, is_digit 8 b = true)
    (hr : ∀ b ∈ rest.head?, is_digit 8 b = false ∧ b ≠ 120 ∧ b ≠ 88)
    (hlt : digits_value 8 os < 2 ^ 64) :
    strtoull (48 :: (os ++ rest)) = digits_value 8 os := by
  have hhead : ∀ b ∈ (os ++ rest).head?, b ≠ 120 ∧ b ≠ 88 := by
    intro b hb
    cases os with
    | nil => exact (hr b (by simpa using hb)).2
    | cons o t =>
      have : b = o := by simpa using hb.symm
      subst this
      have := is_digit_imp 8 b (by omega) (hd b (by simp))
      exact ⟨this.2.2.2.1, this.2.2.2.2⟩
  have hmag : magnitude (48 :: (os ++ rest)) = accDigits 8 0 (os ++ rest) := by
    cases hl : os ++ rest with
    | nil => rfl
    | cons c u =>
      have hc := hhead c (by simp [hl])
      unfold magnitude
      split
      · rename_i h; simp at h; exact absurd h.1 hc.1
      · rename_i h; simp at h; exact absurd h.1 hc.2
      · rename_i h; simp at h; rw [h]
      · rename_i h1 h2 h3; exact absurd rfl (h3 _)
  have hst : strtoull (48 :: (os ++ rest)) = signed false (magnitude (48 :: (os ++ rest))) := by
    unfold strtoull
    have hdw : (48 :: (os ++ rest)).dropWhile isspace = 48 :: (os ++ rest) := by
      rw [List.dropWhile_cons_of_neg (by decide)]
    rw [hdw]
  rw [hst, hmag, accDigits_prefix 8 os rest 0 hd (fun b hb => (hr b hb).1)]
  exact signed_small _ hlt

/-- C12: when `uevent_deserialize` returns a record, its first `SEQNUM` entry
has a value `v` and the sequence number is `strtoull(v, NULL, 0)`, a value
below `2^64`.  That parse reads a numeral that does not start with `0` in
base 10, the digits after `0x` or `0X` in base 16 and the digits after a
leading `0` in base 8, and it stops at the first byte that is not a digit of
the base. -/
theorem deserialize_seqnum (mem : List Nat) (size : Int) (r : uevent_t)
    (h : (uevent_deserialize mem size).record = some r) :
    (∃ v, uevent_getvalue r (str "SEQNUM") = some v ∧ r.seqnum = some (strtoull v) ∧
        strtoull v < 2 ^ 64) ∧
      (∀ ds rest : List Nat, ds ≠ [] → (∀ b ∈ ds, is_digit 10 b = true) →
        ds.head? ≠ some 48 → (∀ b ∈ rest.head?, is_digit 10 b = false) →
        digits_value 10 ds < 2 ^ 64 → strtoull (ds ++ rest) = digits_value 10 ds) ∧
      (∀ (x : Nat) (hs rest : List Nat), x = 120 ∨ x = 88 →
        (∀ b ∈ hs, is_digit 16 b = true) → (∀ b ∈ rest.head?, is_digit 16 b = false) →
        digits_value 16 hs < 2 ^ 64 → strtoull (48 :: x :: (hs ++ rest)) = digits_value 16 hs) ∧
      (∀ os rest : List Nat, (∀ b ∈ os, is_digit 8 b = true) →
        (∀ b ∈ rest.head?, is_digit 8 b = false ∧ b ≠ 120 ∧ b ≠ 88) →
        digits_value 8 os < 2 ^ 64 → strtoull (48 :: (os ++ rest)) = digits_value 8 os) := by
  refine ⟨?_, strtoull_decimal_prefix, strtoull_hex_prefix, strtoull_octal_prefix⟩
  obtain ⟨s, rest, toks, -, -, -, -, -, -, hb, -⟩ := deserialize_record_inv mem size r h
  obtain ⟨v, hv, hr⟩ := built_fields hb
  refine ⟨v, ?_, ?_, strtoull_lt v⟩
  · rw [hr]; exact hv
  · rw [hr]

theorem deserialize_seqnum_witness :
    (∃ v, uevent_getvalue example_record (str "SEQNUM") = some v ∧
        example_record.seqnum = some (strtoull v) ∧ strtoull v < 2 ^ 64) ∧
      strtoull (str "42") = 42 ∧ strtoull (str "0x2a") = 42 ∧ strtoull (str "052") = 42 ∧
      strtoull (str "42abc") = 42 ∧
      ((uevent_deserialize (str "add@x\x00SEQNUM=0x2a\x00") 18).record.map
          (fun r => (uevent_getvalue r (str "SEQNUM"), r.seqnum))) =
        some (some (str "0x2a"), some 42) ∧
      ((uevent_deserialize (str "add@x\x00SEQNUM=052\x00") 17).record.map
          (fun r => (uevent_getvalue r (str "SEQNUM"), r.seqnum))) =
        some (some (str "052"), some 42) ∧
      ((uevent_deserialize (str "add@x\x00SEQNUM=42abc\x00SEQNUM=7\x00") 28).record.map
          (fun r => (uevent_getvalue r (str "SEQNUM"), r.seqnum))) =
        some (some (str "42abc"), some 42) :=
  ⟨(deserialize_seqnum example_buffer 44 example_record (by decide)).1,
    by decide, by decide, by decide, by decide, by decide, by decide, by decide⟩

/-! ## Duplication -/

theorem getvalue_from_append_some (k : List Nat) (l l2 : List env_var_t) (v : List Nat)
    (h : getvalue_from k l = some v) : getvalue_from k (l ++ l2) = some v := by
  induction l with
  | nil => simp [getvalue_from] at h
  | cons e l ih =>
    simp only [List.cons_append, getvalue_from] at h ⊢
    by_cases he : strcmp e.key k = 0
    · simpa [he] using h
    · simp only [he, if_false] at h ⊢
      exact ih h

theorem add_env_record (u : uevent_t) (mem : List Nat) (item : Nat) (ret : Int)
    (u2 : uevent_t) (m2 : List Nat)
    (h : uevent_add_env u mem item = Outcome.done (ret, u2, m2)) :
    ∃ tok, cstr (mem.drop item) = some tok ∧
      u2 = { u with env_vars := u.env_vars ++ entries_of tok } ∧ m2 = mem ∧
      ret = if 61 ∈ tok then 0 else -1 := by
  rw [add_env_spec] at h
  cases hc : cstr (mem.drop item) with
  | none => simp [hc] at h
  | some tok =>
    simp only [hc, Outcome.done.injEq, Prod.mk.injEq] at h
    exact ⟨tok, rfl, h.2.1.symm, h.2.2.symm, h.1.symm⟩

/-- On records as values: for a record whose `plain` block has `plain_s`
bytes, `uevent_dup` returns a record with the same action, the same
`plain_s`, the same bytes in `plain`, and the same `(key, value)` pairs in
the same order, so every lookup gives the same result on both; a later
`uevent_add_env` on the copy only appends to the copy's store. -/
theorem uevent_dup_value (r : uevent_t) (hp : r.plain_s = r.plain.length) :
    ∃ r2, uevent_dup r = Outcome.done r2 ∧ r2.action = r.action ∧
      r2.plain_s = r.plain_s ∧ r2.plain = r.plain ∧
      r2.env_vars.length = r.env_vars.length ∧ r2.env_vars = r.env_vars ∧
      (∀ k, uevent_getvalue r2 k = uevent_getvalue r k) ∧
      ∀ (mem : List Nat) (item : Nat) (ret : Int) (r3 : uevent_t) (m3 : List Nat),
        uevent_add_env r2 mem item = Outcome.done (ret, r3, m3) →
        r.env_vars <+: r3.env_vars ∧
          ∀ k v, uevent_getvalue r k = some v → uevent_getvalue r3 k = some v := by
  have hmap : r.env_vars.map (fun e => (⟨e.key, e.value⟩ : env_var_t)) = r.env_vars := by
    induction r.env_vars with
    | nil => rfl
    | cons e l ih => simp [ih]
  have hc : ¬ (r.plain_s < 0 ∨ (r.plain.length : Int) < r.plain_s) := by omega
  have htake : r.plain.take r.plain_s.toNat = r.plain := by
    rw [hp]; simp
  refine ⟨{ action := r.action, action_str := none, seqnum := none,
             env_vars := r.env_vars.map (fun e => ⟨e.key, e.value⟩),
             plain := r.plain.take r.plain_s.toNat, plain_s := r.plain_s },
    by simp only [uevent_dup, hc, if_false], rfl, rfl, htake, ?_, hmap, ?_, ?_⟩
  · simp
  · intro k
    simp only [uevent_getvalue, hmap]
  · intro mem item ret r3 m3 h3
    obtain ⟨tok, -, e3, -, -⟩ := add_env_record _ _ _ _ _ _ h3
    subst e3
    simp only [hmap]
    refine ⟨List.prefix_append _ _, ?_⟩
    intro k v hv
    exact getvalue_from_append_some k _ _ v hv

/-- C14 fails on the code: the copy `uevent_dup` makes of the record parsed
from the example event has neither `action_str` nor a sequence number
assigned, while the source has `add` and 42. -/
theorem dup_leaves_fields_unassigned :
    (uevent_deserialize example_buffer 44).record = some example_record ∧
      example_record.action_str = some (str "add") ∧ example_record.seqnum = some 42 ∧
      uevent_dup example_record =
        Outcome.done
          { action := action_t.ACTION_ADD
            action_str := none
            seqnum := none
            env_vars := example_record.env_vars
            plain := example_buffer
            plain_s := 44 } ∧
      uevent_dup example_record ≠ Outcome.done example_record := by
  decide

/-! ## Order of the entries -/

theorem scanned_prefix (l : List (List Nat)) (size : Int) (toks : List (List Nat))
    (h : scanned l size = some toks) : toks <+: l := by
  induction l generalizing size toks with
  | nil =>
    unfold scanned at h
    split at h <;> simp at h
    subst h; exact List.nil_prefix
  | cons a l ih =>
    cases l with
    | nil =>
      unfold scanned at h
      split at h <;> simp at h
      subst h; exact List.nil_prefix
    | cons b l =>
      unfold scanned at h
      split at h
      · simp only [Option.map_eq_some'] at h
        obtain ⟨x, hx, rfl⟩ := h
        exact (List.prefix_cons_inj a).2 (ih _ _ hx)
      · simp at h
        subst h; exact List.nil_prefix

theorem entries_of_eq (tok : List Nat) :
    entries_of tok =
      if 61 ∈ tok then
        pair_entries (tok.takeWhile (fun b => b ≠ 61)) ((tok.dropWhile (fun b => b ≠ 61)).drop 1)
      else [] := by
  by_cases h : 61 ∈ tok
  · simp only [h, if_true]
    cases hs : split_eq tok with
    | none => exact absurd h ((split_eq_none_iff tok).1 hs)
    | some kv =>
      obtain ⟨key, value⟩ := kv
      obtain ⟨e, hk⟩ := split_eq_some hs
      have h1 : tok.takeWhile (fun b => b ≠ 61) = key := by
        rw [e]
        clear hs e h
        induction key with
        | nil => simp
        | cons b key ih =>
          have hb : b ≠ 61 := fun c => hk (by simp [c])
          rw [List.cons_append, List.takeWhile_cons_of_pos (by simpa using hb),
            ih (fun c => hk (by simp [c]))]
      have h2 : (tok.dropWhile (fun b => b ≠ 61)).drop 1 = value := by
        rw [e]
        clear hs e h h1
        induction key with
        | nil => simp
        | cons b key ih =>
          have hb : b ≠ 61 := fun c => hk (by simp [c])
          rw [List.cons_append, List.dropWhile_cons_of_pos (by simpa using hb),
            ih (fun c => hk (by simp [c]))]
      rw [h1, h2]
      simp [entries_of, hs]
  · simp only [h, if_false]
    exact entries_of_noeq tok h

theorem devpath_followed_append (a b : List env_var_t) (ha : devpath_followed a)
    (hb : devpath_followed b) : devpath_followed (a ++ b) := by
  intro i e hi hk
  by_cases hlt : i < a.length
  · rw [List.getElem?_append_left hlt] at hi
    have h1 := ha i e hi hk
    have hlt2 : i + 1 < a.length := by
      by_contra hc
      rw [List.getElem?_eq_none (by omega)] at h1
      simp at h1
    rw [List.getElem?_append_left hlt2]
    exact h1
  · have hge : a.length ≤ i := by omega
    rw [List.getElem?_append_right hge] at hi
    have h1 := hb (i - a.length) e hi hk
    rw [List.getElem?_append_right (by omega)]
    have : i + 1 - a.length = i - a.length + 1 := by omega
    rw [this]
    exact h1

theorem devpath_followed_entries (tok : List Nat) : devpath_followed (entries_of tok) := by
  intro i e hi hk
  unfold entries_of at hi ⊢
  cases hs : split_eq tok with
  | none => simp [hs] at hi
  | some kv =>
    obtain ⟨key, value⟩ := kv
    simp only [hs, pair_entries] at hi ⊢
    by_cases hd : key = str "DEVPATH"
    · simp only [hd, if_true] at hi ⊢
      match i, hi with
      | 0, hi =>
        simp at hi
        subst hi
        rfl
      | 1, hi =>
        simp at hi
        subst hi
        exact absurd hk (show str "DEVICENAME" ≠ str "DEVPATH" by decide)
      | (n + 2), hi => simp at hi
    · simp only [hd, if_false] at hi ⊢
      match i, hi with
      | 0, hi =>
        simp at hi
        subst hi
        exact absurd hk hd
      | (n + 1), hi => simp at hi

theorem devpath_followed_flatMap (toks : List (List Nat)) :
    devpath_followed (toks.flatMap entries_of) := by
  induction toks with
  | nil => intro i e hi; simp at hi
  | cons t toks ih =>
    rw [List.flatMap_cons]
    exact devpath_followed_append _ _ (devpath_followed_entries t) ih

/-- C15: the store of a returned record is the concatenation, in buffer
order, of the entries of an initial run of the NUL-separated tokens after the
first `@`: a token without `=` gives nothing, a token with `=` gives the pair
split at its first `=`, and a pair with key `DEVPATH` is followed at once by
the derived `DEVICENAME` pair.  So every `DEVPATH` entry at index `i` has at
index `i + 1` the `DEVICENAME` entry holding the basename of its value. -/
theorem deserialize_entry_order (mem : List Nat) (size : Int) (r : uevent_t)
    (h : (uevent_deserialize mem size).record = some r) :
    (∃ toks, toks <+: tokens (payload mem) ∧
        r.env_vars = (toks.filter (fun t => decide (61 ∈ t))).flatMap
          (fun tok => pair_entries (tok.takeWhile (fun b => b ≠ 61))
            ((tok.dropWhile (fun b => b ≠ 61)).drop 1))) ∧
      (∀ key value, pair_entries key value =
        if key = str "DEVPATH" then [⟨key, value⟩, ⟨str "DEVICENAME", basename value⟩]
        else [⟨key, value⟩]) ∧
      ∀ (i : Nat) (e : env_var_t), r.env_vars[i]? = some e → e.key = str "DEVPATH" →
        r.env_vars[i + 1]? = some ⟨str "DEVICENAME", basename e.value⟩ := by
  obtain ⟨s, rest, toks, e, h64, h0, -, -, hsc, hb, -⟩ := deserialize_record_inv mem size r h
  obtain ⟨v, -, hr⟩ := built_fields hb
  subst e
  have henv : r.env_vars = toks.flatMap entries_of := by rw [hr]
  refine ⟨⟨toks, ?_, ?_⟩, fun _ _ => rfl, ?_⟩
  · rw [payload_append s rest h64]
    exact scanned_prefix _ _ _ hsc
  · rw [henv, ← flatMap_entries_filter]
    apply List.flatMap_congr
    intro tok ht
    have h61 : 61 ∈ tok := by simpa using (List.mem_filter.1 ht).2
    rw [entries_of_eq, if_pos h61]
  · rw [henv]
    exact devpath_followed_flatMap toks

theorem deserialize_entry_order_witness :
    tokens (payload example_buffer) =
        [str "/devices/x", str "DEVPATH=/devices/x", str "SEQNUM=42", []] ∧
      example_record.env_vars[0]? = some ⟨str "DEVPATH", str "/devices/x"⟩ ∧
      example_record.env_vars[0 + 1]? =
        some ⟨str "DEVICENAME", basename (str "/devices/x")⟩ :=
  ⟨by decide, by decide,
    (deserialize_entry_order example_buffer 44 example_record (by decide)).2.2 0
      ⟨str "DEVPATH", str "/devices/x"⟩ (by decide) (by decide)⟩

/-! ## Buffers that end with a NUL -/

theorem tokens_append_nul (a b : List Nat) : tokens (a ++ 0 :: b) = tokens a ++ tokens b := by
  induction a with
  | nil => simp [tokens]
  | cons x a ih =>
    by_cases hx : x = 0
    · simp [tokens, hx, ih]
    · obtain ⟨t, ts, hts⟩ := List.exists_cons_of_ne_nil (tokens_ne_nil a)
      simp [tokens, hx, ih, hts]

theorem nul_terminated_cases (pre : List Nat) (hlast : pre.getLast? = some 0) :
    (∃ s body, pre = s ++ 64 :: (body ++ [0]) ∧ 64 ∉ s ∧ 0 ∉ s) ∨
      (∃ s rest, pre = s ++ 0 :: rest ∧ 64 ∉ s ∧ 0 ∉ s) := by
  cases hs : strchr 64 pre with
  | oob =>
    have h0 := (strchr_oob hs).2
    have hd := List.dropLast_append_getLast? 0 hlast
    exact absurd (by rw [← hd]; simp) h0
  | null =>
    obtain ⟨s, rest, e, h64, h0, -⟩ := strchr_null hs
    exact Or.inr ⟨s, rest, e, h64, h0⟩
  | found p =>
    obtain ⟨s, rest, e, -, h64, h0⟩ := strchr_found hs
    left
    have hl : (64 :: rest).getLast? = some 0 := by
      rw [e, List.getLast?_append_of_ne_nil _ (by simp)] at hlast
      exact hlast
    cases rest with
    | nil => simp at hl
    | cons c t =>
      have hl2 : (c :: t).getLast? = some 0 := by
        rw [List.getLast?_cons_cons] at hl
        exact hl
      have hd := List.dropLast_append_getLast? 0 hl2
      exact ⟨s, (c :: t).dropLast, by rw [hd]; exact e, h64, h0⟩

theorem built_take (s body beyond : List Nat) (toks : List (List Nat)) :
    built s (body ++ 0 :: beyond) ((s ++ 64 :: (body ++ [0])).length : Nat) toks =
      built s (body ++ [0]) ((s ++ 64 :: (body ++ [0])).length : Nat) toks := by
  have h1 : (s ++ 64 :: (body ++ 0 :: beyond)).take (s ++ 64 :: (body ++ [0])).length =
      s ++ 64 :: (body ++ [0]) := by
    have : s ++ 64 :: (body ++ 0 :: beyond) = (s ++ 64 :: (body ++ [0])) ++ beyond := by simp
    rw [this, List.take_left]
  unfold built
  simp only [Int.toNat_ofNat, h1, List.take_length]

/-- On a buffer `s @ body NUL` followed by any memory and parsed with the
length of the buffer, the call returns, and the record depends on the buffer
alone. -/
theorem deserialize_terminated (s body beyond : List Nat) (hs : 64 ∉ s) (h0 : 0 ∉ s) :
    uevent_deserialize ((s ++ 64 :: (body ++ [0])) ++ beyond)
        ((s ++ 64 :: (body ++ [0])).length : Nat) =
      Outcome.done
        (built s (body ++ [0]) ((s ++ 64 :: (body ++ [0])).length : Nat) (tokens body),
          s ++ 0 :: (body ++ 0 :: beyond)) := by
  have hmem : (s ++ 64 :: (body ++ [0])) ++ beyond = s ++ 64 :: (body ++ 0 :: beyond) := by simp
  have hlen : (((s ++ 64 :: (body ++ [0])).length : Nat) : Int) =
      (s.length : Int) + 1 + body.length + 1 := by
    simp only [List.length_append, List.length_cons, List.length_nil]
    push_cast
    omega
  rw [← built_take s body beyond, hmem, hlen]
  exact deserialize_whole s body beyond hs h0

theorem deserialize_nul_first (s rest : List Nat) (size : Int) (hs : 64 ∉ s) (h0 : 0 ∉ s) :
    uevent_deserialize (s ++ 0 :: rest) size = Outcome.done (none, s ++ 0 :: rest) := by
  unfold uevent_deserialize
  rw [strchr_append_null 64 s rest hs h0 (by decide)]

/-- C16: the length argument is authoritative.  For a buffer `pre` of `N`
bytes whose last byte is NUL, parsed with length `N`, the call returns, and
the record, or its absence, is the same whatever memory follows the `N`
bytes: action, `action_str`, `plain`, the store and the sequence number
agree.  So when no token of the buffer begins with `SEQNUM=` the parse
fails, whatever `SEQNUM` token the memory after offset `N` holds. -/
theorem deserialize_length_authoritative (pre b1 b2 : List Nat)
    (hlast : pre.getLast? = some 0) :
    (∃ r m, uevent_deserialize (pre ++ b1) pre.length = Outcome.done (r, m)) ∧
      (uevent_deserialize (pre ++ b1) pre.length).record =
        (uevent_deserialize (pre ++ b2) pre.length).record ∧
      ((∀ tok ∈ tokens (payload pre), ¬ (str "SEQNUM=" <+: tok)) →
        (uevent_deserialize (pre ++ b1) pre.length).record = none) := by
  rcases nul_terminated_cases pre hlast with ⟨s, body, e, h64, h0⟩ | ⟨s, rest, e, h64, h0⟩
  · subst e
    rw [deserialize_terminated s body b1 h64 h0, deserialize_terminated s body b2 h64 h0]
    refine ⟨⟨_, _, rfl⟩, rfl, ?_⟩
    intro hno
    rw [payload_append s _ h64] at hno
    have hsub : ∀ tok ∈ tokens body, ¬ (str "SEQNUM=" <+: tok) := by
      intro tok ht
      apply hno tok
      have : body ++ [0] = body ++ 0 :: [] := rfl
      rw [this, tokens_append_nul]
      exact List.mem_append_left _ ht
    simp only [Outcome.record, built, no_seqnum_entry _ hsub]
  · subst e
    have e1 : (s ++ 0 :: rest) ++ b1 = s ++ 0 :: (rest ++ b1) := by simp
    have e2 : (s ++ 0 :: rest) ++ b2 = s ++ 0 :: (rest ++ b2) := by simp
    rw [e1, e2, deserialize_nul_first s _ _ h64 h0, deserialize_nul_first s _ _ h64 h0]
    exact ⟨⟨_, _, rfl⟩, rfl, fun _ => rfl⟩

theorem deserialize_length_authoritative_witness :
    (str "add@x\x00A=1\x00").getLast? = some 0 ∧
      (uevent_deserialize (str "add@x\x00A=1\x00" ++ str "SEQNUM=5\x00")
          (str "add@x\x00A=1\x00").length).record =
        (uevent_deserialize (str "add@x\x00A=1\x00" ++ [])
          (str "add@x\x00A=1\x00").length).record ∧
      (uevent_deserialize (str "add@x\x00A=1\x00SEQNUM=5\x00") 10).record = none ∧
      (uevent_deserialize (str "add@x\x00A=1\x00SEQNUM=5\x00") 11).record.map
          (fun r => r.seqnum) = some (some 5) :=
  ⟨by decide,
    (deserialize_length_authoritative (str "add@x\x00A=1\x00") (str "SEQNUM=5\x00") []
      (by decide)).2.1,
    by decide, by decide⟩

/-! ## The header as a token -/

/-- C17: the text between the `@` and the first NUL is the first token given
to `uevent_add_env`.  When it has the form `key=value`, split at its first
`=`, and the parse returns a record, the first entry of the store is
`(key, value)`. -/
theorem deserialize_header_entry (s key value rest : List Nat) (size : Int) (r : uevent_t)
    (hs : 64 ∉ s) (h0 : 0 ∉ s) (hk : 61 ∉ key) (hk0 : 0 ∉ key) (hv : 0 ∉ value)
    (h : (uevent_deserialize (s ++ 64 :: (key ++ 61 :: value ++ 0 :: rest)) size).record =
      some r) :
    r.env_vars[0]? = some ⟨key, value⟩ := by
  have ht0 : 0 ∉ key ++ 61 :: value := by
    simp only [List.mem_append, List.mem_cons, not_or]
    exact ⟨hk0, by decide, hv⟩
  by_cases hsz : 0 ≤ size ∧ size ≤ (s ++ 64 :: (key ++ 61 :: value ++ 0 :: rest)).length
  · rw [deserialize_spec s _ size hs h0 hsz.1 hsz.2, tokens_append _ rest ht0] at h
    by_cases hpos : size - ((s.length : Int) + 1) > 0
    · rw [scanned_cons _ _ _ (tokens_ne_nil rest) hpos] at h
      generalize scanned (tokens rest)
          (size - ((s.length : Int) + 1) - (((key ++ 61 :: value).length : Int) + 1)) = sc at h
      cases sc with
      | none => simp [Outcome.record] at h
      | some toks =>
        simp only [Option.map_some', Outcome.record] at h
        obtain ⟨v, -, hr⟩ := built_fields h
        rw [hr]
        simp only [List.flatMap_cons, entries_of_pair key value hk, pair_entries]
        split <;> simp
    · rw [scanned_nonpos _ _ (by omega)] at h
      simp [Outcome.record, built, getvalue_from] at h
  · rw [deserialize_bad_size s _ size hs h0 (by omega)] at h
    simp [Outcome.record] at h

theorem deserialize_header_entry_witness :
    str "add" ++ 64 :: (str "/a" ++ 61 :: str "b" ++ 0 :: str "SEQNUM=1\x00") =
        str "add@/a=b\x00SEQNUM=1\x00" ∧
      (uevent_deserialize (str "add@/a=b\x00SEQNUM=1\x00") 18).record =
        some
          { action := action_t.ACTION_ADD
            action_str := some (str "add")
            seqnum := some 1
            env_vars := [⟨str "/a", str "b"⟩, ⟨str "SEQNUM", str "1"⟩]
            plain := str "add@/a=b\x00SEQNUM=1\x00"
            plain_s := 18 } ∧
      ({ action := action_t.ACTION_ADD
         action_str := some (str "add")
         seqnum := some 1
         env_vars := [⟨str "/a", str "b"⟩, ⟨str "SEQNUM", str "1"⟩]
         plain := str "add@/a=b\x00SEQNUM=1\x00"
         plain_s := 18 } : uevent_t).env_vars[0]? = some ⟨str "/a", str "b"⟩ :=
  ⟨by decide, by decide,
    deserialize_header_entry (str "add") (str "/a") (str "b") (str "SEQNUM=1\x00") 18 _
      (by decide) (by decide) (by decide) (by decide) (by decide) (by decide)⟩

/-! ## The input buffer after the call -/

/-- C18, amended: `uevent_add_env` leaves the memory as it found it, the `=`
it overwrote is back when it returns, with 0 or with -1.  After
`uevent_deserialize` returns, every `=` is back as well, and the buffer is
the one before the call except for the first `@`, which now holds NUL; a
buffer in which a NUL comes before any `@` is returned untouched. -/
theorem parse_memory_effect :
    (∀ (u : uevent_t) (mem : List Nat) (item : Nat) (ret : Int) (u2 : uevent_t)
        (m2 : List Nat),
        uevent_add_env u mem item = Outcome.done (ret, u2, m2) → m2 = mem) ∧
      (∀ (s rest : List Nat) (size : Int) (r : Option uevent_t) (m : List Nat),
        64 ∉ s → 0 ∉ s → uevent_deserialize (s ++ 64 :: rest) size = Outcome.done (r, m) →
        m = s ++ 0 :: rest) ∧
      (∀ (s rest : List Nat) (size : Int), 64 ∉ s → 0 ∉ s →
        uevent_deserialize (s ++ 0 :: rest) size = Outcome.done (none, s ++ 0 :: rest)) := by
  refine ⟨?_, ?_, ?_⟩
  · intro u mem item ret u2 m2 h
    obtain ⟨tok, -, -, hm, -⟩ := add_env_record u mem item ret u2 m2 h
    exact hm
  · intro s rest size r m hs h0 h
    by_cases hsz : 0 ≤ size ∧ size ≤ (s ++ 64 :: rest).length
    · rw [deserialize_spec s rest size hs h0 hsz.1 hsz.2] at h
      cases hsc : scanned (tokens rest) (size - (s.length + 1)) with
      | none => simp [hsc] at h
      | some toks =>
        simp only [hsc, Outcome.done.injEq, Prod.mk.injEq] at h
        exact h.2.symm
    · rw [deserialize_bad_size s rest size hs h0 (by omega)] at h
      simp at h
  · intro s rest size hs h0
    exact deserialize_nul_first s rest size hs h0

theorem parse_memory_effect_witness :
    uevent_add_env example_record (str "A=B=C\x00") 0 =
        Outcome.done (0,
          { example_record with
            env_vars := example_record.env_vars ++ [⟨str "A", str "B=C"⟩] },
          str "A=B=C\x00") ∧
      str "A=B=C\x00" = str "A=B=C\x00" ∧
      uevent_deserialize (str "ab" ++ 64 :: str "x\x00A=1\x00") 9 =
        Outcome.done (none, str "ab\x00x\x00A=1\x00") ∧
      str "ab\x00x\x00A=1\x00" = str "ab" ++ 0 :: str "x\x00A=1\x00" ∧
      uevent_deserialize (str "add" ++ 0 :: str "@x\x00SEQNUM=1\x00") 17 =
        Outcome.done (none, str "add" ++ 0 :: str "@x\x00SEQNUM=1\x00") :=
  ⟨by decide,
    parse_memory_effect.1 example_record (str "A=B=C\x00") 0 0
      { example_record with env_vars := example_record.env_vars ++ [⟨str "A", str "B=C"⟩] }
      (str "A=B=C\x00") (by decide),
    by decide,
    parse_memory_effect.2.1 (str "ab") (str "x\x00A=1\x00") 9 none (str "ab\x00x\x00A=1\x00")
      (by decide) (by decide) (by decide),
    parse_memory_effect.2.2 (str "add") (str "@x\x00SEQNUM=1\x00") 17 (by decide) (by decide)⟩

/-- C18, as stated, fails: after the example event is parsed, the byte at
offset 3 of the buffer, the `@`, holds NUL. -/
theorem at_left_overwritten :
    uevent_deserialize example_buffer 44 =
        Outcome.done (some example_record, example_buffer.set 3 0) ∧
      example_buffer[3]? = some 64 ∧ (example_buffer.set 3 0)[3]? = some 0 ∧
      example_buffer.set 3 0 ≠ example_buffer := by
  decide

/-! ## Termination of the scan -/

theorem takeWhile_nul_first (s rest : List Nat) (hs : 64 ∉ s) :
    0 ∈ (s ++ 0 :: rest).takeWhile (fun b => b ≠ 64) := by
  induction s with
  | nil => simp
  | cons b s ih =>
    have hb : b ≠ 64 := fun e => hs (by simp [e])
    rw [List.cons_append, List.takeWhile_cons_of_pos (by simpa using hb)]
    exact List.mem_cons_of_mem _ (ih (fun e => hs (by simp [e])))

/-- C20: for a buffer of `N` bytes whose last byte is NUL, parsed with length
`N` whatever memory follows, `uevent_deserialize` returns a record exactly
when an `@` occurs before the first NUL and some NUL-separated token after
that `@` begins with `SEQNUM=`.  The store of the record holds the entries of
the tokens that have a `=`: tokens without one, empty tokens and the usual
header among them, add nothing and do not affect success.  A buffer whose
first NUL comes before any `@` fails. -/
theorem deserialize_success_iff (buf beyond : List Nat) (hlast : buf.getLast? = some 0) :
    ((uevent_deserialize (buf ++ beyond) buf.length).record ≠ none ↔
        (64 ∈ buf ∧ 0 ∉ buf.takeWhile (fun b => b ≠ 64)) ∧
          ∃ tok ∈ tokens (payload buf), str "SEQNUM=" <+: tok) ∧
      (∀ r, (uevent_deserialize (buf ++ beyond) buf.length).record = some r →
        r.env_vars =
          ((tokens (payload buf)).filter (fun t => decide (61 ∈ t))).flatMap entries_of) ∧
      (∀ s rest : List Nat, buf = s ++ 0 :: rest → 64 ∉ s →
        (uevent_deserialize (buf ++ beyond) buf.length).record = none) := by
  rcases nul_terminated_cases buf hlast with ⟨s, body, e, h64, h0⟩ | ⟨s, rest, e, h64, h0⟩
  · subst e
    have htoks : tokens (body ++ [0]) = tokens body ++ [[]] := by
      have : body ++ [0] = body ++ 0 :: [] := rfl
      rw [this, tokens_append_nul]
      rfl
    have hex : (∃ tok ∈ tokens body ++ [[]], str "SEQNUM=" <+: tok) ↔
        ∃ tok ∈ tokens body, str "SEQNUM=" <+: tok := by
      constructor
      · rintro ⟨tok, ht, hp⟩
        rcases List.mem_append.1 ht with h1 | h1
        · exact ⟨tok, h1, hp⟩
        · have : tok = [] := by simpa using h1
          subst this
          exact absurd hp (by decide)
      · rintro ⟨tok, ht, hp⟩
        exact ⟨tok, List.mem_append_left _ ht, hp⟩
    rw [deserialize_terminated s body beyond h64 h0, payload_append s _ h64,
      takeWhile_at s _ h64, htoks, hex]
    refine ⟨?_, ?_, ?_⟩
    · rw [← seqnum_entry_iff]
      simp only [Outcome.record, built]
      cases getvalue_from (str "SEQNUM") ((tokens body).flatMap entries_of) <;> simp [h0]
    · intro r hr
      simp only [Outcome.record] at hr
      obtain ⟨v, -, hr2⟩ := built_fields hr
      rw [hr2, flatMap_entries_filter]
      simp [entries_of_noeq [] (by simp)]
    · intro s2 rest2 e2 hs2
      exfalso
      have h1 := takeWhile_nul_first s2 rest2 hs2
      rw [← e2, takeWhile_at s _ h64] at h1
      exact h0 h1
  · subst e
    have e1 : (s ++ 0 :: rest) ++ beyond = s ++ 0 :: (rest ++ beyond) := by simp
    rw [e1, deserialize_nul_first s _ _ h64 h0]
    refine ⟨?_, ?_, ?_⟩
    · simp only [Outcome.record, ne_eq, not_true_eq_false, false_iff, not_and]
      intro hc
      exact absurd (takeWhile_nul_first s rest h64) hc.2
    · intro r hr
      simp [Outcome.record] at hr
    · intro _ _ _ _
      rfl

theorem deserialize_success_iff_witness :
    example_buffer.getLast? = some 0 ∧
      ((uevent_deserialize (example_buffer ++ []) example_buffer.length).record ≠ none ↔
        (64 ∈ example_buffer ∧ 0 ∉ example_buffer.takeWhile (fun b => b ≠ 64)) ∧
          ∃ tok ∈ tokens (payload example_buffer), str "SEQNUM=" <+: tok) ∧
      (uevent_deserialize (example_buffer ++ []) example_buffer.length).record =
        some example_record ∧
      (uevent_deserialize (str "add@x\x00\x00NOEQ\x00SEQNUM=3\x00\x00") 21).record.map
          (fun r => (r.env_vars, r.seqnum)) = some ([⟨str "SEQNUM", str "3"⟩], some 3) ∧
      (uevent_deserialize (str "add\x00@x\x00SEQNUM=3\x00") 17).record = none :=
  ⟨by decide, (deserialize_success_iff example_buffer [] (by decide)).1, by decide,
    by decide, by decide⟩

/-! ## Loads from a heap -/

theorem load_lt {h : Heap} {a : Nat} {b : Block} (hl : load h a = some b) : a < h.length := by
  unfold load at hl
  by_contra hc
  rw [List.getElem?_eq_none (by omega)] at hl
  simp at hl

theorem load_eq_some {h : Heap} {a : Nat} {b : Block} :
    load h a = some b ↔ h[a]? = some (some b) := by
  unfold load
  cases hx : h[a]? with
  | none => simp
  | some o =>
    cases o with
    | none => simp
    | some c => simp

theorem load_append {h : Heap} {a : Nat} {b : Block} (e : Heap) (hl : load h a = some b) :
    load (h ++ e) a = some b := by
  have hlt := load_lt hl
  rw [load_eq_some] at hl ⊢
  rw [List.getElem?_append_left hlt]
  exact hl

theorem load_append_new (h e : Heap) (b : Block) : load (h ++ some b :: e) h.length = some b := by
  rw [load_eq_some, List.getElem?_append_right (le_refl _)]
  simp

theorem load_set_ne (h : Heap) (a a2 : Nat) (x : Option Block) (hne : a ≠ a2) :
    load (h.set a x) a2 = load h a2 := by
  unfold load
  rw [List.getElem?_set_ne hne]

theorem load_set_eq (h : Heap) (a : Nat) (b : Block) (hlt : a < h.length) :
    load (h.set a (some b)) a = some b := by
  rw [load_eq_some, List.getElem?_set_self hlt]

theorem load_set_none (h : Heap) (a : Nat) : load (h.set a none) a = none := by
  unfold load
  by_cases hlt : a < h.length
  · rw [List.getElem?_set_self hlt]
  · rw [List.getElem?_eq_none (by simp; omega)]

theorem keeps_refl (h : Heap) : keeps h h := ⟨le_refl _, fun _ _ hl => hl⟩

theorem keeps_trans {h1 h2 h3 : Heap} (h12 : keeps h1 h2) (h23 : keeps h2 h3) : keeps h1 h3 :=
  ⟨le_trans h12.1 h23.1, fun a b hl => h23.2 a b (h12.2 a b hl)⟩

theorem keeps_append (h e : Heap) : keeps h (h ++ e) :=
  ⟨by simp, fun _ _ hl => load_append e hl⟩

theorem keeps_set {h0 h : Heap} (a : Nat) (x : Option Block) (hk : keeps h0 h)
    (ha : h0.length ≤ a) : keeps h0 (h.set a x) := by
  refine ⟨by simpa using hk.1, ?_⟩
  intro a2 b hl
  have hlt := load_lt hl
  rw [load_set_ne h a a2 x (by omega)]
  exact hk.2 a2 b hl

theorem keeps_but_refl (x : Nat) (h : Heap) : keeps_but x h h :=
  ⟨le_refl _, fun _ _ _ hl => hl⟩

theorem keeps_but_trans {x : Nat} {h1 h2 h3 : Heap} (h12 : keeps_but x h1 h2)
    (h23 : keeps_but x h2 h3) : keeps_but x h1 h3 :=
  ⟨le_trans h12.1 h23.1, fun a b hne hl => h23.2 a b hne (h12.2 a b hne hl)⟩

theorem keeps_but_append (x : Nat) (h e : Heap) : keeps_but x h (h ++ e) :=
  ⟨by simp, fun _ _ _ hl => load_append e hl⟩

theorem keeps_but_set (x : Nat) (h : Heap) (v : Option Block) : keeps_but x h (h.set x v) := by
  refine ⟨by simp, ?_⟩
  intro a b hne hl
  rw [load_set_ne h x a v (fun e => hne e.symm)]
  exact hl

theorem load_bytes_eq_some {h : Heap} {p : Option Nat} {s : List Nat} :
    load_bytes h p = some s ↔ ∃ a, p = some a ∧ load h a = some (Block.bytes s) := by
  unfold load_bytes
  cases p with
  | none => simp
  | some a =>
    cases hl : load h a with
    | none => simp [hl]
    | some b => cases b <;> simp [hl]

theorem load_vars_eq_some {h : Heap} {p : Option Nat} {l : List (Option Nat × Option Nat)} :
    load_vars h p = some l ↔ ∃ a, p = some a ∧ load h a = some (Block.vars l) := by
  unfold load_vars
  cases p with
  | none => simp
  | some a =>
    cases hl : load h a with
    | none => simp [hl]
    | some b => cases b <;> simp [hl]

theorem load_event_eq_some {h : Heap} {a : Nat} {c : uevent_cell} :
    load_event h a = some c ↔ load h a = some (Block.event c) := by
  unfold load_event
  cases hl : load h a with
  | none => simp [hl]
  | some b => cases b <;> simp [hl]

theorem read_entries_mono {h h2 : Heap}
    (hb : ∀ p s, load_bytes h p = some s → load_bytes h2 p = some s)
    (l : List (Option Nat × Option Nat)) (es : List env_var_t)
    (hr : read_entries h l = some es) : read_entries h2 l = some es := by
  induction l generalizing es with
  | nil => simpa [read_entries] using hr
  | cons e l ih =>
    unfold read_entries at hr ⊢
    cases hk : load_bytes h e.1 with
    | none => simp [hk] at hr
    | some k =>
      cases hv : load_bytes h e.2 with
      | none => simp [hk, hv] at hr
      | some v =>
        cases hrest : read_entries h l with
        | none => simp [hk, hv, hrest] at hr
        | some r =>
          simp only [hk, hv, hrest, Option.some.injEq] at hr
          simp only [hb _ _ hk, hb _ _ hv, ih r hrest]
          exact congrArg some hr

theorem keeps_bytes {h h2 : Heap} (hk : keeps h h2) (p : Option Nat) (s : List Nat)
    (hl : load_bytes h p = some s) : load_bytes h2 p = some s := by
  rw [load_bytes_eq_some] at hl ⊢
  obtain ⟨a, e, hla⟩ := hl
  exact ⟨a, e, hk.2 a _ hla⟩

/-- Whatever record a heap holds at an address, a heap that keeps its blocks
holds the same record there. -/
theorem heap_record_keeps {h h2 : Heap} (hk : keeps h h2) (u : Nat) (r : uevent_t)
    (hr : heap_record h u = some r) : heap_record h2 u = some r := by
  unfold heap_record at hr ⊢
  cases hc : load_event h u with
  | none => simp [hc] at hr
  | some c =>
    have hc2 : load_event h2 u = some c :=
      load_event_eq_some.2 (hk.2 u _ (load_event_eq_some.1 hc))
    simp only [hc] at hr
    simp only [hc2]
    have hst : ∀ es, read_store h c = some es → read_store h2 c = some es := by
      intro es hes
      unfold read_store at hes ⊢
      by_cases h0 : c.env_vars_c = 0
      · simpa [h0] using hes
      · simp only [h0, if_false] at hes ⊢
        cases hv : load_vars h c.env_vars with
        | none => simp [hv] at hes
        | some l =>
          obtain ⟨a, ea, hla⟩ := load_vars_eq_some.1 hv
          have hv2 : load_vars h2 c.env_vars = some l :=
            load_vars_eq_some.2 ⟨a, ea, hk.2 a _ hla⟩
          simp only [hv] at hes
          simp only [hv2]
          by_cases hle : c.env_vars_c ≤ l.length
          · simp only [hle, if_true] at hes ⊢
            exact read_entries_mono (keeps_bytes hk) _ _ hes
          · simp [hle] at hes
    have hopt : ∀ o, read_optional h c.action_str = some o →
        read_optional h2 c.action_str = some o := by
      intro o ho
      unfold read_optional at ho ⊢
      cases hp : c.action_str with
      | none => simpa [hp] using ho
      | some a =>
        simp only [hp] at ho ⊢
        cases hb : load_bytes h (some a) with
        | none => simp [hb] at ho
        | some s =>
          simp only [hb] at ho
          simp only [keeps_bytes hk _ _ hb]
          exact ho
    cases hs : read_store h c with
    | none => simp [hs] at hr
    | some es =>
      cases hp : load_bytes h c.plain with
      | none => simp [hs, hp] at hr
      | some p =>
        cases ho : read_optional h c.action_str with
        | none => simp [hs, hp, ho] at hr
        | some o =>
          simp only [hs, hp, ho] at hr
          simp only [hst es hs, keeps_bytes hk _ _ hp, hopt o ho]
          exact hr

theorem read_entries_cons {h : Heap} {e : Option Nat × Option Nat}
    {l : List (Option Nat × Option Nat)} {es : List env_var_t}
    (hr : read_entries h (e :: l) = some es) :
    ∃ k v rest, load_bytes h e.1 = some k ∧ load_bytes h e.2 = some v ∧
      read_entries h l = some rest ∧ es = ⟨k, v⟩ :: rest := by
  unfold read_entries at hr
  cases hk : load_bytes h e.1 with
  | none => simp [hk] at hr
  | some k =>
    cases hv : load_bytes h e.2 with
    | none => simp [hk, hv] at hr
    | some v =>
      cases hrest : read_entries h l with
      | none => simp [hk, hv, hrest] at hr
      | some r =>
        simp only [hk, hv, hrest, Option.some.injEq] at hr
        exact ⟨k, v, r, rfl, rfl, rfl, hr.symm⟩

theorem getElem?_mid {α : Type} (pre : List α) (e : α) (post : List α) :
    (pre ++ e :: post)[pre.length]? = some e := by
  rw [List.getElem?_append_right (le_refl _)]
  simp

theorem heap_getvalue_loop_spec (h : Heap) (arr : Option Nat) (key : List Nat)
    (srcs pre post : List (Option Nat × Option Nat)) (es : List env_var_t)
    (hv : load_vars h arr = some (pre ++ (srcs ++ post)))
    (hr : read_entries h srcs = some es) :
    heap_getvalue_loop h arr key srcs.length pre.length = some (getvalue_from key es) := by
  induction srcs generalizing pre es with
  | nil =>
    have : es = [] := by simpa [read_entries] using hr.symm
    subst this
    rfl
  | cons e srcs ih =>
    obtain ⟨k, v, rest, hk, hval, hrest, rfl⟩ := read_entries_cons hr
    have hlv : load_var h arr pre.length = some e := by
      unfold load_var
      rw [hv]
      exact getElem?_mid pre e (srcs ++ post)
    simp only [List.length_cons, heap_getvalue_loop, hlv, hk, hval, getvalue_from]
    by_cases hc : strcmp k key = 0
    · simp only [hc, if_true]
    · simp only [hc, if_false]
      have := ih (pre ++ [e]) rest (by simpa using hv) hrest
      simpa using this

/-- On a heap that holds the record `r` at `u`, the lookup through the heap
gives what the lookup in `r` gives. -/
theorem heap_getvalue_spec (h : Heap) (u : Nat) (r : uevent_t) (key : List Nat)
    (hr : heap_record h u = some r) :
    heap_getvalue h u key = some (uevent_getvalue r key) := by
  unfold heap_record at hr
  unfold heap_getvalue
  cases hc : load_event h u with
  | none => simp [hc] at hr
  | some c =>
    simp only [hc] at hr ⊢
    cases hs : read_store h c with
    | none => simp [hs] at hr
    | some es =>
      cases hp : load_bytes h c.plain with
      | none => simp [hs, hp] at hr
      | some p =>
        cases ho : read_optional h c.action_str with
        | none => simp [hs, hp, ho] at hr
        | some o =>
          simp only [hs, hp, ho, Option.some.injEq] at hr
          subst hr
          simp only [uevent_getvalue]
          unfold read_store at hs
          by_cases h0 : c.env_vars_c = 0
          · simp only [h0, if_true, Option.some.injEq] at hs
            subst hs
            rw [h0]
            rfl
          · simp only [h0, if_false] at hs
            cases hv : load_vars h c.env_vars with
            | none => simp [hv] at hs
            | some l =>
              simp only [hv] at hs
              by_cases hle : c.env_vars_c ≤ l.length
              · simp only [hle, if_true] at hs
                have hlen : (l.take c.env_vars_c).length = c.env_vars_c := by
                  simp [hle]
                have := heap_getvalue_loop_spec h c.env_vars key (l.take c.env_vars_c) []
                  (l.drop c.env_vars_c) es (by simpa using hv) hs
                rw [hlen] at this
                exact this
              · simp [hle] at hs

/-! ## Appending to a record leaves the rest of the heap alone -/

theorem store_var_some {h h2 : Heap} {arr : Option Nat} {i : Nat}
    {e : Option Nat × Option Nat} (hs : store_var h arr i e = some h2) :
    ∃ a l, arr = some a ∧ load h a = some (Block.vars l) ∧ i < l.length ∧
      h2 = h.set a (some (Block.vars (l.set i e))) := by
  unfold store_var at hs
  cases arr with
  | none => simp at hs
  | some a =>
    simp only at hs
    cases hl : load h a with
    | none => simp [hl] at hs
    | some b =>
      cases b with
      | bytes s => simp [hl] at hs
      | event c => simp [hl] at hs
      | vars l =>
        simp only [hl] at hs
        by_cases hi : i < l.length
        · simp only [hi, if_true, Option.some.injEq] at hs
          exact ⟨a, l, rfl, hl, hi, hs.symm⟩
        · simp [hi] at hs

theorem store_key_some {h h2 : Heap} {arr : Option Nat} {i k : Nat}
    (hs : store_key h arr i k = some h2) :
    ∃ a l e, arr = some a ∧ load h a = some (Block.vars l) ∧ l[i]? = some e ∧
      h2 = h.set a (some (Block.vars (l.set i (some k, e.2)))) := by
  unfold store_key at hs
  cases hv : load_var h arr i with
  | none => simp [hv] at hs
  | some e =>
    simp only [hv] at hs
    obtain ⟨a, l, ea, hl, hi, e2⟩ := store_var_some hs
    refine ⟨a, l, e, ea, hl, ?_, e2⟩
    unfold load_var at hv
    rw [load_vars_eq_some.2 ⟨a, ea, hl⟩] at hv
    exact hv

theorem store_value_some {h h2 : Heap} {arr : Option Nat} {i v : Nat}
    (hs : store_value h arr i v = some h2) :
    ∃ a l e, arr = some a ∧ load h a = some (Block.vars l) ∧ l[i]? = some e ∧
      h2 = h.set a (some (Block.vars (l.set i (e.1, some v)))) := by
  unfold store_value at hs
  cases hv : load_var h arr i with
  | none => simp [hv] at hs
  | some e =>
    simp only [hv] at hs
    obtain ⟨a, l, ea, hl, hi, e2⟩ := store_var_some hs
    refine ⟨a, l, e, ea, hl, ?_, e2⟩
    unfold load_var at hv
    rw [load_vars_eq_some.2 ⟨a, ea, hl⟩] at hv
    exact hv

theorem load_append_lt (h e : Heap) (a : Nat) (hlt : a < h.length) :
    load (h ++ e) a = load h a := by
  unfold load
  rw [List.getElem?_append_left hlt]

theorem load_event_append_bytes {h : Heap} {s : List Nat} {u : Nat} {c : uevent_cell}
    (hl : load_event (h ++ [some (Block.bytes s)]) u = some c) : load_event h u = some c := by
  rw [load_event_eq_some] at hl ⊢
  by_cases hlt : u < h.length
  · rwa [load_append_lt h _ u hlt] at hl
  · have hu := load_lt hl
    have : u = h.length := by simp at hu; omega
    subst this
    rw [load_append_new] at hl
    simp at hl

theorem load_event_append_other {h e : Heap} {u : Nat} {c : uevent_cell}
    (he : ∀ x ∈ e, ∀ c2, x ≠ some (Block.event c2))
    (hl : load_event (h ++ e) u = some c) : load_event h u = some c := by
  rw [load_event_eq_some] at hl ⊢
  by_cases hlt : u < h.length
  · rwa [load_append_lt h _ u hlt] at hl
  · rw [load_eq_some, List.getElem?_append_right (by omega)] at hl
    exact absurd rfl (he _ (List.getElem?_mem hl) c)

theorem load_event_append_vars {h : Heap} {l : List (Option Nat × Option Nat)} {u : Nat}
    {c : uevent_cell} (hl : load_event (h ++ [some (Block.vars l)]) u = some c) :
    load_event h u = some c := by
  rw [load_event_eq_some] at hl ⊢
  by_cases hlt : u < h.length
  · rwa [load_append_lt h _ u hlt] at hl
  · have hu := load_lt hl
    have : u = h.length := by simp at hu; omega
    subst this
    rw [load_append_new] at hl
    simp at hl

theorem load_event_set_vars {h : Heap} {a u : Nat} {l : List (Option Nat × Option Nat)}
    {c : uevent_cell} (hl : load_event (h.set a (some (Block.vars l))) u = some c) :
    load_event h u = some c := by
  rw [load_event_eq_some] at hl ⊢
  by_cases hau : a = u
  · subst hau
    have hlt : a < h.length := by simpa using load_lt hl
    rw [load_set_eq h a _ hlt] at hl
    simp at hl
  · rwa [load_set_ne h a u _ hau] at hl

theorem load_event_set_none {h : Heap} {a u : Nat} {c : uevent_cell}
    (hl : load_event (h.set a none) u = some c) : load_event h u = some c := by
  rw [load_event_eq_some] at hl ⊢
  by_cases hau : a = u
  · subst hau
    rw [load_set_none] at hl
    simp at hl
  · rwa [load_set_ne h a u _ hau] at hl

theorem xrealloc_some {moves : Nat → Bool} {h h1 : Heap} {p : Option Nat} {n a : Nat}
    (hx : xrealloc moves h p n = some (a, h1)) :
    (a = h.length ∧ (∃ l, h1 = h ++ [some (Block.vars l)] ∨
        ∃ a0, p = some a0 ∧ h1 = (h ++ [some (Block.vars l)]).set a0 none)) ∨
      (p = some a ∧ ∃ l, h1 = h.set a (some (Block.vars l))) := by
  unfold xrealloc at hx
  cases p with
  | none =>
    simp only [malloc, Option.some.injEq, Prod.mk.injEq] at hx
    exact Or.inl ⟨hx.1.symm, _, Or.inl hx.2.symm⟩
  | some a0 =>
    simp only at hx
    cases hl : load h a0 with
    | none => simp [hl] at hx
    | some b =>
      cases b with
      | bytes s => simp [hl] at hx
      | event c => simp [hl] at hx
      | vars l =>
        simp only [hl] at hx
        by_cases hm : moves a0 = true
        · simp only [hm, if_true, Option.some.injEq, Prod.mk.injEq] at hx
          exact Or.inl ⟨hx.1.symm, _, Or.inr ⟨a0, rfl, hx.2.symm⟩⟩
        · simp only [hm, Option.some.injEq, Prod.mk.injEq] at hx
          simp only [Bool.false_eq_true, if_false, Option.some.injEq, Prod.mk.injEq] at hx
          obtain ⟨e1, e2⟩ := hx
          subst e1
          exact Or.inr ⟨rfl, _, e2.symm⟩

/-- One appended entry changes the heap only at the record, at its array and
at fresh addresses: a heap part lying below both is kept, and the record and
its new array still lie above it. -/
theorem heap_push_frame (moves : Nat → Bool) (h0 h h2 : Heap) (u : Nat)
    (key value : List Nat) (tmp : Option (List Nat))
    (hk : keeps h0 h) (ho : owned h0.length u h)
    (hp : heap_push moves h u key value tmp = some h2) :
    keeps h0 h2 ∧ owned h0.length u h2 := by
  unfold heap_push at hp
  cases hc : load_event h u with
  | none => simp [hc] at hp
  | some c =>
    simp only [hc] at hp
    cases hx : xrealloc moves h c.env_vars (c.env_vars_c + 1) with
    | none => simp [hx] at hp
    | some ah =>
      obtain ⟨a, h1⟩ := ah
      simp only [hx] at hp
      cases hu : load h1 u with
      | none => simp [hu] at hp
      | some bu =>
        simp only [hu, malloc] at hp
        have hulen : u < h1.length := load_lt hu
        -- the array address and the heap after the reallocation
        have hfacts : h0.length ≤ a ∧ keeps h0 h1 ∧
            (∀ c2, load_event h1 u = some c2 → load_event h u = some c2) := by
          rcases xrealloc_some hx with ⟨ea, l, hh | ⟨a0, ep, hh⟩⟩ | ⟨ep, l, hh⟩
          · subst hh
            exact ⟨by rw [ea]; exact hk.1, keeps_trans hk (keeps_append _ _),
              fun c2 hc2 => load_event_append_vars hc2⟩
          · subst hh
            have ha0 : h0.length ≤ a0 := ho.2 c hc a0 ep
            exact ⟨by rw [ea]; exact hk.1,
              keeps_set a0 none (keeps_trans hk (keeps_append _ _)) ha0,
              fun c2 hc2 => load_event_append_vars (load_event_set_none hc2)⟩
          · subst hh
            have ha0 : h0.length ≤ a := ho.2 c hc a ep
            exact ⟨ha0, keeps_set a _ hk ha0, fun c2 hc2 => load_event_set_vars hc2⟩
        obtain ⟨hbase, hk1, -⟩ := hfacts
        -- the heap once the record is updated
        have hk2 : keeps h0 (h1.set u (some (Block.event
            { c with env_vars_c := c.env_vars_c + 1, env_vars := some a }))) :=
          keeps_set u _ hk1 ho.1
        have hcell : ∀ c2, load_event (h1.set u (some (Block.event
            { c with env_vars_c := c.env_vars_c + 1, env_vars := some a }))) u = some c2 →
            c2.env_vars = some a := by
          intro c2 hc2
          rw [load_event_eq_some, load_set_eq h1 u _ hulen] at hc2
          simp only [Option.some.injEq, Block.event.injEq] at hc2
          rw [← hc2]
        generalize h1.set u (some (Block.event
            { c with env_vars_c := c.env_vars_c + 1, env_vars := some a })) = hh2 at hp hk2 hcell
        cases hsk : store_key (hh2 ++ [some (Block.bytes key)]) (some a) c.env_vars_c hh2.length
          with
        | none => simp [hsk] at hp
        | some h4 =>
          simp only [hsk] at hp
          obtain ⟨a4, l4, e4, ea4, -, -, eh4⟩ := store_key_some hsk
          have ea4' : a4 = a := by simpa using ea4.symm
          subst ea4'
          have hk4 : keeps h0 h4 := by
            rw [eh4]
            exact keeps_set a4 _ (keeps_trans hk2 (keeps_append _ _)) hbase
          have hcell4 : ∀ c2, load_event h4 u = some c2 → c2.env_vars = some a4 := by
            intro c2 hc2
            rw [eh4] at hc2
            exact hcell c2 (load_event_append_bytes (load_event_set_vars hc2))
          cases tmp with
          | none =>
            simp only at hp
            obtain ⟨a5, l5, e5, ea5, -, -, eh5⟩ := store_value_some hp
            have ea5' : a5 = a4 := by simpa using ea5.symm
            subst ea5'
            refine ⟨?_, ho.1, ?_⟩
            · rw [eh5]
              exact keeps_set a5 _ (keeps_trans hk4 (keeps_append _ _)) hbase
            · intro c2 hc2 x hx2
              rw [eh5] at hc2
              have := hcell4 c2 (load_event_append_bytes (load_event_set_vars hc2))
              rw [this] at hx2
              have : x = a5 := by simpa using hx2.symm
              rw [this]
              exact hbase
          | some t =>
            simp only at hp
            split at hp
            · simp at hp
            · rename_i h7 hsv
              simp only [Option.some.injEq] at hp
              obtain ⟨a7, l7, e7, ea7, -, -, eh7⟩ := store_value_some hsv
              have ea7' : a7 = a4 := by simpa using ea7.symm
              subst ea7'
              subst hp
              refine ⟨?_, ho.1, ?_⟩
              · rw [eh7]
                exact keeps_set _ none
                  (keeps_set a7 _
                    (keeps_trans hk4 (keeps_trans (keeps_append _ _) (keeps_append _ _)))
                    hbase)
                  hk4.1
              · intro c2 hc2 x hx2
                rw [eh7] at hc2
                have := hcell4 c2
                  (load_event_append_bytes
                    (load_event_append_bytes (load_event_set_vars (load_event_set_none hc2))))
                rw [this] at hx2
                have : x = a7 := by simpa using hx2.symm
                rw [this]
                exact hbase

/-- The frame of `uevent_add_env`: a part of the heap below the record and
its array is kept by the call, whatever the item. -/
theorem heap_add_env_frame (moves : Nat → Bool) (h0 h h2 : Heap) (u : Nat) (mem : List Nat)
    (item : Nat) (ret : Int) (m2 : List Nat)
    (hk : keeps h0 h) (ho : owned h0.length u h)
    (ha : heap_add_env moves h u mem item = some (ret, h2, m2)) :
    keeps h0 h2 ∧ owned h0.length u h2 := by
  unfold heap_add_env at ha
  cases hs : strchr 61 (mem.drop item) with
  | oob => simp [hs] at ha
  | null =>
    simp only [hs, Option.some.injEq, Prod.mk.injEq] at ha
    rw [← ha.2.1]
    exact ⟨hk, ho⟩
  | found k =>
    simp only [hs] at ha
    cases hkey : cstr ((mem.set (item + k) 0).drop item) with
    | none => simp [hkey] at ha
    | some key =>
      cases hval : cstr ((mem.set (item + k) 0).drop (item + k + 1)) with
      | none => simp [hkey, hval] at ha
      | some value =>
        simp only [hkey, hval] at ha
        cases hp1 : heap_push moves h u key value none with
        | none => simp [hp1] at ha
        | some h1 =>
          simp only [hp1] at ha
          obtain ⟨hk1, ho1⟩ := heap_push_frame moves h0 h h1 u key value none hk ho hp1
          by_cases hd : strcmp key (str "DEVPATH") = 0
          · simp only [hd, if_true] at ha
            cases hp2 : heap_push moves h1 u (str "DEVICENAME") (basename value) (some value)
              with
            | none => simp [hp2] at ha
            | some h3 =>
              simp only [hp2, Option.some.injEq, Prod.mk.injEq] at ha
              rw [← ha.2.1]
              exact heap_push_frame moves h0 h1 h3 u _ _ _ hk1 ho1 hp2
          · simp only [hd, if_false, Option.some.injEq, Prod.mk.injEq] at ha
            rw [← ha.2.1]
            exact ⟨hk1, ho1⟩

/-! ## The copy made by `uevent_dup` -/

theorem read_entries_append {h : Heap} {l1 l2 : List (Option Nat × Option Nat)}
    {a b : List env_var_t} (h1 : read_entries h l1 = some a) (h2 : read_entries h l2 = some b) :
    read_entries h (l1 ++ l2) = some (a ++ b) := by
  induction l1 generalizing a with
  | nil =>
    have : a = [] := by simpa [read_entries] using h1.symm
    subst this
    simpa using h2
  | cons e l1 ih =>
    obtain ⟨k, v, rest, hk, hv, hrest, rfl⟩ := read_entries_cons h1
    rw [List.cons_append, read_entries, hk, hv, ih hrest]
    rfl

theorem load_var_of_load {h : Heap} {a i : Nat} {l : List (Option Nat × Option Nat)}
    (hl : load h a = some (Block.vars l)) : load_var h (some a) i = l[i]? := by
  unfold load_var
  rw [load_vars_eq_some.2 ⟨a, rfl, hl⟩]

theorem load_var_some {h : Heap} {p : Option Nat} {i : Nat} {e : Option Nat × Option Nat}
    (hv : load_var h p i = some e) :
    ∃ a l, p = some a ∧ load h a = some (Block.vars l) ∧ l[i]? = some e := by
  unfold load_var at hv
  cases hl : load_vars h p with
  | none => simp [hl] at hv
  | some l =>
    obtain ⟨a, ea, hla⟩ := load_vars_eq_some.1 hl
    simp only [hl] at hv
    exact ⟨a, l, ea, hla, hv⟩

theorem store_var_of_load {h : Heap} {a i : Nat} {l : List (Option Nat × Option Nat)}
    (e : Option Nat × Option Nat) (hl : load h a = some (Block.vars l)) (hi : i < l.length) :
    store_var h (some a) i e = some (h.set a (some (Block.vars (l.set i e)))) := by
  simp only [store_var, hl, hi, if_true]

/-- One iteration of the loop of `uevent_dup`, on a target array whose entry
`i` is still unassigned: two fresh strings, and the entry pointing at them. -/
theorem heap_dup_step (hc : Heap) (sa : Option Nat) (da i n : Nat)
    (e : Option Nat × Option Nat) (k v : List Nat) (L : List (Option Nat × Option Nat))
    (hsrc : load_var hc sa i = some e) (hk : load_bytes hc e.1 = some k)
    (hv : load_bytes hc e.2 = some v) (hda : load hc da = some (Block.vars L))
    (hLi : L[i]? = some (none, none)) :
    ∃ h4, heap_dup_loop sa (some da) (n + 1) i hc = heap_dup_loop sa (some da) n (i + 1) h4 ∧
      load h4 da = some (Block.vars (L.set i (some hc.length, some (hc.length + 1)))) ∧
      load_bytes h4 (some hc.length) = some k ∧
      load_bytes h4 (some (hc.length + 1)) = some v ∧ keeps_but da hc h4 := by
  have hdalt : da < hc.length := load_lt hda
  have hi : i < L.length := by
    by_contra hcon
    rw [List.getElem?_eq_none (by omega)] at hLi
    simp at hLi
  obtain ⟨a, l, ea, hla, hle⟩ := load_var_some hsrc
  obtain ⟨ak, eak, hlk⟩ := load_bytes_eq_some.1 hk
  obtain ⟨av, eav, hlv⟩ := load_bytes_eq_some.1 hv
  have hvne : av ≠ da := fun c => by rw [c, hda] at hlv; simp at hlv
  have hane : a ≠ da := by
    intro c
    rw [c, hda] at hla
    simp only [Option.some.injEq, Block.vars.injEq] at hla
    rw [← hla, hLi] at hle
    simp only [Option.some.injEq] at hle
    rw [← hle] at eak
    simp at eak
  -- the heaps of the iteration
  have e1 : heap_strdup hc e.1 = some (hc.length, hc ++ [some (Block.bytes k)]) := by
    simp only [heap_strdup, hk, malloc]
  have hda1 : load (hc ++ [some (Block.bytes k)]) da = some (Block.vars L) := load_append _ hda
  have e2 : store_key (hc ++ [some (Block.bytes k)]) (some da) i hc.length =
      some ((hc ++ [some (Block.bytes k)]).set da
        (some (Block.vars (L.set i (some hc.length, none))))) := by
    simp only [store_key, load_var_of_load hda1, hLi, store_var_of_load _ hda1 hi]
  generalize hh2 : (hc ++ [some (Block.bytes k)]).set da
      (some (Block.vars (L.set i (some hc.length, none)))) = h2 at e2
  have hlen2 : h2.length = hc.length + 1 := by rw [← hh2]; simp
  have hload2 : ∀ x, x ≠ da → load h2 x = load (hc ++ [some (Block.bytes k)]) x := by
    intro x hx
    rw [← hh2]
    exact load_set_ne _ da x _ (fun c => hx c.symm)
  have hda2 : load h2 da = some (Block.vars (L.set i (some hc.length, none))) := by
    rw [← hh2]
    exact load_set_eq _ da _ (by simp; omega)
  have e3 : load_var h2 sa i = some e := by
    rw [ea, load_var_of_load (l := l) (by rw [hload2 a hane]; exact load_append _ hla)]
    exact hle
  have hv2 : load_bytes h2 e.2 = some v :=
    load_bytes_eq_some.2 ⟨av, eav, by rw [hload2 av hvne]; exact load_append _ hlv⟩
  have e4 : heap_strdup h2 e.2 = some (hc.length + 1, h2 ++ [some (Block.bytes v)]) := by
    simp only [heap_strdup, hv2, malloc, hlen2]
  have hda3 : load (h2 ++ [some (Block.bytes v)]) da =
      some (Block.vars (L.set i (some hc.length, none))) := load_append _ hda2
  have hLi1 : (L.set i (some hc.length, (none : Option Nat)))[i]? = some (some hc.length, none) := by
    rw [List.getElem?_set_self hi]
  have e5 : store_value (h2 ++ [some (Block.bytes v)]) (some da) i (hc.length + 1) =
      some ((h2 ++ [some (Block.bytes v)]).set da
        (some (Block.vars (L.set i (some hc.length, some (hc.length + 1)))))) := by
    simp only [store_value, load_var_of_load hda3, hLi1,
      store_var_of_load _ hda3 (by simpa using hi), List.set_set]
  refine ⟨(h2 ++ [some (Block.bytes v)]).set da
      (some (Block.vars (L.set i (some hc.length, some (hc.length + 1))))), ?_, ?_, ?_, ?_, ?_⟩
  · simp only [heap_dup_loop, hsrc, e1, e2, e3, e4, e5]
  · exact load_set_eq _ da _ (by simp; omega)
  · rw [load_bytes_eq_some]
    refine ⟨hc.length, rfl, ?_⟩
    rw [load_set_ne _ da _ _ (by omega), load_append_lt _ _ _ (by omega),
      hload2 _ (by omega)]
    exact load_append_new hc [] _
  · rw [load_bytes_eq_some]
    refine ⟨hc.length + 1, rfl, ?_⟩
    rw [load_set_ne _ da _ _ (by omega), ← hlen2]
    exact load_append_new h2 [] _
  · have k1 : keeps_but da hc h2 := by
      rw [← hh2]
      exact keeps_but_trans (keeps_but_append da hc _) (keeps_but_set da _ _)
    exact keeps_but_trans k1
      (keeps_but_trans (keeps_but_append da h2 _) (keeps_but_set da _ _))

theorem keeps_but_bytes {x : Nat} {h h2 : Heap} {L : List (Option Nat × Option Nat)}
    (hx : load h x = some (Block.vars L)) (hk : keeps_but x h h2) (p : Option Nat)
    (s : List Nat) (hl : load_bytes h p = some s) : load_bytes h2 p = some s := by
  rw [load_bytes_eq_some] at hl ⊢
  obtain ⟨a, e, hla⟩ := hl
  have hne : a ≠ x := fun c => by rw [c, hx] at hla; simp at hla
  exact ⟨a, e, hk.2 a _ hne hla⟩

/-- The loop of `uevent_dup` fills the unassigned entries of the target array
with fresh copies of the source entries, and changes no other block. -/
theorem heap_dup_loop_spec (sa : Option Nat) (da : Nat)
    (srcs filled : List (Option Nat × Option Nat)) (hc : Heap)
    (es_done es_rest : List env_var_t)
    (hsrc : ∀ (j : Nat) (e : Option Nat × Option Nat), srcs[j]? = some e →
      load_var hc sa (filled.length + j) = some e)
    (hda : load hc da = some (Block.vars (filled ++ List.replicate srcs.length (none, none))))
    (hrest : read_entries hc srcs = some es_rest)
    (hdone : read_entries hc filled = some es_done) :
    ∃ hf filled2, heap_dup_loop sa (some da) srcs.length filled.length hc = some hf ∧
      load hf da = some (Block.vars filled2) ∧
      filled2.length = filled.length + srcs.length ∧
      read_entries hf filled2 = some (es_done ++ es_rest) ∧ keeps_but da hc hf := by
  induction srcs generalizing filled hc es_done es_rest with
  | nil =>
    have : es_rest = [] := by simpa [read_entries] using hrest.symm
    subst this
    refine ⟨hc, filled, rfl, by simpa using hda, by simp, by simpa using hdone,
      keeps_but_refl da hc⟩
  | cons e srcs ih =>
    obtain ⟨k, v, rest, hk, hv, hrest2, rfl⟩ := read_entries_cons hrest
    have hsrc0 : load_var hc sa filled.length = some e := by
      have := hsrc 0 e (by simp)
      simpa using this
    have hLi : (filled ++ List.replicate (e :: srcs).length ((none : Option Nat),
        (none : Option Nat)))[filled.length]? = some (none, none) := by
      rw [List.getElem?_append_right (le_refl _)]
      simp [List.replicate_succ]
    obtain ⟨h4, hloop, hda4, hk4, hv4, hkeep⟩ :=
      heap_dup_step hc sa da filled.length srcs.length e k v _ hsrc0 hk hv hda hLi
    have hbytes := keeps_but_bytes hda hkeep
    have hset : (filled ++ List.replicate (e :: srcs).length ((none : Option Nat),
        (none : Option Nat))).set filled.length (some hc.length, some (hc.length + 1)) =
        (filled ++ [(some hc.length, some (hc.length + 1))]) ++
          List.replicate srcs.length (none, none) := by
      rw [List.set_append_right _ _ (le_refl _)]
      simp [List.replicate_succ]
    rw [hset] at hda4
    have hsrc4 : ∀ (j : Nat) (e2 : Option Nat × Option Nat), srcs[j]? = some e2 →
        load_var h4 sa ((filled ++ [(some hc.length, some (hc.length + 1))]).length + j) =
          some e2 := by
      intro j e2 hj
      have h1 := hsrc (j + 1) e2 (by simpa using hj)
      obtain ⟨a, l, ea, hla, hle⟩ := load_var_some h1
      obtain ⟨a0, l0, ea0, hla0, hle0⟩ := load_var_some hsrc0
      have haa : a0 = a := by rw [ea] at ea0; simpa using ea0.symm
      subst haa
      have hane : a0 ≠ da := by
        intro c
        rw [c, hda] at hla0
        simp only [Option.some.injEq, Block.vars.injEq] at hla0
        rw [← hla0, hLi] at hle0
        simp only [Option.some.injEq] at hle0
        obtain ⟨ak, eak, -⟩ := load_bytes_eq_some.1 hk
        rw [← hle0] at eak
        simp at eak
      rw [ea, load_var_of_load (hkeep.2 a0 _ hane hla)]
      have : (filled ++ [(some hc.length, some (hc.length + 1))]).length + j =
          filled.length + (j + 1) := by simp; omega
      rw [this]
      exact hle
    have hdone4 : read_entries h4 (filled ++ [(some hc.length, some (hc.length + 1))]) =
        some (es_done ++ [⟨k, v⟩]) := by
      apply read_entries_append (read_entries_mono hbytes _ _ hdone)
      simp only [read_entries, hk4, hv4]
    obtain ⟨hf, filled2, hl, hdaf, hlen, hread, hkf⟩ :=
      ih (filled ++ [(some hc.length, some (hc.length + 1))]) h4 (es_done ++ [⟨k, v⟩]) rest
        hsrc4 hda4 (read_entries_mono hbytes _ _ hrest2) hdone4
    refine ⟨hf, filled2, ?_, hdaf, ?_, ?_, keeps_but_trans hkeep hkf⟩
    · rw [List.length_cons, hloop]
      simpa using hl
    · rw [hlen]; simp; omega
    · rw [hread]; simp

theorem heap_record_some {h : Heap} {u : Nat} {r : uevent_t} (hr : heap_record h u = some r) :
    ∃ c es p o, load_event h u = some c ∧ read_store h c = some es ∧
      load_bytes h c.plain = some p ∧ read_optional h c.action_str = some o ∧
      r = { action := c.action, action_str := o, seqnum := c.seqnum, env_vars := es,
            plain := p, plain_s := c.plain_s } := by
  unfold heap_record at hr
  cases hc : load_event h u with
  | none => simp [hc] at hr
  | some c =>
    simp only [hc] at hr
    cases hs : read_store h c with
    | none => simp [hs] at hr
    | some es =>
      cases hp : load_bytes h c.plain with
      | none => simp [hs, hp] at hr
      | some p =>
        cases ho : read_optional h c.action_str with
        | none => simp [hs, hp, ho] at hr
        | some o =>
          simp only [hs, hp, ho, Option.some.injEq] at hr
          exact ⟨c, es, p, o, rfl, hs, hp, ho, hr.symm⟩

theorem read_store_some {h : Heap} {c : uevent_cell} {es : List env_var_t}
    (hs : read_store h c = some es) :
    ∃ srcs, srcs.length = c.env_vars_c ∧ read_entries h srcs = some es ∧
      ∀ (j : Nat) (e : Option Nat × Option Nat), srcs[j]? = some e →
        load_var h c.env_vars j = some e := by
  unfold read_store at hs
  by_cases h0 : c.env_vars_c = 0
  · simp only [h0, if_true, Option.some.injEq] at hs
    subst hs
    exact ⟨[], by simp [h0], rfl, fun j e hj => by simp at hj⟩
  · simp only [h0, if_false] at hs
    cases hv : load_vars h c.env_vars with
    | none => simp [hv] at hs
    | some l =>
      simp only [hv] at hs
      by_cases hle : c.env_vars_c ≤ l.length
      · simp only [hle, if_true] at hs
        refine ⟨l.take c.env_vars_c, by simp [hle], hs, ?_⟩
        intro j e hj
        unfold load_var
        rw [hv]
        rw [List.getElem?_take] at hj
        split at hj
        · exact hj
        · simp at hj
      · simp [hle] at hs

/-- `uevent_dup` through the heap: the copy is a new record at the first
unused address, it holds the value `uevent_dup` computes from the source
record, and every block the heap had is kept, so the copy and its array
lie above all of them. -/
theorem heap_dup_spec (h : Heap) (src : Nat) (r : uevent_t)
    (hr : heap_record h src = some r) (hp : r.plain_s = r.plain.length) :
    ∃ h2, heap_dup h src = some (h.length, h2) ∧
      heap_record h2 h.length = some { r with action_str := none, seqnum := none } ∧
      keeps h h2 ∧ owned h.length h.length h2 ∧ arrayed h2 h.length := by
  obtain ⟨c, es, p, o, hc, hs, hpl, -, rfl⟩ := heap_record_some hr
  simp only at hp
  obtain ⟨srcs, hlen, hread, hsrcs⟩ := read_store_some hs
  have hcond : ¬ (c.plain_s < 0 ∨ (p.length : Int) < c.plain_s) := by omega
  have htake : p.take c.plain_s.toNat = p := by rw [hp]; simp
  obtain ⟨cell, hcell⟩ : ∃ cell : uevent_cell, cell =
      { action := c.action, action_str := none, seqnum := none,
        env_vars := some (h.length + 1), env_vars_c := c.env_vars_c,
        plain := some (h.length + 2), plain_s := c.plain_s } := ⟨_, rfl⟩
  obtain ⟨h1, hh1⟩ : ∃ h1 : Heap, h1 = h ++ [some (Block.event cell),
      some (Block.vars (List.replicate c.env_vars_c (none, none))),
      some (Block.bytes p)] := ⟨_, rfl⟩
  have hk1 : keeps h h1 := by rw [hh1]; exact keeps_append h _
  have hl0 : load h1 h.length = some (Block.event cell) := by
    rw [hh1]; exact load_append_new h _ _
  have hl1 : load h1 (h.length + 1) =
      some (Block.vars (List.replicate c.env_vars_c (none, none))) := by
    rw [hh1, load_eq_some, List.getElem?_append_right (by omega)]
    simp
  have hl2 : load h1 (h.length + 2) = some (Block.bytes p) := by
    rw [hh1, load_eq_some, List.getElem?_append_right (by omega)]
    simp
  have hsrc1 : ∀ (j : Nat) (e : Option Nat × Option Nat), srcs[j]? = some e →
      load_var h1 c.env_vars (([] : List (Option Nat × Option Nat)).length + j) = some e := by
    intro j e hj
    obtain ⟨a, l, ea, hla, hle⟩ := load_var_some (hsrcs j e hj)
    rw [ea, load_var_of_load (hk1.2 a _ hla)]
    simpa using hle
  obtain ⟨hf, filled2, hloop, hdaf, hlenf, hreadf, hkeep⟩ :=
    heap_dup_loop_spec c.env_vars (h.length + 1) srcs [] h1 [] es hsrc1
      (by rw [hlen]; simpa using hl1) (read_entries_mono (keeps_bytes hk1) _ _ hread) rfl
  simp only [List.length_nil, Nat.zero_add, List.nil_append] at hloop hlenf hreadf
  rw [hlen] at hloop hlenf
  have hdup : heap_dup h src = some (h.length, hf) := by
    simp only [heap_dup, hc, hpl, hcond, if_false, htake]
    rw [← hcell, ← hh1, hloop]
  have hlf0 : load hf h.length = some (Block.event cell) := hkeep.2 _ _ (by omega) hl0
  have hlf2 : load hf (h.length + 2) = some (Block.bytes p) := hkeep.2 _ _ (by omega) hl2
  refine ⟨hf, hdup, ?_, ?_, ?_, ?_⟩
  · have hce : load_event hf h.length = some cell := load_event_eq_some.2 hlf0
    have hst : read_store hf cell = some es := by
      unfold read_store
      have hcc : cell.env_vars_c = c.env_vars_c := by rw [hcell]
      have hcv : cell.env_vars = some (h.length + 1) := by rw [hcell]
      by_cases h0 : c.env_vars_c = 0
      · have : srcs = [] := List.eq_nil_of_length_eq_zero (by rw [hlen, h0])
        subst this
        have : es = [] := by simpa [read_entries] using hread.symm
        subst this
        simp [hcc, h0]
      · simp only [hcc, h0, if_false, hcv, load_vars_eq_some.2 ⟨_, rfl, hdaf⟩, hlenf,
          le_refl, if_true]
        rw [← hlenf, List.take_length]
        exact hreadf
    have hpf : load_bytes hf cell.plain = some p := by
      rw [hcell]
      exact load_bytes_eq_some.2 ⟨_, rfl, hlf2⟩
    have hof : read_optional hf cell.action_str = some none := by
      rw [hcell]
      rfl
    simp only [heap_record, hce, hst, hpf, hof]
    rw [hcell]
  · refine ⟨le_trans hk1.1 hkeep.1, ?_⟩
    intro a b hl
    have hlt := load_lt hl
    exact hkeep.2 a b (by omega) (hk1.2 a b hl)
  · refine ⟨le_refl _, ?_⟩
    intro c2 hc2 a ha
    rw [load_event_eq_some, hlf0] at hc2
    simp only [Option.some.injEq, Block.event.injEq] at hc2
    rw [← hc2, hcell] at ha
    simp only [Option.some.injEq] at ha
    omega
  · intro c2 hc2 a ha
    rw [load_event_eq_some, hlf0] at hc2
    simp only [Option.some.injEq, Block.event.injEq] at hc2
    rw [← hc2, hcell] at ha
    simp only [Option.some.injEq] at ha
    rw [← ha]
    exact ⟨filled2, hdaf⟩

/-! ## `uevent_add_env` on a record in the heap -/

theorem xrealloc_spec (moves : Nat → Bool) (h : Heap) (p : Option Nat) (n : Nat)
    (harr : ∀ a0, p = some a0 → ∃ l, load h a0 = some (Block.vars l)) :
    ∃ a h1 l2, xrealloc moves h p n = some (a, h1) ∧ load h1 a = some (Block.vars l2) ∧
      l2.length = n ∧
      (∀ (j : Nat) (e : Option Nat × Option Nat), j < n → load_var h p j = some e →
        l2[j]? = some e) ∧
      (∀ x b, (∀ l, b ≠ Block.vars l) → load h x = some b → load h1 x = some b) ∧
      h.length ≤ h1.length := by
  cases p with
  | none =>
    refine ⟨h.length, h ++ [some (Block.vars (List.replicate n (none, none)))],
      List.replicate n (none, none), rfl, load_append_new h [] _, by simp, ?_, ?_, by simp⟩
    · intro j e _ hj
      simp [load_var, load_vars] at hj
    · intro x b _ hl
      exact load_append _ hl
  | some a0 =>
    obtain ⟨l, hl⟩ := harr a0 rfl
    have ha0 : a0 < h.length := load_lt hl
    obtain ⟨l2, hl2⟩ : ∃ l2 : List (Option Nat × Option Nat),
        l2 = l.take n ++ List.replicate (n - l.length) (none, none) := ⟨_, rfl⟩
    have hlen : l2.length = n := by
      rw [hl2]
      simp only [List.length_append, List.length_take, List.length_replicate]
      omega
    have hold : ∀ (j : Nat) (e : Option Nat × Option Nat), j < n →
        load_var h (some a0) j = some e → l2[j]? = some e := by
      intro j e hj hv
      rw [load_var_of_load hl] at hv
      have hjl : j < l.length := by
        by_contra hc
        rw [List.getElem?_eq_none (by omega)] at hv
        simp at hv
      rw [hl2, List.getElem?_append_left (by simp; omega), List.getElem?_take]
      simp [hj, hv]
    by_cases hm : moves a0 = true
    · refine ⟨h.length, (h ++ [some (Block.vars l2)]).set a0 none, l2, ?_, ?_, hlen, hold,
        ?_, ?_⟩
      · simp only [xrealloc, hl, hm, if_true, hl2]
      · rw [load_set_ne _ a0 _ _ (by omega)]
        exact load_append_new h [] _
      · intro x b hb hx
        have hne : a0 ≠ x := fun c => by
          rw [← c, hl] at hx
          simp only [Option.some.injEq] at hx
          exact hb l hx.symm
        rw [load_set_ne _ a0 x _ hne]
        exact load_append _ hx
      · simp
    · refine ⟨a0, h.set a0 (some (Block.vars l2)), l2, ?_, ?_, hlen, hold, ?_, ?_⟩
      · simp only [xrealloc, hl, hm, Bool.false_eq_true, if_false, hl2]
      · exact load_set_eq h a0 _ ha0
      · intro x b hb hx
        have hne : a0 ≠ x := fun c => by
          rw [← c, hl] at hx
          simp only [Option.some.injEq] at hx
          exact hb l hx.symm
        rw [load_set_ne _ a0 x _ hne]
        exact hx
      · simp

theorem read_optional_mono {h h2 : Heap}
    (hb : ∀ p s, load_bytes h p = some s → load_bytes h2 p = some s) (p : Option Nat)
    (o : Option (List Nat)) (ho : read_optional h p = some o) : read_optional h2 p = some o := by
  unfold read_optional at ho ⊢
  cases p with
  | none => exact ho
  | some a =>
    simp only at ho ⊢
    cases hl : load_bytes h (some a) with
    | none => simp [hl] at ho
    | some s =>
      simp only [hl] at ho
      simp only [hb _ _ hl]
      exact ho

theorem store_key_at {h : Heap} {a c : Nat} {L : List (Option Nat × Option Nat)}
    {e : Option Nat × Option Nat} (k : Nat) (hla : load h a = some (Block.vars L))
    (hLc : L[c]? = some e) :
    store_key h (some a) c k = some (h.set a (some (Block.vars (L.set c (some k, e.2))))) := by
  have hc : c < L.length := by
    by_contra hcon
    rw [List.getElem?_eq_none (by omega)] at hLc
    simp at hLc
  simp only [store_key, load_var_of_load hla, hLc, store_var_of_load _ hla hc]

theorem store_value_at {h : Heap} {a c : Nat} {L : List (Option Nat × Option Nat)}
    {e : Option Nat × Option Nat} (v : Nat) (hla : load h a = some (Block.vars L))
    (hLc : L[c]? = some e) :
    store_value h (some a) c v = some (h.set a (some (Block.vars (L.set c (e.1, some v))))) := by
  have hc : c < L.length := by
    by_contra hcon
    rw [List.getElem?_eq_none (by omega)] at hLc
    simp at hLc
  simp only [store_value, load_var_of_load hla, hLc, store_var_of_load _ hla hc]

/-- What the heap holds once `uevent_add_env` has appended one entry to the
record at `u`: the record with one more entry, its array, the two new
strings, and every other block that is not an array. -/
theorem heap_push_loads (moves : Nat → Bool) (h : Heap) (u : Nat) (c : uevent_cell)
    (key value : List Nat) (tmp : Option (List Nat))
    (hc : load_event h u = some c) (har : arrayed h u) :
    ∃ h2 a lf ka va, heap_push moves h u key value tmp = some h2 ∧
      load_event h2 u =
        some { c with env_vars_c := c.env_vars_c + 1, env_vars := some a } ∧
      load h2 a = some (Block.vars lf) ∧ lf.length = c.env_vars_c + 1 ∧
      lf[c.env_vars_c]? = some (some ka, some va) ∧
      load_bytes h2 (some ka) = some key ∧ load_bytes h2 (some va) = some value ∧
      (∀ (j : Nat) (e : Option Nat × Option Nat), j < c.env_vars_c →
        load_var h c.env_vars j = some e → lf[j]? = some e) ∧
      (∀ p s, load_bytes h p = some s → load_bytes h2 p = some s) := by
  obtain ⟨a, h1, l2, hx, hla1, hlen2, hold, hkept1, hlen1⟩ :=
    xrealloc_spec moves h c.env_vars (c.env_vars_c + 1) (fun a0 ha0 => har c hc a0 ha0)
  have hu1 : load h1 u = some (Block.event c) :=
    hkept1 u _ (fun l => by simp) (load_event_eq_some.1 hc)
  have hult : u < h1.length := load_lt hu1
  have hau : a ≠ u := fun e => by rw [e, hu1] at hla1; simp at hla1
  -- the record is updated
  obtain ⟨cell, hcell⟩ : ∃ cell : uevent_cell,
      cell = { c with env_vars_c := c.env_vars_c + 1, env_vars := some a } := ⟨_, rfl⟩
  obtain ⟨g2, hg2⟩ : ∃ g2 : Heap, g2 = h1.set u (some (Block.event cell)) := ⟨_, rfl⟩
  have hg2len : g2.length = h1.length := by rw [hg2]; simp
  have hg2u : load g2 u = some (Block.event cell) := by rw [hg2]; exact load_set_eq h1 u _ hult
  have hg2a : load g2 a = some (Block.vars l2) := by
    rw [hg2, load_set_ne h1 u a _ (fun e => hau e.symm)]; exact hla1
  have hg2b : ∀ p s, load_bytes h p = some s → load_bytes g2 p = some s := by
    intro p s hp
    obtain ⟨x, ex, hlx⟩ := load_bytes_eq_some.1 hp
    have hxu : u ≠ x := fun e => by
      rw [← e, load_event_eq_some.1 hc] at hlx; simp at hlx
    refine load_bytes_eq_some.2 ⟨x, ex, ?_⟩
    rw [hg2, load_set_ne h1 u x _ hxu]
    exact hkept1 x _ (fun l => by simp) hlx
  have hclt : c.env_vars_c < l2.length := by omega
  obtain ⟨e0, he0⟩ : ∃ e0, l2[c.env_vars_c]? = some e0 :=
    ⟨_, List.getElem?_eq_getElem hclt⟩
  have halt : a < g2.length := load_lt hg2a
  -- the key
  obtain ⟨g4, hg4⟩ : ∃ g4 : Heap, g4 = (g2 ++ [some (Block.bytes key)]).set a
      (some (Block.vars (l2.set c.env_vars_c (some g2.length, e0.2)))) := ⟨_, rfl⟩
  have hkey : store_key (g2 ++ [some (Block.bytes key)]) (some a) c.env_vars_c g2.length =
      some g4 := by
    rw [hg4]
    exact store_key_at _ (load_append _ hg2a) he0
  have hg4len : g4.length = g2.length + 1 := by rw [hg4]; simp
  have hg4a : load g4 a =
      some (Block.vars (l2.set c.env_vars_c (some g2.length, e0.2))) := by
    rw [hg4]; exact load_set_eq _ a _ (by simp; omega)
  have hg4k : keeps_but a g2 g4 := by
    rw [hg4]
    exact keeps_but_trans (keeps_but_append a g2 _) (keeps_but_set a _ _)
  have hg4key : load g4 g2.length = some (Block.bytes key) := by
    rw [hg4, load_set_ne _ a _ _ (by omega)]
    exact load_append_new g2 [] _
  have hget4 : (l2.set c.env_vars_c (some g2.length, e0.2))[c.env_vars_c]? =
      some (some g2.length, e0.2) := List.getElem?_set_self hclt
  -- the value, and the facts common to both branches
  have hfin : ∃ h2 va, heap_push moves h u key value tmp = some h2 ∧
      load h2 a = some (Block.vars (l2.set c.env_vars_c (some g2.length, some va))) ∧
      load h2 va = some (Block.bytes value) ∧ keeps_but a g4 h2 ∧ va ≠ a ∧ g4.length ≤ va := by
    cases tmp with
    | none =>
      have hsv := store_value_at (h := g4 ++ [some (Block.bytes value)]) g4.length
        (load_append _ hg4a) hget4
      simp only [List.set_set] at hsv
      refine ⟨(g4 ++ [some (Block.bytes value)]).set a
          (some (Block.vars (l2.set c.env_vars_c (some g2.length, some g4.length)))),
        g4.length, ?_, ?_, ?_, ?_, ?_, le_refl _⟩
      · simp only [heap_push, hc, hx, hu1, malloc]
        rw [← hcell, ← hg2, hkey]
        exact hsv
      · exact load_set_eq _ a _ (by simp; omega)
      · rw [load_set_ne _ a _ _ (by omega)]
        exact load_append_new g4 [] _
      · exact keeps_but_trans (keeps_but_append a g4 _) (keeps_but_set a _ _)
      · omega
    | some t =>
      have hsv := store_value_at
        (h := g4 ++ [some (Block.bytes t)] ++ [some (Block.bytes value)])
        (g4 ++ [some (Block.bytes t)]).length
        (load_append _ (load_append _ hg4a)) hget4
      simp only [List.set_set, List.length_append, List.length_singleton] at hsv
      refine ⟨((g4 ++ [some (Block.bytes t)] ++ [some (Block.bytes value)]).set a
          (some (Block.vars (l2.set c.env_vars_c (some g2.length, some (g4.length + 1)))))).set
            g4.length none,
        g4.length + 1, ?_, ?_, ?_, ?_, ?_, by omega⟩
      · simp only [heap_push, hc, hx, hu1, malloc]
        rw [← hcell, ← hg2, hkey]
        simp only [List.length_append, List.length_singleton, hsv]
      · rw [load_set_ne _ g4.length a _ (by omega)]
        exact load_set_eq _ a _ (by simp; omega)
      · rw [load_set_ne _ g4.length _ _ (by omega), load_set_ne _ a _ _ (by omega)]
        have : g4.length + 1 = (g4 ++ [some (Block.bytes t)]).length := by simp
        rw [this]
        exact load_append_new _ [] _
      · refine ⟨by simp, ?_⟩
        intro x b hxa hlx
        have hxlt := load_lt hlx
        rw [load_set_ne _ g4.length x _ (by omega), load_set_ne _ a x _ (fun e => hxa e.symm)]
        exact load_append _ (load_append _ hlx)
      · omega
  obtain ⟨h2, va, hpush, hfa, hfv, hfk, hvane, hvage⟩ := hfin
  have hk24 : keeps_but a g2 h2 := keeps_but_trans hg4k hfk
  refine ⟨h2, a, _, g2.length, va, hpush, ?_, hfa, by simp [hlen2], ?_, ?_, ?_, ?_, ?_⟩
  · rw [← hcell]
    exact load_event_eq_some.2 (hk24.2 u _ (fun e => hau e.symm) hg2u)
  · exact List.getElem?_set_self hclt
  · exact load_bytes_eq_some.2 ⟨_, rfl, hfk.2 _ _ (by omega) hg4key⟩
  · exact load_bytes_eq_some.2 ⟨_, rfl, hfv⟩
  · intro j e hj hv
    rw [List.getElem?_set_ne (by omega)]
    exact hold j e (by omega) hv
  · intro p s hp
    obtain ⟨x, ex, hlx⟩ := load_bytes_eq_some.1 (hg2b p s hp)
    have hxa : x ≠ a := fun e => by rw [e, hg2a] at hlx; simp at hlx
    exact load_bytes_eq_some.2 ⟨x, ex, hk24.2 x _ hxa hlx⟩

/-- One entry appended through the heap is one entry appended to the record
the heap holds. -/
theorem heap_push_spec (moves : Nat → Bool) (h : Heap) (u : Nat) (r : uevent_t)
    (key value : List Nat) (tmp : Option (List Nat))
    (hr : heap_record h u = some r) (har : arrayed h u) :
    ∃ h2, heap_push moves h u key value tmp = some h2 ∧
      heap_record h2 u = some { r with env_vars := r.env_vars ++ [⟨key, value⟩] } ∧
      arrayed h2 u := by
  obtain ⟨c, es, p, o, hc, hs, hpl, ho, rfl⟩ := heap_record_some hr
  obtain ⟨srcs, hlen, hread, hsrcs⟩ := read_store_some hs
  obtain ⟨h2, a, lf, ka, va, hpush, hcell, hla, hlflen, hlast, hkey, hval, hold, hbytes⟩ :=
    heap_push_loads moves h u c key value tmp hc har
  have hlf : lf = srcs ++ [(some ka, some va)] := by
    apply List.ext_getElem?
    intro j
    by_cases hj : j < c.env_vars_c
    · obtain ⟨e, he⟩ : ∃ e, srcs[j]? = some e := ⟨_, List.getElem?_eq_getElem (by omega)⟩
      rw [hold j e hj (hsrcs j e he), List.getElem?_append_left (by omega), he]
    · by_cases hj2 : j = c.env_vars_c
      · subst hj2
        rw [hlast, ← hlen, getElem?_mid]
      · rw [List.getElem?_eq_none (by omega), List.getElem?_eq_none (by simp; omega)]
  have hentries : read_entries h2 lf = some (es ++ [⟨key, value⟩]) := by
    rw [hlf]
    apply read_entries_append (read_entries_mono hbytes _ _ hread)
    simp only [read_entries, hkey, hval]
  refine ⟨h2, hpush, ?_, ?_⟩
  · have hst : read_store h2
        { c with env_vars_c := c.env_vars_c + 1, env_vars := some a } =
        some (es ++ [⟨key, value⟩]) := by
      simp only [read_store, Nat.add_one_ne_zero, if_false, load_vars_eq_some.2 ⟨a, rfl, hla⟩,
        hlflen, le_refl, if_true]
      rw [← hlflen, List.take_length]
      exact hentries
    simp only [heap_record, hcell, hst, hbytes _ _ hpl, read_optional_mono hbytes _ _ ho]
  · intro c2 hc2 a2 ha2
    rw [hcell] at hc2
    simp only [Option.some.injEq] at hc2
    rw [← hc2] at ha2
    simp only [Option.some.injEq] at ha2
    rw [← ha2]
    exact ⟨lf, hla⟩

/-- `uevent_add_env` through the heap does to the record the heap holds what
`uevent_add_env` does to the record as a value, with the same return value
and the same memory: it returns whenever the item is a string. -/
theorem heap_add_env_spec (moves : Nat → Bool) (h : Heap) (u : Nat) (r : uevent_t)
    (mem : List Nat) (item : Nat) (ret : Int) (r2 : uevent_t) (m2 : List Nat)
    (hr : heap_record h u = some r) (har : arrayed h u)
    (hv : uevent_add_env r mem item = Outcome.done (ret, r2, m2)) :
    ∃ h2, heap_add_env moves h u mem item = some (ret, h2, m2) ∧
      heap_record h2 u = some r2 ∧ arrayed h2 u := by
  unfold uevent_add_env at hv
  unfold heap_add_env
  cases hs : strchr 61 (mem.drop item) with
  | oob => simp [hs] at hv
  | null =>
    simp only [hs, Outcome.done.injEq, Prod.mk.injEq] at hv
    obtain ⟨e1, e2, e3⟩ := hv
    subst e1 e2 e3
    exact ⟨h, rfl, hr, har⟩
  | found k =>
    simp only [hs] at hv ⊢
    cases hkey : cstr ((mem.set (item + k) 0).drop item) with
    | none => simp [hkey] at hv
    | some key =>
      cases hval : cstr ((mem.set (item + k) 0).drop (item + k + 1)) with
      | none => simp [hkey, hval] at hv
      | some value =>
        simp only [hkey, hval, Outcome.done.injEq, Prod.mk.injEq] at hv
        obtain ⟨e1, e2, e3⟩ := hv
        obtain ⟨h1, hp1, hr1, har1⟩ := heap_push_spec moves h u r key value none hr har
        simp only [hp1]
        by_cases hd : strcmp key (str "DEVPATH") = 0
        · simp only [hd, if_true] at e2 ⊢
          obtain ⟨h3, hp2, hr2, har2⟩ := heap_push_spec moves h1 u _ (str "DEVICENAME")
            (basename value) (some value) hr1 har1
          simp only [hp2]
          refine ⟨h3, by rw [e1, e3], ?_, har2⟩
          rw [hr2, ← e2]
        · simp only [hd, if_false] at e2 ⊢
          refine ⟨h1, by rw [e1, e3], ?_, har1⟩
          rw [hr1, ← e2]

/-! ## The copy shares nothing with its source -/

/-- C13: on a heap that holds the record `r` at address `src`, its `plain`
block holding `plain_s` bytes, `uevent_dup` returns a new record at a fresh
address `d`.  The copy has the same action, `plain_s`, `plain` bytes and
`(key, value)` pairs in the same order as `r`, so each lookup gives the same
on both, and the source still holds `r`.  The copy shares no block with the
source: whenever `uevent_add_env` is then applied to the copy, wherever
`xrealloc` puts the array, the source still holds `r` and every lookup on it
gives what it gave before; and the call on the copy returns for every item
the value-level call returns for, with its result in the copy. -/
theorem dup_independent (h : Heap) (src : Nat) (r : uevent_t)
    (hr : heap_record h src = some r) (hp : r.plain_s = r.plain.length) :
    ∃ d h2 r2, heap_dup h src = some (d, h2) ∧ uevent_dup r = Outcome.done r2 ∧ d ≠ src ∧
      heap_record h2 d = some r2 ∧ heap_record h2 src = some r ∧
      r2.action = r.action ∧ r2.plain_s = r.plain_s ∧ r2.plain = r.plain ∧
      r2.env_vars.length = r.env_vars.length ∧ r2.env_vars = r.env_vars ∧
      (∀ k, heap_getvalue h2 d k = some (uevent_getvalue r k)) ∧
      (∀ k, heap_getvalue h2 src k = some (uevent_getvalue r k)) ∧
      (∀ k, heap_getvalue h src k = some (uevent_getvalue r k)) ∧
      (∀ (moves : Nat → Bool) (mem : List Nat) (item : Nat) (ret : Int) (h3 : Heap)
          (m3 : List Nat),
        heap_add_env moves h2 d mem item = some (ret, h3, m3) →
        heap_record h3 src = some r ∧
          ∀ k, heap_getvalue h3 src k = some (uevent_getvalue r k)) ∧
      ∀ (moves : Nat → Bool) (mem : List Nat) (item : Nat) (ret : Int) (r3 : uevent_t)
          (m3 : List Nat),
        uevent_add_env r2 mem item = Outcome.done (ret, r3, m3) →
        ∃ h3, heap_add_env moves h2 d mem item = some (ret, h3, m3) ∧
          heap_record h3 d = some r3 := by
  obtain ⟨h2, hdup, hrec2, hkeep, hown, harr⟩ := heap_dup_spec h src r hr hp
  obtain ⟨c, -, -, -, hc, -, -, -, -⟩ := heap_record_some hr
  have hsrclt : src < h.length := load_lt (load_event_eq_some.1 hc)
  have hrsrc2 : heap_record h2 src = some r := heap_record_keeps hkeep src r hr
  have hc0 : ¬ (r.plain_s < 0 ∨ (r.plain.length : Int) < r.plain_s) := by omega
  have htake : r.plain.take r.plain_s.toNat = r.plain := by rw [hp]; simp
  have hmap : r.env_vars.map (fun e => (⟨e.key, e.value⟩ : env_var_t)) = r.env_vars := by
    induction r.env_vars with
    | nil => rfl
    | cons e l ih => simp [ih]
  have hval : uevent_dup r = Outcome.done { r with action_str := none, seqnum := none } := by
    simp only [uevent_dup, hc0, if_false, htake, hmap]
  refine ⟨h.length, h2, { r with action_str := none, seqnum := none }, hdup, hval, by omega,
    hrec2, hrsrc2, rfl, rfl, rfl, rfl, rfl, ?_, ?_, ?_, ?_, ?_⟩
  · intro k
    have hg := heap_getvalue_spec h2 h.length
      { r with action_str := none, seqnum := none } k hrec2
    rw [hg]
    rfl
  · intro k
    exact heap_getvalue_spec h2 src r k hrsrc2
  · intro k
    exact heap_getvalue_spec h src r k hr
  · intro moves mem item ret h3 m3 ha
    obtain ⟨hk3, -⟩ := heap_add_env_frame moves h h2 h3 h.length mem item ret m3 hkeep hown ha
    have hr3 : heap_record h3 src = some r := heap_record_keeps hk3 src r hr
    exact ⟨hr3, fun k => heap_getvalue_spec h3 src r k hr3⟩
  · intro moves mem item ret r3 m3 hv
    obtain ⟨h3, ha, hr3, -⟩ :=
      heap_add_env_spec moves h2 h.length _ mem item ret r3 m3 hrec2 harr hv
    exact ⟨h3, ha, hr3⟩

theorem dup_independent_witness :
    heap_record example_heap 0 = some example_record ∧
      example_record.plain_s = example_record.plain.length ∧
      (heap_dup example_heap 0).map (fun x => x.1) = some 10 ∧
      ((heap_dup example_heap 0).bind (fun x =>
          (heap_add_env (fun _ => true) x.2 x.1 (str "DEVPATH=/a/b\x00") 0).bind (fun y =>
            heap_record y.2.1 x.1))) =
        some
          { example_record with
            action_str := none
            seqnum := none
            env_vars := example_record.env_vars ++
              [⟨str "DEVPATH", str "/a/b"⟩, ⟨str "DEVICENAME", str "b"⟩] } ∧
      ((heap_dup example_heap 0).bind (fun x =>
          (heap_add_env (fun _ => true) x.2 x.1 (str "DEVPATH=/a/b\x00") 0).bind (fun y =>
            heap_getvalue y.2.1 0 (str "DEVPATH")))) = some (some (str "/devices/x")) ∧
      ((heap_add_env (fun _ => true) example_heap 0 (str "DEVPATH=/a/b\x00") 0).bind (fun y =>
          heap_record y.2.1 0)) ≠ some example_record ∧
      ∃ d h2 r2, heap_dup example_heap 0 = some (d, h2) ∧
        uevent_dup example_record = Outcome.done r2 ∧ d ≠ 0 ∧
        heap_record h2 d = some r2 ∧ heap_record h2 0 = some example_record ∧
        r2.action = example_record.action ∧ r2.plain_s = example_record.plain_s ∧
        r2.plain = example_record.plain ∧
        r2.env_vars.length = example_record.env_vars.length ∧
        r2.env_vars = example_record.env_vars ∧
        (∀ k, heap_getvalue h2 d k = some (uevent_getvalue example_record k)) ∧
        (∀ k, heap_getvalue h2 0 k = some (uevent_getvalue example_record k)) ∧
        (∀ k, heap_getvalue example_heap 0 k = some (uevent_getvalue example_record k)) ∧
        (∀ (moves : Nat → Bool) (mem : List Nat) (item : Nat) (ret : Int) (h3 : Heap)
            (m3 : List Nat),
          heap_add_env moves h2 d mem item = some (ret, h3, m3) →
          heap_record h3 0 = some example_record ∧
            ∀ k, heap_getvalue h3 0 k = some (uevent_getvalue example_record k)) ∧
        ∀ (moves : Nat → Bool) (mem : List Nat) (item : Nat) (ret : Int) (r3 : uevent_t)
            (m3 : List Nat),
          uevent_add_env r2 mem item = Outcome.done (ret, r3, m3) →
          ∃ h3, heap_add_env moves h2 d mem item = some (ret, h3, m3) ∧
            heap_record h3 d = some r3 :=
  ⟨by decide, by decide, by decide, by decide, by decide, by decide,
    dup_independent example_heap 0 example_record (by decide) (by decide)⟩

end Uevent
